import Mathlib

/-!
# Verification of the threadify submission pipeline

A shallow embedding, in Lean 4, of the core logic of the `threadify`
repository: URL canonicalization (`app/services/canonicalize.py`),
duplicate detection (`app/services/duplicate_detection.py`), the posting
engine (`app/services/post_x.py`) and the duplicate gate of the API submit
handler (`app/api/routes.py`).

Python strings are modelled as lists of Unicode code points (`PyStr`);
the pieces of `urllib.parse` that the code calls (`urlparse`, `parse_qs`,
`urlencode`, `quote_plus`, `unquote`) are modelled byte- and
code-point-faithfully, including UTF-8 encoding/decoding of percent
escapes.  Stateful collaborators (the HTTP client doubles, the sleeper,
`random.uniform`) are explicit function parameters, exactly as the Python
code receives them through its injection parameters.
-/

namespace Threadify

/-- Python `str`, modelled as the list of Unicode code points. -/
abbrev PyStr := List Nat

/-- Convert a Lean string literal to the code-point model. -/
def pyStr (s : String) : PyStr := s.toList.map Char.toNat

/-! ## Duplicate detection (`app/services/duplicate_detection.py`) -/

/-- The fields of a persisted `Run` row that the duplicate query reads
(`app/db/models.py`): surrogate id, account reference, canonical URL,
lifecycle status and submission timestamp. -/
structure Run where
  id : Int
  account_id : Int
  canonical_url : PyStr
  status : PyStr
  submitted_at : Int
deriving Repr, DecidableEq

/-- `DuplicateDetectionResult` dataclass
(`duplicate_detection.py`, lines 10–16). -/
structure DuplicateDetectionResult where
  is_duplicate : Bool
  previous_run_id : Option Int := none
  should_block : Bool := false
deriving Repr, DecidableEq

/-- The filter of the duplicate query: same account, same canonical URL,
status in `["completed", "approved"]` (`duplicate_detection.py`, lines 48–57). -/
def duplicateFilter (account_id : Int) (canonical_url : PyStr) (r : Run) : Bool :=
  r.account_id = account_id && r.canonical_url = canonical_url &&
    (r.status = pyStr "completed" || r.status = pyStr "approved")

/-- Model of `.order_by(Run.submitted_at.desc()).first()`: the head of a
stable descending sort on `submitted_at`, i.e. the leftmost row of maximal
`submitted_at`. -/
def firstBySubmittedAtDesc (rows : List Run) : Option Run :=
  rows.foldl (fun acc r =>
    match acc with
    | none => some r
    | some best => if best.submitted_at < r.submitted_at then some r else some best) none

/-- The duplicate query of `check_duplicate` (`duplicate_detection.py`,
lines 48–57): filter, then order by `submitted_at` descending, then `.first()`. -/
def queryExistingRun (db : List Run) (account_id : Int) (canonical_url : PyStr) :
    Option Run :=
  firstBySubmittedAtDesc (db.filter (duplicateFilter account_id canonical_url))

/-- `check_duplicate` (`duplicate_detection.py`, lines 19–75), with the
database session modelled as the list of persisted `Run` rows. -/
def check_duplicate (db : List Run) (account_id : Int) (canonical_url : PyStr)
    (mode : PyStr) (force : Bool) : DuplicateDetectionResult :=
  match queryExistingRun db account_id canonical_url with
  | none => { is_duplicate := false }
  | some run =>
    let should_block :=
      if mode = pyStr "auto" && !force then true
      else if mode = pyStr "review" then false
      else false
    { is_duplicate := true, previous_run_id := some run.id, should_block := should_block }

/-! ## The duplicate gate of the API submit handler (`app/api/routes.py`) -/

/-- Python attribute lookup on a `DuplicateDetectionResult` object: the
dataclass defines exactly the attributes `is_duplicate`, `previous_run_id`
and `should_block`; any other name raises `AttributeError` (modelled as
`none`). -/
def DuplicateDetectionResult.getAttrBool (r : DuplicateDetectionResult)
    (name : PyStr) : Option Bool :=
  if name = pyStr "is_duplicate" then some r.is_duplicate
  else if name = pyStr "should_block" then some r.should_block
  else none

/-- Outcome of the duplicate gate of `api_submit` (`api/routes.py`,
lines 79–91). -/
inductive SubmitGateOutcome where
  /-- `HTTPException(status_code=409, detail=...)` carrying the previous
  run id read from the detection result. -/
  | conflict409 (previous_run_id : Option Int)
  /-- an uncaught `AttributeError` for the named attribute (surfaces as a
  generic server error, not as a 409 rejection). -/
  | attributeError (name : PyStr)
  /-- the handler falls through to scraping/generation/persistence. -/
  | proceeds
deriving Repr, DecidableEq

/-- Steps 1–2 of `api_submit` (`api/routes.py`, lines 75–91): canonicalize
is already done (the canonical URL is a parameter here), then
`check_duplicate`, then
`if duplicate_check.is_duplicate and duplicate_check.blocks_submission:`.
The `and` short-circuits, so the attribute `blocks_submission` is only
looked up when `is_duplicate` is true; the lookup itself is modelled with
`DuplicateDetectionResult.getAttrBool` because `blocks_submission` is not a
field of the dataclass. -/
def apiSubmitDuplicateGate (db : List Run) (account_id : Int)
    (canonical_url : PyStr) (mode : PyStr) (force : Bool) : SubmitGateOutcome :=
  let duplicate_check := check_duplicate db account_id canonical_url mode force
  if duplicate_check.is_duplicate then
    match duplicate_check.getAttrBool (pyStr "blocks_submission") with
    | none => .attributeError (pyStr "blocks_submission")
    | some b => if b then .conflict409 duplicate_check.previous_run_id else .proceeds
  else .proceeds

/-! ## Posting engine (`app/services/post_x.py`)

The HTTP double `http_post` is modelled as a state-threading function
`S → XRequest → (Except PyStr MockResponse) × S` (an `Except.error` is an
exception raised by the call); responses follow the shape of the
`MockResponse` doubles in `tests/test_post_x.py` (`status_code`,
`json_data`, `headers`).  `random.uniform(-0.5, 0.5)` is an injected
stream of rationals, and every `time.sleep`/`sleeper` call and HTTP call
is recorded in an event trace. -/

/-- Python truthiness of a `str`/`bytes` value: `False` for the empty
sequence. -/
def pyTruthy (l : PyStr) : Bool := !l.isEmpty

/-- Python truthiness of an optional `str`/`bytes`: `None` and the empty
sequence are falsy. -/
def pyTruthyOpt (o : Option PyStr) : Bool :=
  match o with
  | none => false
  | some l => !l.isEmpty

/-- The JSON body of a tweet-create request
(`post_x.py`, lines 77–87). -/
structure TweetPayload where
  text : PyStr
  /-- the `"reply": {"in_reply_to_tweet_id": ...}` member, present only when
  `reply_to_tweet_id` is truthy. -/
  reply_to : Option PyStr := none
  /-- the `"media": {"media_ids": [...]}` member, present only when media was
  uploaded. -/
  media_ids : Option (List PyStr) := none
deriving Repr, DecidableEq

/-- One HTTP POST issued by the posting engine, by endpoint. -/
inductive XRequest where
  /-- `https://api.twitter.com/2/tweets` -/
  | tweets (payload : TweetPayload)
  /-- `https://upload.twitter.com/1.1/media/upload.json` -/
  | mediaUpload (media : PyStr)
  /-- `https://upload.twitter.com/1.1/media/metadata/create.json` -/
  | mediaMetadata (media_id : PyStr) (alt_text : PyStr)
deriving Repr, DecidableEq

/-- Model of the `MockResponse` objects the injected `http_post` double
returns (`tests/test_post_x.py`): status code, headers, and the JSON
members the engine reads.  `json_errors` is the `"errors"` member
(`none` when the key is absent), each item being its `"message"` member;
`json_data_id` is the `"data"` member (`none` when absent), holding its
`"id"` member; `json_media_id_string` is the `"media_id_string"` member. -/
structure MockResponse where
  status_code : Nat
  headers : List (PyStr × PyStr) := []
  json_errors : Option (List (Option PyStr)) := none
  json_data_id : Option (Option PyStr) := none
  json_media_id_string : Option PyStr := none
deriving Repr, DecidableEq

/-- Exceptions the engine can raise: `RateLimitError`, `PostError`
(`post_x.py`, lines 13–22) and any other Python exception (e.g. a
transport error escaping `_upload_media`, which no `except` clause in the
engine catches). -/
inductive PyExc where
  | rateLimit (msg : PyStr)
  | postError (msg : PyStr)
  | other (msg : PyStr)
deriving Repr, DecidableEq

/-- `str(e)` of an engine exception. -/
def PyExc.str : PyExc → PyStr
  | .rateLimit msg => msg
  | .postError msg => msg
  | .other msg => msg

/-- `PostResult` dataclass (`post_x.py`, lines 25–32). -/
structure PostResult where
  success : Bool
  tweet_id : Option PyStr := none
  text : Option PyStr := none
  error : Option PyStr := none
deriving Repr, DecidableEq

/-- `ThreadPostResult` dataclass (`post_x.py`, lines 35–42). -/
structure ThreadPostResult where
  success : Bool
  tweet_ids : List PyStr
  failed_at : Option Nat := none
  error : Option PyStr := none
deriving Repr, DecidableEq

instance {ε α : Type} [DecidableEq ε] [DecidableEq α] : DecidableEq (Except ε α)
  | .error a, .error b =>
    if h : a = b then .isTrue (by rw [h]) else .isFalse (by simp [h])
  | .error _, .ok _ => .isFalse (by simp)
  | .ok _, .error _ => .isFalse (by simp)
  | .ok a, .ok b =>
    if h : a = b then .isTrue (by rw [h]) else .isFalse (by simp [h])

/-- Observable side effects of the engine, in order: HTTP calls (with the
double's answer), blocking `time.sleep(2**attempt)` retry backoffs, and
paced `await sleeper(delay)` inter-post delays. -/
inductive Event where
  | call (req : XRequest) (res : Except PyStr MockResponse)
  | backoff (seconds : Nat)
  | paced (delay : ℚ)
deriving Repr, DecidableEq

/-- The stateful HTTP double: Python's injected `http_post` callable. -/
def HttpDouble (S : Type) := S → XRequest → (Except PyStr MockResponse) × S

/-- `response.headers.get(name)`. -/
def MockResponse.headerGet (r : MockResponse) (name : PyStr) : Option PyStr :=
  (r.headers.find? (fun p => p.1 = name)).map (·.2)

/-- `response.json_data.get("errors", [{}])[0].get("message", "Unknown error")`
(`post_x.py`, line 114): an absent `"errors"` key defaults to `[{}]`, an
empty list raises `IndexError` (an exception, modelled as `.error`). -/
def MockResponse.errorsMessage (r : MockResponse) : Except PyStr PyStr :=
  match r.json_errors.getD [none] with
  | [] => .error (pyStr "list index out of range")
  | m :: _ => .ok (m.getD (pyStr "Unknown error"))

/-- `response.json().get("data", {}).get("id")` (`post_x.py`, lines 124–126). -/
def MockResponse.dataId (r : MockResponse) : Option PyStr :=
  match r.json_data_id with
  | none => none
  | some i => i

/-- `_upload_media` (`post_x.py`, lines 231–277): upload call, `PostError`
on status ≥ 400, then a metadata call when both alt text and media id are
truthy.  Exceptions raised by `http_post` itself propagate unwrapped. -/
def upload_media {S : Type} (http_post : HttpDouble S) (media_bytes : PyStr)
    (alt_text : Option PyStr) (s : S) :
    (Except PyExc PyStr) × S × List Event :=
  let (res, s1) := http_post s (.mediaUpload media_bytes)
  let ev := Event.call (.mediaUpload media_bytes) res
  match res with
  | .error e => (.error (.other e), s1, [ev])
  | .ok resp =>
    if 400 ≤ resp.status_code then
      (.error (.postError (pyStr "Failed to upload media")), s1, [ev])
    else
      let media_id := resp.json_media_id_string.getD []
      if pyTruthyOpt alt_text && pyTruthy media_id then
        let alt := alt_text.getD []
        let (res2, s2) := http_post s1 (.mediaMetadata media_id alt)
        match res2 with
        | .error e =>
          (.error (.other e), s2, [ev, .call (.mediaMetadata media_id alt) res2])
        | .ok _ =>
          (.ok media_id, s2, [ev, .call (.mediaMetadata media_id alt) res2])
      else
        (.ok media_id, s1, [ev])

/-- The retry loop of `post_single` (`post_x.py`, lines 90–138).
`remaining` is the number of loop iterations left
(`max_retries - attempt`); `attempt < max_retries - 1` is `1 < remaining`.
A `RateLimitError` raised in the `try` block is re-raised unchanged; every
other exception — including the `PostError` raised on the final attempt of
the status ≥ 400 branch — is caught by `except Exception` and, with no
retries left, wrapped once more into
`PostError(f"Failed to post tweet: {e}")`. -/
def postSingleAttempts {S : Type} (http_post : HttpDouble S) (payload : TweetPayload)
    (s : S) : (attempt : Nat) → (remaining : Nat) →
    (Except PyExc PostResult) × S × List Event
  | _, 0 => (.error (.postError (pyStr "Failed to post tweet after retries")), s, [])
  | attempt, remaining + 1 =>
    let (res, s1) := http_post s (.tweets payload)
    let ev := Event.call (.tweets payload) res
    match res with
    | .error e =>
      if 0 < remaining then
        let (r, s2, tr) := postSingleAttempts http_post payload s1 (attempt + 1) remaining
        (r, s2, ev :: .backoff (2 ^ attempt) :: tr)
      else
        (.error (.postError (pyStr "Failed to post tweet: " ++ e)), s1, [ev])
    | .ok resp =>
      if resp.status_code = 429 then
        let reset_time := resp.headerGet (pyStr "x-rate-limit-reset")
        if 0 < remaining then
          let (r, s2, tr) := postSingleAttempts http_post payload s1 (attempt + 1) remaining
          (r, s2, ev :: .backoff (2 ^ attempt) :: tr)
        else
          (.error (.rateLimit (pyStr "Rate limit exceeded. Reset at: " ++
            (if pyTruthyOpt reset_time then reset_time.getD [] else pyStr "unknown"))),
            s1, [ev])
      else if 400 ≤ resp.status_code then
        match resp.errorsMessage with
        | .ok error_msg =>
          if 0 < remaining then
            let (r, s2, tr) := postSingleAttempts http_post payload s1 (attempt + 1) remaining
            (r, s2, ev :: .backoff (2 ^ attempt) :: tr)
          else
            -- the `raise PostError(...)` of line 121 is caught by
            -- `except Exception` in the same iteration and wrapped again
            (.error (.postError (pyStr "Failed to post tweet: " ++
              (pyStr "Failed to post tweet: " ++ error_msg))), s1, [ev])
        | .error e =>
          -- IndexError from `[0]` on an empty errors list, caught by
          -- `except Exception`
          if 0 < remaining then
            let (r, s2, tr) := postSingleAttempts http_post payload s1 (attempt + 1) remaining
            (r, s2, ev :: .backoff (2 ^ attempt) :: tr)
          else
            (.error (.postError (pyStr "Failed to post tweet: " ++ e)), s1, [ev])
      else
        (.ok { success := true, tweet_id := resp.dataId, text := some payload.text },
          s1, [ev])

/-- `post_single` (`post_x.py`, lines 45–138): build the payload (the reply
member only when `reply_to_tweet_id` is truthy), upload media first when
media bytes are truthy, then run the retry loop. -/
def post_single {S : Type} (http_post : HttpDouble S) (text : PyStr)
    (media : Option PyStr) (media_alt : Option PyStr)
    (reply_to_tweet_id : Option PyStr) (max_retries : Nat) (s : S) :
    (Except PyExc PostResult) × S × List Event :=
  let payload0 : TweetPayload :=
    { text := text,
      reply_to := if pyTruthyOpt reply_to_tweet_id then reply_to_tweet_id else none }
  if pyTruthyOpt media then
    match upload_media http_post (media.getD []) media_alt s with
    | (.error e, s1, tr) => (.error e, s1, tr)
    | (.ok media_id, s1, tr) =>
      let (r, s2, tr2) :=
        postSingleAttempts http_post { payload0 with media_ids := some [media_id] }
          s1 0 max_retries
      (r, s2, tr ++ tr2)
  else
    postSingleAttempts http_post payload0 s 0 max_retries

/-- `x if idx == 0 and x else None` (`post_x.py`, lines 189–190): attach
media (or its alt text) only to the first tweet, and only when truthy. -/
def firstItemOnly (x : Option PyStr) (idx : Nat) : Option PyStr :=
  if idx = 0 && pyTruthyOpt x then x else none

/-- The loop of `post_thread` (`post_x.py`, lines 185–226).  `fuel` is the
number of remaining indices (`len(texts) - idx`); the paced delay (3 s plus
the injected jitter for this index) fires only for `idx > resume_from`. -/
def postThreadGo {S : Type} (http_post : HttpDouble S) (jitter : Nat → ℚ)
    (texts : List PyStr) (media_first : Option PyStr) (media_alt : Option PyStr)
    (resume_from : Nat) (max_retries : Nat) :
    (fuel : Nat) → (idx : Nat) → (tweet_ids : List PyStr) →
    (last_tweet_id : Option PyStr) → (s : S) →
    (Except PyExc ThreadPostResult) × S × List Event
  | 0, _, tweet_ids, _, s => (.ok { success := true, tweet_ids := tweet_ids }, s, [])
  | fuel + 1, idx, tweet_ids, last_tweet_id, s =>
    match texts[idx]? with
    | none => (.ok { success := true, tweet_ids := tweet_ids }, s, [])
    | some text =>
      let paceTr : List Event :=
        if resume_from < idx then [.paced (3 + jitter idx)] else []
      match post_single http_post text (firstItemOnly media_first idx)
          (firstItemOnly media_alt idx) last_tweet_id max_retries s with
      | (.error (.other e), s1, tr) => (.error (.other e), s1, paceTr ++ tr)
      | (.error (.rateLimit e), s1, tr) =>
        (.ok { success := false, tweet_ids := tweet_ids, failed_at := some idx,
               error := some e }, s1, paceTr ++ tr)
      | (.error (.postError e), s1, tr) =>
        (.ok { success := false, tweet_ids := tweet_ids, failed_at := some idx,
               error := some e }, s1, paceTr ++ tr)
      | (.ok result, s1, tr) =>
        if !result.success || !pyTruthyOpt result.tweet_id then
          (.ok { success := false, tweet_ids := tweet_ids, failed_at := some idx,
                 error := some (if pyTruthyOpt result.error then result.error.getD []
                                else pyStr "Unknown error") }, s1, paceTr ++ tr)
        else
          let id := result.tweet_id.getD []
          let (r, s2, tr2) := postThreadGo http_post jitter texts media_first media_alt
            resume_from max_retries fuel (idx + 1) (tweet_ids ++ [id]) (some id) s1
          (r, s2, paceTr ++ tr ++ tr2)

/-- `post_thread` (`post_x.py`, lines 141–228): seed the identifier list
from `previous_tweet_ids` (Python truthiness: `None` and `[]` both seed the
empty list), seed the reply target with its last element, and run the loop
from `resume_from`. -/
def post_thread {S : Type} (http_post : HttpDouble S) (jitter : Nat → ℚ)
    (texts : List PyStr) (media_first : Option PyStr) (media_alt : Option PyStr)
    (resume_from : Nat) (previous_tweet_ids : Option (List PyStr))
    (max_retries : Nat) (s : S) : (Except PyExc ThreadPostResult) × S × List Event :=
  let tweet_ids :=
    match previous_tweet_ids with
    | none => []
    | some l => if l.isEmpty then [] else l
  let last_tweet_id := tweet_ids.getLast?
  postThreadGo http_post jitter texts media_first media_alt resume_from max_retries
    (texts.length - resume_from) resume_from tweet_ids last_tweet_id s

/-! ### Observations on engine traces

These functions read properties off the interaction trace; the theorems
below relate them to the engine's results. -/

/-- The payload of a tweet-create call event, if the event is one. -/
def Event.tweetPayload : Event → Option TweetPayload
  | .call (.tweets p) _ => some p
  | _ => none

/-- All tweet-create payloads of a trace, in order. -/
def tweetPayloads (tr : List Event) : List TweetPayload :=
  tr.filterMap Event.tweetPayload

/-- A response is accepted by the engine when its status is neither 429 nor
an error status and it carries a truthy tweet id (`post_x.py`,
lines 102–128 plus the falsy-id check of line 209). -/
def MockResponse.accepted (resp : MockResponse) : Bool :=
  !(resp.status_code = 429) && resp.status_code < 400 && pyTruthyOpt resp.dataId

/-- The tweet id a trace event contributes to the thread, if any: a
tweet-create call whose response was accepted. -/
def Event.acceptedId : Event → Option PyStr
  | .call (.tweets _) (.ok resp) =>
    if resp.accepted then some (resp.dataId.getD []) else none
  | _ => none

/-- All accepted tweet ids of a trace, in order. -/
def acceptedIds (tr : List Event) : List PyStr :=
  tr.filterMap Event.acceptedId

/-- How the "last posted identifier" evolves over one trace event: an
accepted tweet-create response replaces it, everything else keeps it. -/
def stepLast (last : Option PyStr) : Event → Option PyStr
  | .call (.tweets _) (.ok resp) => if resp.accepted then resp.dataId else last
  | _ => last

/-- The "last posted identifier" after a whole trace. -/
def foldLast (last : Option PyStr) (tr : List Event) : Option PyStr :=
  tr.foldl stepLast last

/-- Reply-chaining invariant of a trace: every tweet-create call carries the
current "last posted identifier" as its reply target when that identifier
is truthy and no reply target otherwise, where the identifier is seeded
with `last` and updated by each accepted response. -/
def chainOk : Option PyStr → List Event → Bool
  | _, [] => true
  | last, e :: rest =>
    (match e with
     | .call (.tweets p) _ =>
       decide (p.reply_to = if pyTruthyOpt last then last else none)
     | _ => true) && chainOk (stepLast last e) rest

/-- The paced inter-post delays of a trace, in order. -/
def pacedDelays (tr : List Event) : List ℚ :=
  tr.filterMap fun e => match e with | .paced d => some d | _ => none

/-- The retry backoff sleeps of a trace, in order. -/
def backoffSleeps (tr : List Event) : List Nat :=
  tr.filterMap fun e => match e with | .backoff n => some n | _ => none

/-- The ids a `post_single` result contributes to the thread: its tweet id
when the call succeeded with a truthy id, nothing otherwise. -/
def resultIds (r : Except PyExc PostResult) : List PyStr :=
  match r with
  | .ok result => if pyTruthyOpt result.tweet_id then [result.tweet_id.getD []]
                  else []
  | .error _ => []

/-- How a `post_single` result updates the "last posted identifier". -/
def resultLast (last : Option PyStr) (r : Except PyExc PostResult) : Option PyStr :=
  match r with
  | .ok result => if pyTruthyOpt result.tweet_id then result.tweet_id else last
  | .error _ => last

/-- The behavioural contract of one `post_single` retry-loop run with
payload `payload`, result `r` and trace `tr`: every tweet-create call
carries the payload built once up front; there are no paced delays; the
accepted ids are exactly the returned truthy tweet id (if any); the "last
posted identifier" is replaced exactly by that id; the trace is
reply-chained from any seed the payload's reply target agrees with; and a
non-exceptional result echoes the text with `success = True`. -/
def PSSpec (payload : TweetPayload) (r : Except PyExc PostResult)
    (tr : List Event) : Prop :=
  (∀ p ∈ tweetPayloads tr, p = payload) ∧
  pacedDelays tr = [] ∧
  acceptedIds tr = resultIds r ∧
  (∀ last, foldLast last tr = resultLast last r) ∧
  (∀ last, payload.reply_to = (if pyTruthyOpt last then last else none) →
    chainOk last tr = true) ∧
  (∀ result, r = .ok result → result.success = true ∧
    result.text = some payload.text)

/-! ## URL canonicalization (`app/services/canonicalize.py`)

`canonicalize` leans on `urllib.parse`; the pieces it calls (`urlparse`,
`parse_qs(keep_blank_values=True)`, `urlencode`, and through them
`quote_plus`/`unquote`) are modelled here over code-point lists, down to
percent escapes and UTF-8 bytes.  Simplifications of the model, each noted
at its definition: `str.lower` is modelled on the ASCII range, IPv6
bracket validation and `_checknetloc` are omitted, and the UTF-8 decoder's
replacement granularity on *invalid* byte sequences (never produced by the
matching encoder) is approximate. -/

/-- Code points stripped by Python `str.strip()` (the `str.isspace`
characters). -/
def isPySpace (c : Nat) : Bool :=
  c = 32 || (9 ≤ c && c ≤ 13) || (28 ≤ c && c ≤ 31) || c = 0x85 || c = 0xA0 ||
  c = 0x1680 || (0x2000 ≤ c && c ≤ 0x200A) || c = 0x2028 || c = 0x2029 ||
  c = 0x202F || c = 0x205F || c = 0x3000

/-- `str.strip()`: drop leading and trailing whitespace. -/
def pyStrip (s : PyStr) : PyStr :=
  ((s.dropWhile isPySpace).reverse.dropWhile isPySpace).reverse

/-- `str.lower()`, modelled on the ASCII range (identity elsewhere). -/
def asciiLower (c : Nat) : Nat := if 65 ≤ c && c ≤ 90 then c + 32 else c

/-- `str.lower()` on a whole string (ASCII model). -/
def pyLower (s : PyStr) : PyStr := s.map asciiLower

/-- `str.startswith(pre)`. -/
def pyStartsWith : PyStr → PyStr → Bool
  | _, [] => true
  | [], _ :: _ => false
  | c :: s, p :: ps => c = p && pyStartsWith s ps

/-- `str.split(sep, 1)`: the part before the first occurrence of `sep`, and
the rest when `sep` occurs. -/
def splitAtFirst (sep : Nat) : PyStr → PyStr × Option PyStr
  | [] => ([], none)
  | a :: rest =>
    if a = sep then ([], some rest)
    else
      let r := splitAtFirst sep rest
      (a :: r.1, r.2)

/-- `str.rsplit(sep, 1)` as an option: the parts around the last
occurrence of `sep`, when present. -/
def splitAtLast (sep : Nat) (s : PyStr) : Option (PyStr × PyStr) :=
  match splitAtFirst sep s.reverse with
  | (_, none) => none
  | (bRev, some aftRev) => some (aftRev.reverse, bRev.reverse)

/-- `str.split(sep)` on a single-character separator. -/
def pySplit (sep : Nat) : PyStr → List PyStr
  | [] => [[]]
  | a :: rest =>
    if a = sep then [] :: pySplit sep rest
    else
      match pySplit sep rest with
      | [] => [[a]]
      | b :: bs => (a :: b) :: bs

/-- ASCII letter. -/
def isAsciiAlpha (c : Nat) : Bool := (65 ≤ c && c ≤ 90) || (97 ≤ c && c ≤ 122)

/-- ASCII digit. -/
def isAsciiDigit (c : Nat) : Bool := 48 ≤ c && c ≤ 57

/-- A character allowed in a URL scheme (`urllib.parse.scheme_chars`). -/
def isSchemeChar (c : Nat) : Bool :=
  isAsciiAlpha c || isAsciiDigit c || c = 43 || c = 45 || c = 46

/-- ASCII hex digit. -/
def isHexDigit (c : Nat) : Bool :=
  isAsciiDigit c || (65 ≤ c && c ≤ 70) || (97 ≤ c && c ≤ 102)

/-- Value of a hex digit. -/
def hexVal (c : Nat) : Nat :=
  if c ≤ 57 then c - 48 else if c ≤ 70 then c - 55 else c - 87

/-- The upper-case hex digit for a nibble, as `quote` emits (`%02X`). -/
def hexDigitUpper (n : Nat) : Nat := if n < 10 then 48 + n else 55 + n

/-- The percent-decoding pass of `urllib.parse.unquote`: each `%` followed
by two hex digits becomes a byte; any other ASCII character stands for its
own byte; a non-ASCII character (which `unquote` keeps out of byte
decoding) is carried as the sentinel `0x100 + c`. -/
def unquoteUnits : PyStr → List Nat
  | [] => []
  | 37 :: a :: b :: rest =>
    if isHexDigit a && isHexDigit b then
      (16 * hexVal a + hexVal b) :: unquoteUnits rest
    else 37 :: unquoteUnits (a :: b :: rest)
  | c :: rest => (if c < 0x80 then c else 0x100 + c) :: unquoteUnits rest

/-- How many bytes a UTF-8 sequence with this leader takes. -/
def utf8NeedLen (lead : Nat) : Nat :=
  if lead < 0xE0 then 2 else if lead < 0xF0 then 3 else 4

/-- Is `b` a valid next byte for the pending partial sequence `st`
(leader first)?  Encodes the WHATWG/CPython second-byte restrictions for
`E0`, `ED`, `F0`, `F4` that rule out overlong encodings and surrogates. -/
def utf8ValidNext (st : List Nat) (b : Nat) : Bool :=
  match st with
  | [] => false
  | lead :: conts =>
    if conts.isEmpty then
      if lead = 0xE0 then 0xA0 ≤ b && b ≤ 0xBF
      else if lead = 0xED then 0x80 ≤ b && b ≤ 0x9F
      else if lead = 0xF0 then 0x90 ≤ b && b ≤ 0xBF
      else if lead = 0xF4 then 0x80 ≤ b && b ≤ 0x8F
      else 0x80 ≤ b && b ≤ 0xBF
    else 0x80 ≤ b && b ≤ 0xBF

/-- The scalar value of a complete UTF-8 byte sequence. -/
def utf8Scalar : List Nat → Nat
  | [l, c1] => (l - 0xC0) * 0x40 + (c1 - 0x80)
  | [l, c1, c2] => (l - 0xE0) * 0x1000 + (c1 - 0x80) * 0x40 + (c2 - 0x80)
  | [l, c1, c2, c3] =>
    (l - 0xF0) * 0x40000 + (c1 - 0x80) * 0x1000 + (c2 - 0x80) * 0x40 + (c3 - 0x80)
  | _ => 0xFFFD

/-- A valid UTF-8 leader byte. -/
def isUtf8Leader (b : Nat) : Bool := 0xC2 ≤ b && b ≤ 0xF4

/-- Decode one unit with no pending sequence: sentinels pass their
character through, ASCII bytes are themselves, a leader opens a pending
sequence, anything else is replaced. -/
def processFresh (b : Nat) : PyStr × List Nat :=
  if 0x100 ≤ b then ([b - 0x100], [])
  else if b < 0x80 then ([b], [])
  else if isUtf8Leader b then ([], [b])
  else ([0xFFFD], [])

/-- An incomplete pending sequence flushes as a single U+FFFD
(the "maximal subpart" replacement rule). -/
def flushPending (st : List Nat) : PyStr := if st.isEmpty then [] else [0xFFFD]

/-- One step of the UTF-8 decoding state machine. -/
def utf8Step (acc : PyStr × List Nat) (b : Nat) : PyStr × List Nat :=
  if utf8ValidNext acc.2 b then
    let st := acc.2 ++ [b]
    if st.length = utf8NeedLen (acc.2.headD 0) then (acc.1 ++ [utf8Scalar st], [])
    else (acc.1, st)
  else
    let f := processFresh b
    (acc.1 ++ flushPending acc.2 ++ f.1, f.2)

/-- `bytes.decode("utf-8", errors="replace")` over the unit stream
(`0x100 + c` sentinels pass `c` through, which `unquote` uses to keep
non-ASCII characters out of byte decoding). -/
def utf8DecodeBytes (bs : List Nat) : PyStr :=
  let r := bs.foldl utf8Step ([], [])
  r.1 ++ flushPending r.2

/-- `urllib.parse.unquote(s, errors="replace")`. -/
def pyUnquote (s : PyStr) : PyStr := utf8DecodeBytes (unquoteUnits s)

/-- `'+'` to space, the first step of `parse_qsl`'s value decoding. -/
def plusToSpace (s : PyStr) : PyStr := s.map (fun c => if c = 43 then 32 else c)

/-- One `name=value` field of `parse_qsl(qs, keep_blank_values=True)`:
empty fields are skipped, a missing `=` yields a blank value, and names
and values are `'+'`-unplussed and unquoted. -/
def qslField (f : PyStr) : Option (PyStr × PyStr) :=
  if f = [] then none
  else
    let nv := splitAtFirst 61 f
    let n := nv.1
    let v := nv.2.getD []
    some (pyUnquote (plusToSpace n), pyUnquote (plusToSpace v))

/-- `urllib.parse.parse_qsl(qs, keep_blank_values=True)` (separator `&`). -/
def pyParseQsl (qs : PyStr) : List (PyStr × PyStr) :=
  (pySplit 38 qs).filterMap qslField

/-- Appending a value under a key in an insertion-ordered dict
(`parse_qs`'s accumulation). -/
def dictAddValue : List (PyStr × List PyStr) → PyStr → PyStr →
    List (PyStr × List PyStr)
  | [], k, v => [(k, [v])]
  | e :: rest, k, v =>
    if e.1 = k then (e.1, e.2 ++ [v]) :: rest else e :: dictAddValue rest k v

/-- `urllib.parse.parse_qs(qs, keep_blank_values=True)`: group the pair
list into an insertion-ordered multi-dict. -/
def pyParseQs (qs : PyStr) : List (PyStr × List PyStr) :=
  (pyParseQsl qs).foldl (fun d kv => dictAddValue d kv.1 kv.2) []

/-- `urllib.parse.quote`'s always-safe characters: ASCII letters, digits,
`_.-~`. -/
def isAlwaysSafe (c : Nat) : Bool :=
  isAsciiAlpha c || isAsciiDigit c || c = 95 || c = 46 || c = 45 || c = 126

/-- A Unicode scalar value (encodable to UTF-8; Python raises
`UnicodeEncodeError` on surrogates). -/
def isValidScalar (c : Nat) : Bool :=
  c < 0x110000 && !(0xD800 ≤ c && c < 0xE000)

/-- UTF-8 encoding of a scalar value. -/
def utf8EncodeChar (c : Nat) : List Nat :=
  if c < 0x80 then [c]
  else if c < 0x800 then [0xC0 + c / 0x40, 0x80 + c % 0x40]
  else if c < 0x10000 then
    [0xE0 + c / 0x1000, 0x80 + (c / 0x40) % 0x40, 0x80 + c % 0x40]
  else
    [0xF0 + c / 0x40000, 0x80 + (c / 0x1000) % 0x40, 0x80 + (c / 0x40) % 0x40,
     0x80 + c % 0x40]

/-- `%XX` for one byte, upper-case as `quote` emits. -/
def percentEncodeByte (b : Nat) : List Nat :=
  [37, hexDigitUpper (b / 16), hexDigitUpper (b % 16)]

/-- `quote_plus(c, safe='')` on one character: safe characters unchanged,
space to `'+'`, everything else percent-encoded per UTF-8 byte; `none`
models `UnicodeEncodeError` on a non-scalar (lone surrogate). -/
def quotePlusChar (c : Nat) : Option (List Nat) :=
  if isAlwaysSafe c then some [c]
  else if c = 32 then some [43]
  else if isValidScalar c then some ((utf8EncodeChar c).map percentEncodeByte).flatten
  else none

/-- `urllib.parse.quote_plus(s, safe='')`. -/
def pyQuotePlus (s : PyStr) : Option PyStr :=
  s.foldr (fun c acc =>
    match quotePlusChar c, acc with
    | some e, some rest => some (e ++ rest)
    | _, _ => none) (some [])

/-- One `k=v` piece of `urlencode`. -/
def encodePair (kv : PyStr × PyStr) : Option PyStr :=
  match pyQuotePlus kv.1, pyQuotePlus kv.2 with
  | some k, some v => some (k ++ [61] ++ v)
  | _, _ => none

/-- `urllib.parse.urlencode(pairs)` (with `quote_plus`, `safe=''`). -/
def pyUrlencode : List (PyStr × PyStr) → Option PyStr
  | [] => some []
  | [kv] => encodePair kv
  | kv :: rest =>
    match encodePair kv, pyUrlencode rest with
    | some e, some r => some (e ++ [38] ++ r)
    | _, _ => none

/-- The result of `urllib.parse.urlsplit`. -/
structure SplitResult where
  scheme : PyStr
  netloc : PyStr
  path : PyStr
  query : PyStr
  fragment : PyStr
deriving Repr, DecidableEq

/-- A netloc/path delimiter (`/`, `?`, `#`). -/
def isNetlocDelim (c : Nat) : Bool := c = 47 || c = 63 || c = 35

/-- `urllib.parse.urlsplit`: remove tab/CR/LF anywhere, detect the scheme
(first `:` after a leading run of scheme characters starting with an ASCII
letter, lower-cased), take the netloc after `//` up to the first `/?#`,
split the fragment at the first `#`, then the query at the first `?`.
(IPv6 bracket validation and `_checknetloc` are not modelled.) -/
def pyUrlsplit (url0 : PyStr) : SplitResult :=
  let url := url0.filter fun c => !(c = 9 || c = 13 || c = 10)
  let schemeSplit :=
    match splitAtFirst 58 url with
    | (before, some after) =>
      match before with
      | [] => ([], url)
      | b :: bs =>
        if isAsciiAlpha b && (b :: bs).all isSchemeChar then (pyLower before, after)
        else ([], url)
    | (_, none) => ([], url)
  let scheme := schemeSplit.1
  let rest := schemeSplit.2
  let netlocSplit :=
    if rest.take 2 = [47, 47] then
      ((rest.drop 2).takeWhile (fun c => !isNetlocDelim c),
       (rest.drop 2).dropWhile (fun c => !isNetlocDelim c))
    else ([], rest)
  let netloc := netlocSplit.1
  let rest2 := netlocSplit.2
  let fragSplit := splitAtFirst 35 rest2
  let fragment := fragSplit.2.getD []
  let querySplit := splitAtFirst 63 fragSplit.1
  ⟨scheme, netloc, querySplit.1, querySplit.2.getD [], fragment⟩

/-- The result of `urllib.parse.urlparse`. -/
structure ParseResult where
  scheme : PyStr
  netloc : PyStr
  path : PyStr
  params : PyStr
  query : PyStr
  fragment : PyStr
deriving Repr, DecidableEq

/-- `urllib.parse.uses_params`. -/
def usesParams : List PyStr :=
  [pyStr "", pyStr "ftp", pyStr "hdl", pyStr "prospero", pyStr "http",
   pyStr "imap", pyStr "https", pyStr "shttp", pyStr "rtsp", pyStr "rtsps",
   pyStr "rtspu", pyStr "sip", pyStr "sips", pyStr "mms", pyStr "sftp",
   pyStr "tel"]

/-- `urllib.parse.uses_netloc`. -/
def usesNetloc : List PyStr :=
  [pyStr "", pyStr "ftp", pyStr "http", pyStr "gopher", pyStr "nntp",
   pyStr "telnet", pyStr "imap", pyStr "wais", pyStr "file", pyStr "mms",
   pyStr "https", pyStr "shttp", pyStr "snews", pyStr "prospero", pyStr "rtsp",
   pyStr "rtsps", pyStr "rtspu", pyStr "rsync", pyStr "svn", pyStr "svn+ssh",
   pyStr "sftp", pyStr "nfs", pyStr "git", pyStr "git+ssh", pyStr "ws",
   pyStr "wss"]

/-- `urllib.parse._splitparams`: split the path at the first `;` in its
last segment. -/
def pySplitParams (p : PyStr) : PyStr × PyStr :=
  match splitAtLast 47 p with
  | some (pre, lastSeg) =>
    (match splitAtFirst 59 lastSeg with
     | (b, some aft) => (pre ++ [47] ++ b, aft)
     | (_, none) => (p, []))
  | none =>
    (match splitAtFirst 59 p with
     | (b, some aft) => (b, aft)
     | (_, none) => (p, []))

/-- `urllib.parse.urlparse`: `urlsplit`, then split path params when the
scheme uses them and the path contains `;`. -/
def pyUrlparse (url : PyStr) : ParseResult :=
  let sr := pyUrlsplit url
  if usesParams.contains sr.scheme && sr.path.contains 59 then
    let pp := pySplitParams sr.path
    ⟨sr.scheme, sr.netloc, pp.1, pp.2, sr.query, sr.fragment⟩
  else
    ⟨sr.scheme, sr.netloc, sr.path, [], sr.query, sr.fragment⟩

/-- `urllib.parse.urlunsplit`. -/
def pyUrlunsplit (scheme netloc path query fragment : PyStr) : PyStr :=
  let url := path
  let url :=
    if netloc ≠ [] ∨ (scheme ≠ [] ∧ usesNetloc.contains scheme ∧ url.take 2 ≠ [47, 47])
    then
      [47, 47] ++ netloc ++ (if url ≠ [] ∧ ¬ pyStartsWith url [47] then [47] ++ url
                             else url)
    else url
  let url := if scheme ≠ [] then scheme ++ [58] ++ url else url
  let url := if query ≠ [] then url ++ [63] ++ query else url
  if fragment ≠ [] then url ++ [35] ++ fragment else url

/-- `urllib.parse.urlunparse`. -/
def pyUrlunparse (scheme netloc path params query fragment : PyStr) : PyStr :=
  pyUrlunsplit scheme netloc (if params ≠ [] then path ++ [59] ++ params else path)
    query fragment

/-- The `TRACKING_PARAMS` deny-list (`canonicalize.py`, lines 16–43). -/
def TRACKING_PARAMS : List PyStr :=
  [pyStr "utm_source", pyStr "utm_medium", pyStr "utm_campaign", pyStr "utm_term",
   pyStr "utm_content", pyStr "utm_id", pyStr "fbclid", pyStr "fb_action_ids",
   pyStr "fb_action_types", pyStr "fb_ref", pyStr "fb_source", pyStr "twclid",
   pyStr "gclid", pyStr "msclkid", pyStr "mc_cid", pyStr "mc_eid",
   pyStr "_hsenc", pyStr "_hsmi", pyStr "mkt_tok", pyStr "ref", pyStr "source"]

/-- Lexicographic (code-point) order on Python strings, as `sorted` uses. -/
def strLtB : PyStr → PyStr → Bool
  | [], [] => false
  | [], _ :: _ => true
  | _ :: _, [] => false
  | a :: as, b :: bs => if a < b then true else if b < a then false else strLtB as bs

/-- Insert a dict entry before the first strictly greater key. -/
def insortEntry (e : PyStr × List PyStr) :
    List (PyStr × List PyStr) → List (PyStr × List PyStr)
  | [] => [e]
  | x :: xs => if strLtB e.1 x.1 then e :: x :: xs else x :: insortEntry e xs

/-- Iterating a dict's (unique) keys in `sorted` order, as
`for key in sorted(filtered_params.keys())` does. -/
def sortByKey (d : List (PyStr × List PyStr)) : List (PyStr × List PyStr) :=
  d.foldr insortEntry []

/-- `for key in sorted(...): for value in values: append((key, value))`. -/
def emitPairs (d : List (PyStr × List PyStr)) : List (PyStr × PyStr) :=
  (d.map (fun e => e.2.map (fun v => (e.1, v)))).flatten

/-- The query-normalization block of `canonicalize`
(`canonicalize.py`, lines 132–148): parse preserving blanks and
multi-values, drop deny-listed keys case-insensitively, re-emit the rest
sorted by key, `urlencode`d.  `none` models an uncaught
`UnicodeEncodeError` (lone surrogate in a decoded key/value). -/
def canonQuery (rawQuery : PyStr) : Option PyStr :=
  if rawQuery = [] then some []
  else
    let params := pyParseQs rawQuery
    let filtered_params :=
      params.filter fun e => !(TRACKING_PARAMS.contains (pyLower e.1))
    if filtered_params = [] then some []
    else pyUrlencode (emitPairs (sortByKey filtered_params))

/-- Host normalization (`canonicalize.py`, lines 108–123): lower-case,
strip one leading `www.`, strip a default port `:80`/`:443` from the last
colon split. -/
def stripWww (host : PyStr) : PyStr :=
  if pyStartsWith host (pyStr "www.") then host.drop 4 else host

/-- `if ":" in host: hostname, port = host.rsplit(":", 1); ...`. -/
def stripDefaultPort (host : PyStr) : PyStr :=
  match splitAtLast 58 host with
  | some (hostname, port) =>
    if port = pyStr "80" ∨ port = pyStr "443" then hostname else host
  | none => host

/-- The full host normalization. -/
def canonHost (netloc : PyStr) : PyStr := stripDefaultPort (stripWww (pyLower netloc))

/-- `path.rstrip("/")`. -/
def rstripSlashes (p : PyStr) : PyStr := (p.reverse.dropWhile (· = 47)).reverse

/-- Path normalization (`canonicalize.py`, lines 125–130): empty path
becomes `/`; a trailing slash is stripped unless the path is exactly
`/`. -/
def canonPath (p0 : PyStr) : PyStr :=
  let p := if p0 = [] then [47] else p0
  if 1 < p.length ∧ p.getLast? = some 47 then rstripSlashes p else p

/-- Reassembly of the canonical URL from a parse
(`canonicalize.py`, lines 108–156). -/
def finishCanonical (p : ParseResult) : Option PyStr :=
  match canonQuery p.query with
  | none => none
  | some query =>
    some (pyUrlunparse (pyStr "https") (canonHost p.netloc) (canonPath p.path)
      [] query [])

/-- `urlsplit`'s "Invalid IPv6 URL" check: a `[` without `]` in the netloc
or vice versa.  (The content validation of a matched bracketed host is not
modelled.) -/
def bracketMismatch (netloc : PyStr) : Bool :=
  (netloc.contains 91 && !netloc.contains 93) ||
  (netloc.contains 93 && !netloc.contains 91)

/-- `CanonicalizationError` (plus a marker for an uncaught Python
exception escaping `urlencode`). -/
inductive CanonErr where
  | emptyUrl
  | invalidUrl
  | noDomain
  | redirectLoop (url : PyStr)
  | tooManyRedirects
  | uncaughtEncodeError
deriving Repr, DecidableEq

/-- A response as `_follow_redirects` reads it: status code and the
`location` header. -/
structure RedirectResp where
  status_code : Nat
  location : Option PyStr := none
deriving Repr, DecidableEq

/-- One step of `Location` resolution (`canonicalize.py`, lines 212–223):
absolute URLs as-is (case-sensitive `http://`/`https://` check),
`/`-prefixed host-relative, otherwise relative to the current URL's
directory. -/
def resolveLocation (current loc : PyStr) : PyStr :=
  if pyStartsWith loc (pyStr "http://") || pyStartsWith loc (pyStr "https://") then
    loc
  else
    let pc := pyUrlparse current
    if pyStartsWith loc [47] then
      pc.scheme ++ pyStr "://" ++ pc.netloc ++ loc
    else
      let base_path :=
        match splitAtLast 47 pc.path with
        | some (pre, _) => pre
        | none => pc.path
      pc.scheme ++ pyStr "://" ++ pc.netloc ++ base_path ++ [47] ++ loc

/-- The loop of `_follow_redirects` (`canonicalize.py`, lines 190–231):
`fuel` iterations remain; `visited` holds the already-fetched URLs. -/
def followRedirectsGo (http_get : PyStr → Except PyStr RedirectResp) :
    Nat → List PyStr → PyStr → Except CanonErr PyStr
  | 0, _, _ => .error .tooManyRedirects
  | fuel + 1, visited, current =>
    if current ∈ visited then .error (.redirectLoop current)
    else
      match http_get current with
      | .error _ => .ok current
      | .ok resp =>
        if resp.status_code = 301 ∨ resp.status_code = 302 ∨
            resp.status_code = 303 ∨ resp.status_code = 307 ∨
            resp.status_code = 308 then
          if pyTruthyOpt resp.location then
            followRedirectsGo http_get fuel (current :: visited)
              (resolveLocation current (resp.location.getD []))
          else .ok current
        else .ok current

/-- `_follow_redirects` (`canonicalize.py`, lines 173–231). -/
def follow_redirects (url : PyStr) (http_get : PyStr → Except PyStr RedirectResp)
    (max_redirects : Nat) : Except CanonErr PyStr :=
  followRedirectsGo http_get max_redirects [] url

/-- `canonicalize` (`canonicalize.py`, lines 46–156), with the HTTP client
injected.  (`urlparse` never raises in the model, so the
`try/except` around it is invisible.) -/
def canonicalize (u : PyStr) (http_get : PyStr → Except PyStr RedirectResp)
    (follow : Bool) (max_redirects : Nat) : Except CanonErr PyStr :=
  if u = [] ∨ pyStrip u = [] then .error .emptyUrl
  else
    let url := pyStrip u
    let url :=
      if pyStartsWith (pyLower url) (pyStr "http://") ||
          pyStartsWith (pyLower url) (pyStr "https://") then url
      else pyStr "https://" ++ url
    let parsed := pyUrlparse url
    if bracketMismatch parsed.netloc then .error .invalidUrl
    else if parsed.netloc = [] then .error .noDomain
    else if follow then
      match follow_redirects url http_get max_redirects with
      | .error e => .error e
      | .ok url2 =>
        if bracketMismatch (pyUrlparse url2).netloc then .error .invalidUrl
        else
          match finishCanonical (pyUrlparse url2) with
          | none => .error .uncaughtEncodeError
          | some c => .ok c
    else
      match finishCanonical parsed with
      | none => .error .uncaughtEncodeError
      | some c => .ok c

/-- A canonicalize run with redirect following disabled (the oracle is
irrelevant). -/
def canonicalizeNR (u : PyStr) : Except CanonErr PyStr :=
  canonicalize u (fun _ => .error []) false 5

/-- The keys of an insertion-ordered multi-dict, in order. -/
def dictKeys (d : List (PyStr × List PyStr)) : List PyStr := d.map Prod.fst

/-- First-match lookup in a multi-dict (empty value list when absent). -/
def dictGet : List (PyStr × List PyStr) → PyStr → List PyStr
  | [], _ => []
  | e :: rest, k => if e.1 = k then e.2 else dictGet rest k

/-- The deny-list test `canonicalize` applies to a query key. -/
def keyKept (k : PyStr) : Bool := !(TRACKING_PARAMS.contains (pyLower k))

/-- The characters `urlencode` can emit: always-safe characters, `+`, `%`,
hex digits, `=`, `&`. -/
def encChar (c : Nat) : Bool :=
  isAlwaysSafe c || c = 43 || c = 37 || isHexDigit c || c = 61 || c = 38

/-- UTF-8 encoding of a whole string. -/
def utf8Encode (s : PyStr) : List Nat := (s.map utf8EncodeChar).flatten

/-- Tab, carriage return, or line feed: the characters `urlsplit` removes
before parsing. -/
def isTabCrLf (c : Nat) : Bool := c = 9 || c = 13 || c = 10

/-! ### Concrete doubles used to evaluate the engine -/

/-- A 2xx response whose JSON is `{"data": {"id": tid}}`. -/
def okResponse (tid : PyStr) : MockResponse :=
  { status_code := 201, json_data_id := some (some tid) }

/-- A 429 response with an `x-rate-limit-reset` header and an `errors`
message, as built by `mock_http_post_rate_limit` in the tests. -/
def rateLimitResponse (reset : PyStr) : MockResponse :=
  { status_code := 429,
    headers := [(pyStr "x-rate-limit-reset", reset)],
    json_errors := some [some (pyStr "Too Many Requests")] }

/-- A call-counting double that answers call `n` with `responses n`. -/
def countingOracle (responses : Nat → MockResponse) : HttpDouble Nat :=
  fun n _ => (.ok (responses n), n + 1)

/-! ## Theorems -/

/-! ### Helper lemmas: composing traces -/

theorem chainOk_append (a b : List Event) (last : Option PyStr) :
    chainOk last (a ++ b) = (chainOk last a && chainOk (foldLast last a) b) := by
  induction a generalizing last with
  | nil => simp [chainOk, foldLast]
  | cons e rest ih =>
    simp only [List.cons_append, chainOk, List.append_eq]
    rw [ih (stepLast last e)]
    simp [foldLast, Bool.and_assoc]

theorem foldLast_append (a b : List Event) (last : Option PyStr) :
    foldLast last (a ++ b) = foldLast (foldLast last a) b := by
  simp [foldLast, List.foldl_append]

theorem tweetPayloads_append (a b : List Event) :
    tweetPayloads (a ++ b) = tweetPayloads a ++ tweetPayloads b := by
  simp [tweetPayloads, List.filterMap_append]

theorem pacedDelays_append (a b : List Event) :
    pacedDelays (a ++ b) = pacedDelays a ++ pacedDelays b := by
  simp [pacedDelays, List.filterMap_append]

theorem acceptedIds_append (a b : List Event) :
    acceptedIds (a ++ b) = acceptedIds a ++ acceptedIds b := by
  simp [acceptedIds, List.filterMap_append]

theorem stepLast_of_acceptedId_none (ev : Event) (h : ev.acceptedId = none)
    (last : Option PyStr) : stepLast last ev = last := by
  cases ev with
  | call req res =>
    cases req with
    | tweets p =>
      cases res with
      | error e => rfl
      | ok resp =>
        simp only [Event.acceptedId] at h
        by_cases hacc : resp.accepted
        · simp [hacc] at h
        · simp [stepLast, hacc]
    | mediaUpload m => rfl
    | mediaMetadata m a => rfl
  | backoff k => rfl
  | paced d => rfl

/-! ### Helper lemmas: the `post_single` retry loop -/

theorem PSSpec.nil (payload : TweetPayload) (e : PyExc) :
    PSSpec payload (.error e) [] := by
  refine ⟨by simp [tweetPayloads], by simp [pacedDelays],
    by simp [acceptedIds, resultIds], ?_, ?_, ?_⟩
  · intro last; simp [foldLast, resultLast]
  · intro last _; simp [chainOk]
  · intro result h; cases h

theorem PSSpec.consCall {payload : TweetPayload} {r : Except PyExc PostResult}
    {tr2 : List Event} (res : Except PyStr MockResponse) (k : Nat)
    (hnotacc : (Event.call (.tweets payload) res).acceptedId = none)
    (h : PSSpec payload r tr2) :
    PSSpec payload r (.call (.tweets payload) res :: .backoff k :: tr2) := by
  obtain ⟨ha, hb, hc, hd, he, hf⟩ := h
  have hstep := stepLast_of_acceptedId_none _ hnotacc
  refine ⟨?_, ?_, ?_, ?_, ?_, hf⟩
  · intro p hp
    simp only [tweetPayloads, List.filterMap_cons, Event.tweetPayload] at hp
    rcases List.mem_cons.1 hp with h | h
    · exact h
    · exact ha p h
  · simpa [pacedDelays, List.filterMap_cons] using hb
  · simpa [acceptedIds, List.filterMap_cons, hnotacc] using hc
  · intro last
    have h2 : ∀ l, stepLast l (Event.backoff k) = l := fun l => rfl
    simp only [foldLast, List.foldl_cons, hstep, h2]
    exact hd last
  · intro last hrt
    have h2 : ∀ l, stepLast l (Event.backoff k) = l := fun l => rfl
    simp only [chainOk, hstep, h2, hrt, decide_True, Bool.true_and]
    · exact he last hrt

/-! ### Helper lemmas on the posting engine -/


theorem PSSpec.errorSingle (payload : TweetPayload) (e : PyExc)
    (res : Except PyStr MockResponse)
    (hnotacc : (Event.call (.tweets payload) res).acceptedId = none) :
    PSSpec payload (.error e) [.call (.tweets payload) res] := by
  have hstep := stepLast_of_acceptedId_none _ hnotacc
  refine ⟨?_, by simp [pacedDelays], ?_, ?_, ?_, ?_⟩
  · intro p hp
    simp only [tweetPayloads, List.filterMap_cons, Event.tweetPayload] at hp
    simpa using hp
  · simp [acceptedIds, List.filterMap_cons, hnotacc, resultIds]
  · intro last
    simp only [foldLast, List.foldl_cons, hstep, List.foldl_nil, resultLast]
  · intro last hrt
    simp [chainOk, hrt]
  · intro result h; cases h

theorem PSSpec.okSingle (payload : TweetPayload) (resp : MockResponse)
    (hacc : resp.accepted = pyTruthyOpt resp.dataId) :
    PSSpec payload
      (.ok { success := true, tweet_id := resp.dataId, text := some payload.text })
      [.call (.tweets payload) (.ok resp)] := by
  refine ⟨?_, by simp [pacedDelays], ?_, ?_, ?_, ?_⟩
  · intro p hp
    simp only [tweetPayloads, List.filterMap_cons, Event.tweetPayload] at hp
    simpa using hp
  · by_cases hid : pyTruthyOpt resp.dataId
    · simp [acceptedIds, Event.acceptedId, hacc, hid, resultIds]
    · simp [acceptedIds, Event.acceptedId, hacc, hid, resultIds]
  · intro last
    by_cases hid : pyTruthyOpt resp.dataId
    · simp [foldLast, stepLast, hacc, hid, resultLast]
    · simp [foldLast, stepLast, hacc, hid, resultLast]
  · intro last hrt
    simp [chainOk, hrt]
  · intro result h
    cases h
    exact ⟨rfl, rfl⟩

/-- Every run of the retry loop of `post_single` satisfies its behavioural
contract. -/
theorem postSingleAttempts_spec {S : Type} (http_post : HttpDouble S)
    (payload : TweetPayload) :
    ∀ (remaining attempt : Nat) (s : S),
      PSSpec payload (postSingleAttempts http_post payload s attempt remaining).1
        (postSingleAttempts http_post payload s attempt remaining).2.2 := by
  intro remaining
  induction remaining with
  | zero =>
    intro attempt s
    simp only [postSingleAttempts]
    exact PSSpec.nil payload _
  | succ n ih =>
    intro attempt s
    rw [postSingleAttempts]
    rcases hp : http_post s (.tweets payload) with ⟨res, s1⟩
    rcases res with e | resp
    · dsimp only
      by_cases hn : 0 < n
      · rw [if_pos hn]
        exact PSSpec.consCall _ _ (by simp [Event.acceptedId]) (ih attempt.succ s1)
      · rw [if_neg hn]
        exact PSSpec.errorSingle payload _ _ (by simp [Event.acceptedId])
    · dsimp only
      by_cases h429 : resp.status_code = 429
      · rw [if_pos h429]
        have hnotacc : (Event.call (.tweets payload) (.ok resp)).acceptedId = none := by
          simp [Event.acceptedId, MockResponse.accepted, h429]
        by_cases hn : 0 < n
        · rw [if_pos hn]
          exact PSSpec.consCall _ _ hnotacc (ih attempt.succ s1)
        · rw [if_neg hn]
          exact PSSpec.errorSingle payload _ _ hnotacc
      · rw [if_neg h429]
        by_cases h400 : 400 ≤ resp.status_code
        · rw [if_pos h400]
          have hnotacc : (Event.call (.tweets payload) (.ok resp)).acceptedId = none := by
            simp [Event.acceptedId, MockResponse.accepted, Nat.not_lt.2 h400]
          rcases hmsg : resp.errorsMessage with e | error_msg
          all_goals dsimp only
          all_goals by_cases hn : 0 < n
          · rw [if_pos hn]
            exact PSSpec.consCall _ _ hnotacc (ih attempt.succ s1)
          · rw [if_neg hn]
            exact PSSpec.errorSingle payload _ _ hnotacc
          · rw [if_pos hn]
            exact PSSpec.consCall _ _ hnotacc (ih attempt.succ s1)
          · rw [if_neg hn]
            exact PSSpec.errorSingle payload _ _ hnotacc
        · rw [if_neg h400]
          exact PSSpec.okSingle payload resp
            (by simp [MockResponse.accepted, h429, Nat.lt_of_not_le h400])

/-- The two media endpoints leave every thread-level trace observation
untouched: no tweet-create payloads, no accepted ids, no sleeps, and the
reply chain state passes through. -/
theorem upload_media_neutral {S : Type} (http_post : HttpDouble S) (mb : PyStr)
    (alt : Option PyStr) (s : S) :
    tweetPayloads (upload_media http_post mb alt s).2.2 = [] ∧
    pacedDelays (upload_media http_post mb alt s).2.2 = [] ∧
    acceptedIds (upload_media http_post mb alt s).2.2 = [] ∧
    (∀ last, foldLast last (upload_media http_post mb alt s).2.2 = last) ∧
    (∀ last, chainOk last (upload_media http_post mb alt s).2.2 = true) := by
  rw [upload_media]
  rcases hp : http_post s (.mediaUpload mb) with ⟨res, s1⟩
  rcases res with e | resp
  · exact ⟨by simp [tweetPayloads, Event.tweetPayload], by simp [pacedDelays],
      by simp [acceptedIds, Event.acceptedId], fun last => by simp [foldLast, stepLast],
      fun last => by simp [chainOk, stepLast]⟩
  · dsimp only
    by_cases h400 : 400 ≤ resp.status_code
    · rw [if_pos h400]
      exact ⟨by simp [tweetPayloads, Event.tweetPayload], by simp [pacedDelays],
        by simp [acceptedIds, Event.acceptedId], fun last => by simp [foldLast, stepLast],
        fun last => by simp [chainOk, stepLast]⟩
    · rw [if_neg h400]
      by_cases halt : pyTruthyOpt alt && pyTruthy (resp.json_media_id_string.getD [])
      · rw [if_pos halt]
        rcases hp2 : http_post s1
            (.mediaMetadata (resp.json_media_id_string.getD []) (alt.getD []))
          with ⟨res2, s2⟩
        rcases res2 with e2 | ok2
        all_goals exact ⟨by simp [tweetPayloads, Event.tweetPayload],
          by simp [pacedDelays], by simp [acceptedIds, Event.acceptedId],
          fun last => by simp [foldLast, stepLast],
          fun last => by simp [chainOk, stepLast]⟩
      · rw [if_neg halt]
        exact ⟨by simp [tweetPayloads, Event.tweetPayload], by simp [pacedDelays],
          by simp [acceptedIds, Event.acceptedId], fun last => by simp [foldLast, stepLast],
          fun last => by simp [chainOk, stepLast]⟩

/-- The behavioural contract of `post_single` in terms of its arguments:
every tweet-create call carries the given text and the truthy-filtered
reply target; no paced delays; accepted ids are exactly the returned
truthy id; the reply-chain seed evolves to that id; results echo the
text. -/
theorem post_single_spec {S : Type} (http_post : HttpDouble S) (text : PyStr)
    (media media_alt reply : Option PyStr) (mr : Nat) (s : S) :
    (∀ p ∈ tweetPayloads (post_single http_post text media media_alt reply mr s).2.2,
      p.text = text) ∧
    pacedDelays (post_single http_post text media media_alt reply mr s).2.2 = [] ∧
    acceptedIds (post_single http_post text media media_alt reply mr s).2.2 =
      resultIds (post_single http_post text media media_alt reply mr s).1 ∧
    foldLast reply (post_single http_post text media media_alt reply mr s).2.2 =
      resultLast reply (post_single http_post text media media_alt reply mr s).1 ∧
    chainOk reply (post_single http_post text media media_alt reply mr s).2.2 = true ∧
    (∀ result, (post_single http_post text media media_alt reply mr s).1 = .ok result →
      result.success = true ∧ result.text = some text) := by
  rw [post_single]
  by_cases hm : pyTruthyOpt media
  · rw [if_pos hm]
    rcases hum : upload_media http_post (media.getD []) media_alt s with ⟨ur, s1, tr0⟩
    have hneutral := upload_media_neutral http_post (media.getD []) media_alt s
    rw [hum] at hneutral
    obtain ⟨hn1, hn2, hn3, hn4, hn5⟩ := hneutral
    rcases ur with e | media_id
    · dsimp only at hn1 hn2 hn3 hn4 hn5 ⊢
      refine ⟨?_, hn2, ?_, ?_, hn5 reply, ?_⟩
      · intro p hp
        rw [hn1] at hp
        cases hp
      · rw [hn3, resultIds]
      · rw [hn4 reply, resultLast]
      · intro result h; cases h
    · dsimp only at hn1 hn2 hn3 hn4 hn5 ⊢
      obtain ⟨ha, hb, hc, hd, he, hf⟩ := postSingleAttempts_spec http_post
        { text := text,
          reply_to := if pyTruthyOpt reply then reply else none,
          media_ids := some [media_id] } mr 0 s1
      refine ⟨?_, ?_, ?_, ?_, ?_, ?_⟩
      · intro p hp
        rw [tweetPayloads_append, hn1, List.nil_append] at hp
        rw [ha p hp]
      · rw [pacedDelays_append, hn2, List.nil_append]
        exact hb
      · rw [acceptedIds_append, hn3, List.nil_append]
        exact hc
      · rw [foldLast_append, hn4 reply]
        exact hd reply
      · rw [chainOk_append, hn5 reply, hn4 reply, Bool.true_and]
        exact he reply rfl
      · exact hf
  · rw [if_neg hm]
    obtain ⟨ha, hb, hc, hd, he, hf⟩ := postSingleAttempts_spec http_post
      { text := text, reply_to := if pyTruthyOpt reply then reply else none } mr 0 s
    refine ⟨?_, hb, hc, hd reply, he reply rfl, hf⟩
    intro p hp
    rw [ha p hp]

theorem pyTruthyOpt_getD {o : Option PyStr} (h : pyTruthyOpt o = true) :
    some (o.getD []) = o := by
  cases o with
  | none => simp [pyTruthyOpt] at h
  | some l => rfl

/-! ### Helper lemmas: the `post_thread` loop -/

theorem postThreadGo_chain {S : Type} (http_post : HttpDouble S) (jitter : Nat → ℚ)
    (texts : List PyStr) (mf ma : Option PyStr) (resume mr : Nat) :
    ∀ (fuel idx : Nat) (acc : List PyStr) (last : Option PyStr) (s : S),
      chainOk last
        (postThreadGo http_post jitter texts mf ma resume mr fuel idx acc last s).2.2
        = true := by
  intro fuel
  induction fuel with
  | zero => intro idx acc last s; simp [postThreadGo, chainOk]
  | succ n ih =>
    intro idx acc last s
    rw [postThreadGo]
    rcases htext : texts[idx]? with _ | text
    · simp [chainOk]
    · dsimp only
      rcases hps : post_single http_post text (firstItemOnly mf idx)
          (firstItemOnly ma idx) last mr s with ⟨pr, s1, tr1⟩
      have hspec := post_single_spec http_post text (firstItemOnly mf idx)
        (firstItemOnly ma idx) last mr s
      rw [hps] at hspec
      obtain ⟨ha, hb, hc, hd, he, hf⟩ := hspec
      dsimp only at ha hb hc hd he hf
      have hpace : ∀ l : Option PyStr,
          chainOk l (if resume < idx then [Event.paced (3 + jitter idx)] else []) = true ∧
          foldLast l (if resume < idx then [Event.paced (3 + jitter idx)] else []) = l := by
        intro l
        by_cases hpc : resume < idx <;> simp [hpc, chainOk, foldLast, stepLast]
      rcases pr with e | result
      · rcases e with m | m | m
        all_goals dsimp only
        all_goals rw [chainOk_append, (hpace last).1, (hpace last).2, Bool.true_and]
        all_goals exact he
      · dsimp only
        by_cases hfail : (!result.success || !pyTruthyOpt result.tweet_id) = true
        · rw [if_pos hfail]
          dsimp only
          rw [chainOk_append, (hpace last).1, (hpace last).2, Bool.true_and]
          exact he
        · rw [if_neg hfail]
          dsimp only
          have hid : pyTruthyOpt result.tweet_id = true := by
            cases hsucc : result.success <;>
              cases hidc : pyTruthyOpt result.tweet_id <;>
              simp [hsucc, hidc] at hfail ⊢
          have hseed : resultLast last (Except.ok result) =
              some (result.tweet_id.getD []) := by
            simp only [resultLast, hid, if_true]
            exact (pyTruthyOpt_getD hid).symm
          rw [chainOk_append, chainOk_append, (hpace last).1, (hpace last).2,
            Bool.true_and, he, Bool.true_and, foldLast_append, (hpace last).2, hd,
            hseed]
          exact ih (idx + 1) (acc ++ [result.tweet_id.getD []])
            (some (result.tweet_id.getD [])) s1

theorem postThreadGo_texts {S : Type} (http_post : HttpDouble S) (jitter : Nat → ℚ)
    (texts : List PyStr) (mf ma : Option PyStr) (resume mr : Nat) :
    ∀ (fuel idx : Nat) (acc : List PyStr) (last : Option PyStr) (s : S),
      ∀ p ∈ tweetPayloads
        (postThreadGo http_post jitter texts mf ma resume mr fuel idx acc last s).2.2,
        ∃ j, idx ≤ j ∧ texts[j]? = some p.text := by
  intro fuel
  induction fuel with
  | zero => intro idx acc last s p hp; simp [postThreadGo, tweetPayloads] at hp
  | succ n ih =>
    intro idx acc last s p hp
    rw [postThreadGo] at hp
    rcases htext : texts[idx]? with _ | text
    · rw [htext] at hp
      simp [tweetPayloads] at hp
    · rw [htext] at hp
      dsimp only at hp
      rcases hps : post_single http_post text (firstItemOnly mf idx)
          (firstItemOnly ma idx) last mr s with ⟨pr, s1, tr1⟩
      rw [hps] at hp
      have hspec := post_single_spec http_post text (firstItemOnly mf idx)
        (firstItemOnly ma idx) last mr s
      rw [hps] at hspec
      obtain ⟨ha, hb, hc, hd, he, hf⟩ := hspec
      have hpaceEmpty : tweetPayloads
          (if resume < idx then [Event.paced (3 + jitter idx)] else []) = [] := by
        by_cases hpc : resume < idx <;> simp [hpc, tweetPayloads, Event.tweetPayload]
      have hfromSingle : p ∈ tweetPayloads tr1 → ∃ j, idx ≤ j ∧ texts[j]? = some p.text := by
        intro hmem
        exact ⟨idx, le_refl idx, by rw [htext, ha p hmem]⟩
      rcases pr with e | result
      · rcases e with m | m | m
        all_goals dsimp only at hp
        all_goals rw [tweetPayloads_append, hpaceEmpty, List.nil_append] at hp
        all_goals exact hfromSingle hp
      · dsimp only at hp
        by_cases hfail : (!result.success || !pyTruthyOpt result.tweet_id) = true
        · rw [if_pos hfail] at hp
          dsimp only at hp
          rw [tweetPayloads_append, hpaceEmpty, List.nil_append] at hp
          exact hfromSingle hp
        · rw [if_neg hfail] at hp
          dsimp only at hp
          rw [tweetPayloads_append, tweetPayloads_append, hpaceEmpty,
            List.nil_append] at hp
          rcases List.mem_append.1 hp with hmem | hmem
          · exact hfromSingle hmem
          · obtain ⟨j, hj, hjt⟩ := ih (idx + 1)
              (acc ++ [result.tweet_id.getD []]) (some (result.tweet_id.getD [])) s1
              p hmem
            exact ⟨j, by omega, hjt⟩

theorem postThreadGo_result {S : Type} (http_post : HttpDouble S) (jitter : Nat → ℚ)
    (texts : List PyStr) (mf ma : Option PyStr) (resume mr : Nat) :
    ∀ (fuel idx : Nat) (acc : List PyStr) (last : Option PyStr) (s : S),
      fuel = texts.length - idx → resume ≤ idx →
      ∀ r', (postThreadGo http_post jitter texts mf ma resume mr
          fuel idx acc last s).1 = .ok r' →
        r'.tweet_ids = acc ++ acceptedIds
          (postThreadGo http_post jitter texts mf ma resume mr fuel idx acc last s).2.2 ∧
        (r'.success = true ↔ r'.failed_at = none) ∧
        (∀ i, r'.failed_at = some i →
          idx ≤ i ∧ i < texts.length ∧
          (acceptedIds (postThreadGo http_post jitter texts mf ma resume mr
            fuel idx acc last s).2.2).length = i - idx ∧
          (pacedDelays (postThreadGo http_post jitter texts mf ma resume mr
            fuel idx acc last s).2.2).length =
            i + 1 - idx - (if idx = resume then 1 else 0)) ∧
        (r'.failed_at = none →
          (acceptedIds (postThreadGo http_post jitter texts mf ma resume mr
            fuel idx acc last s).2.2).length = texts.length - idx ∧
          (pacedDelays (postThreadGo http_post jitter texts mf ma resume mr
            fuel idx acc last s).2.2).length =
            texts.length - idx - (if idx = resume then 1 else 0)) := by
  intro fuel
  induction fuel with
  | zero =>
    intro idx acc last s hfuel hresume r' heq
    have hlen : texts.length ≤ idx := by omega
    simp only [postThreadGo, Except.ok.injEq] at heq
    subst heq
    refine ⟨by simp [postThreadGo, acceptedIds], by simp, ?_, ?_⟩
    · intro i hi; simp at hi
    · intro _
      constructor
      · simp only [postThreadGo, acceptedIds, List.filterMap_nil, List.length_nil]
        omega
      · simp only [postThreadGo, pacedDelays, List.filterMap_nil, List.length_nil]
        omega
  | succ n ih =>
    intro idx acc last s hfuel hresume r' heq
    rw [postThreadGo] at heq ⊢
    rcases htext : texts[idx]? with _ | text
    · exfalso
      have hlen : texts.length ≤ idx := by
        by_contra hlt
        rw [List.getElem?_eq_getElem (by omega)] at htext
        cases htext
      omega
    · have hidxlt : idx < texts.length := by
        by_contra hge
        rw [List.getElem?_eq_none (by omega)] at htext
        cases htext
      rw [htext] at heq
      dsimp only at heq ⊢
      rcases hps : post_single http_post text (firstItemOnly mf idx)
          (firstItemOnly ma idx) last mr s with ⟨pr, s1, tr1⟩
      rw [hps] at heq
      have hspec := post_single_spec http_post text (firstItemOnly mf idx)
        (firstItemOnly ma idx) last mr s
      rw [hps] at hspec
      obtain ⟨ha, hb, hc, hd, he, hf⟩ := hspec
      dsimp only at ha hb hc hd he hf
      have hpaceIds : acceptedIds
          (if resume < idx then [Event.paced (3 + jitter idx)] else []) = [] := by
        by_cases hpc : resume < idx <;> simp [hpc, acceptedIds, Event.acceptedId]
      have hpaceLen : (pacedDelays
          (if resume < idx then [Event.paced (3 + jitter idx)] else [])).length =
          if idx = resume then 0 else 1 := by
        rcases Nat.lt_or_ge resume idx with hpc | hpc
        · rw [if_pos hpc]
          have : ¬ idx = resume := by omega
          simp [this, pacedDelays]
        · have hre : idx = resume := by omega
          rw [if_neg (by omega), hre]
          simp [pacedDelays]
      rcases pr with e | result
      · rcases e with m | m | m
        -- RateLimitError / PostError: failed result at this index
        case rateLimit =>
          dsimp only at heq
          rw [Except.ok.injEq] at heq
          subst heq
          refine ⟨?_, by simp, ?_, ?_⟩
          · rw [acceptedIds_append, hpaceIds, List.nil_append, hc, resultIds]
            simp
          · intro i hi
            simp only [Option.some.injEq] at hi
            subst hi
            refine ⟨le_refl _, hidxlt, ?_, ?_⟩
            · rw [acceptedIds_append, hpaceIds, List.nil_append, hc, resultIds]
              simp
            · rw [pacedDelays_append]
              have hb' : pacedDelays tr1 = [] := hb
              rw [hb', List.length_append, hpaceLen]
              by_cases hir : idx = resume <;> simp [hir, pacedDelays]
          · intro hnone; cases hnone
        case postError =>
          dsimp only at heq
          rw [Except.ok.injEq] at heq
          subst heq
          refine ⟨?_, by simp, ?_, ?_⟩
          · rw [acceptedIds_append, hpaceIds, List.nil_append, hc, resultIds]
            simp
          · intro i hi
            simp only [Option.some.injEq] at hi
            subst hi
            refine ⟨le_refl _, hidxlt, ?_, ?_⟩
            · rw [acceptedIds_append, hpaceIds, List.nil_append, hc, resultIds]
              simp
            · rw [pacedDelays_append]
              have hb' : pacedDelays tr1 = [] := hb
              rw [hb', List.length_append, hpaceLen]
              by_cases hir : idx = resume <;> simp [hir, pacedDelays]
          · intro hnone; cases hnone
        case other =>
          dsimp only at heq
          cases heq
      · dsimp only at heq ⊢
        by_cases hfail : (!result.success || !pyTruthyOpt result.tweet_id) = true
        · rw [if_pos hfail] at heq ⊢
          dsimp only at heq
          rw [Except.ok.injEq] at heq
          subst heq
          have hids : pyTruthyOpt result.tweet_id = false := by
            have hfs := (hf result rfl).1
            cases hidc : pyTruthyOpt result.tweet_id
            · rfl
            · rw [hfs, hidc] at hfail; simp at hfail
          refine ⟨?_, by simp, ?_, ?_⟩
          · rw [acceptedIds_append, hpaceIds, List.nil_append, hc, resultIds]
            simp [hids]
          · intro i hi
            simp only [Option.some.injEq] at hi
            subst hi
            refine ⟨le_refl _, hidxlt, ?_, ?_⟩
            · rw [acceptedIds_append, hpaceIds, List.nil_append, hc, resultIds]
              simp [hids]
            · rw [pacedDelays_append]
              have hb' : pacedDelays tr1 = [] := hb
              rw [hb', List.length_append, hpaceLen]
              by_cases hir : idx = resume <;> simp [hir, pacedDelays]
          · intro hnone; cases hnone
        · rw [if_neg hfail] at heq ⊢
          dsimp only at heq ⊢
          have hid : pyTruthyOpt result.tweet_id = true := by
            cases hsucc : result.success <;>
              cases hidc : pyTruthyOpt result.tweet_id <;>
              simp [hsucc, hidc] at hfail ⊢
          obtain ⟨ih1, ih2, ih3, ih4⟩ := ih (idx + 1) (acc ++ [result.tweet_id.getD []])
            (some (result.tweet_id.getD [])) s1 (by omega) (by omega) r' heq
          have hc1 : acceptedIds tr1 = [result.tweet_id.getD []] := by
            rw [hc, resultIds]
            simp [hid]
          have hn1r : ¬ (idx + 1 = resume) := by omega
          refine ⟨?_, ih2, ?_, ?_⟩
          · rw [ih1, acceptedIds_append, acceptedIds_append, hpaceIds,
              List.nil_append, hc1, List.append_assoc]
          · intro i hi
            obtain ⟨hle, hlt, hcnt, hpcd⟩ := ih3 i hi
            refine ⟨by omega, hlt, ?_, ?_⟩
            · rw [acceptedIds_append, acceptedIds_append, hpaceIds, List.nil_append,
                hc1]
              simp only [List.length_append, List.length_cons, List.length_nil, hcnt]
              omega
            · rw [pacedDelays_append, pacedDelays_append]
              rw [List.length_append, List.length_append, hpaceLen]
              have hb' : pacedDelays tr1 = [] := hb
              rw [hb']
              simp only [List.length_nil]
              rw [hpcd, if_neg hn1r]
              by_cases hir : idx = resume <;> simp [hir] <;> omega
          · intro hnone
            obtain ⟨hcnt, hpcd⟩ := ih4 hnone
            constructor
            · rw [acceptedIds_append, acceptedIds_append, hpaceIds, List.nil_append,
                hc1]
              simp only [List.length_append, List.length_cons, List.length_nil, hcnt]
              omega
            · rw [pacedDelays_append, pacedDelays_append]
              rw [List.length_append, List.length_append, hpaceLen]
              have hb' : pacedDelays tr1 = [] := hb
              rw [hb']
              simp only [List.length_nil]
              rw [hpcd, if_neg hn1r]
              by_cases hir : idx = resume <;> simp [hir] <;> omega

theorem postThreadGo_delays {S : Type} (http_post : HttpDouble S) (jitter : Nat → ℚ)
    (texts : List PyStr) (mf ma : Option PyStr) (resume mr : Nat) :
    ∀ (fuel idx : Nat) (acc : List PyStr) (last : Option PyStr) (s : S),
      ∀ d ∈ pacedDelays
        (postThreadGo http_post jitter texts mf ma resume mr fuel idx acc last s).2.2,
        ∃ k, d = 3 + jitter k := by
  intro fuel
  induction fuel with
  | zero => intro idx acc last s d hd; simp [postThreadGo, pacedDelays] at hd
  | succ n ih =>
    intro idx acc last s d hd
    rw [postThreadGo] at hd
    rcases htext : texts[idx]? with _ | text
    · rw [htext] at hd
      simp [pacedDelays] at hd
    · rw [htext] at hd
      dsimp only at hd
      rcases hps : post_single http_post text (firstItemOnly mf idx)
          (firstItemOnly ma idx) last mr s with ⟨pr, s1, tr1⟩
      rw [hps] at hd
      have hspec := post_single_spec http_post text (firstItemOnly mf idx)
        (firstItemOnly ma idx) last mr s
      rw [hps] at hspec
      obtain ⟨_, hb, _, _, _, _⟩ := hspec
      dsimp only at hb
      have hpaceMem : ∀ d', d' ∈ pacedDelays
          (if resume < idx then [Event.paced (3 + jitter idx)] else []) →
          ∃ k, d' = 3 + jitter k := by
        intro d' hd'
        by_cases hpc : resume < idx
        · rw [if_pos hpc] at hd'
          simp only [pacedDelays, List.filterMap_cons, List.filterMap_nil] at hd'
          rcases List.mem_cons.1 hd' with h | h
          · exact ⟨idx, h⟩
          · cases h
        · rw [if_neg hpc] at hd'
          simp [pacedDelays] at hd'
      rcases pr with e | result
      · rcases e with m | m | m
        all_goals dsimp only at hd
        all_goals rw [pacedDelays_append, hb, List.append_nil] at hd
        all_goals exact hpaceMem d hd
      · dsimp only at hd
        by_cases hfail : (!result.success || !pyTruthyOpt result.tweet_id) = true
        · rw [if_pos hfail] at hd
          dsimp only at hd
          rw [pacedDelays_append, hb, List.append_nil] at hd
          exact hpaceMem d hd
        · rw [if_neg hfail] at hd
          dsimp only at hd
          rw [pacedDelays_append, pacedDelays_append, hb, List.append_nil] at hd
          rcases List.mem_append.1 hd with hmem | hmem
          · exact hpaceMem d hmem
          · exact ih (idx + 1) (acc ++ [result.tweet_id.getD []])
              (some (result.tweet_id.getD [])) s1 d hmem

/-- **C9.** In one `post_thread` invocation, when the run returns a result
(no uncaught exception), the number of paced inter-post delays is exactly
one less than the number of items attempted in that invocation — none
before the first item posted, even when resuming mid-thread — and, because
`random.uniform(-0.5, 0.5)` always yields a jitter in `[-1/2, 1/2]`, every
delay lies in the closed interval `[5/2, 7/2]` seconds. -/
theorem post_thread_pacing {S : Type} (http_post : HttpDouble S) (jitter : Nat → ℚ)
    (texts : List PyStr) (media_first media_alt : Option PyStr)
    (resume_from : Nat) (previous_tweet_ids : Option (List PyStr))
    (max_retries : Nat) (s : S)
    (hj : ∀ k, -(1/2 : ℚ) ≤ jitter k ∧ jitter k ≤ 1/2) :
    ∀ r', (post_thread http_post jitter texts media_first media_alt resume_from
        previous_tweet_ids max_retries s).1 = .ok r' →
      (pacedDelays (post_thread http_post jitter texts media_first media_alt
          resume_from previous_tweet_ids max_retries s).2.2).length =
        ((match r'.failed_at with
          | some i => i + 1
          | none => texts.length) - resume_from) - 1 ∧
      (∀ d ∈ pacedDelays (post_thread http_post jitter texts media_first media_alt
          resume_from previous_tweet_ids max_retries s).2.2,
        (5/2 : ℚ) ≤ d ∧ d ≤ 7/2) := by
  intro r' heq
  simp only [post_thread] at heq ⊢
  constructor
  · obtain ⟨_, _, h3, h4⟩ := postThreadGo_result http_post jitter texts media_first
      media_alt resume_from max_retries (texts.length - resume_from) resume_from _ _ s
      rfl (le_refl _) r' heq
    rcases hfa : r'.failed_at with _ | i
    · obtain ⟨_, hp⟩ := h4 hfa
      rw [hp]
      simp
    · obtain ⟨_, _, _, hp⟩ := h3 i hfa
      rw [hp]
      simp
  · intro d hd
    obtain ⟨k, hk⟩ := postThreadGo_delays http_post jitter texts media_first media_alt
      resume_from max_retries (texts.length - resume_from) resume_from _ _ s d hd
    obtain ⟨hlo, hhi⟩ := hj k
    subst hk
    constructor <;> linarith

/-- Witness for `post_thread_pacing`: three texts, an always-succeeding
double, zero jitter — exactly two delays of 3 seconds each. -/
theorem post_thread_pacing_witness :
    (pacedDelays (post_thread (countingOracle (fun _ => okResponse (pyStr "id1")))
        (fun _ => 0)
        [pyStr "a", pyStr "b", pyStr "c"] none none 0 none 3 0).2.2).length = 2 ∧
    (∀ d ∈ pacedDelays (post_thread
        (countingOracle (fun _ => okResponse (pyStr "id1"))) (fun _ => 0)
        [pyStr "a", pyStr "b", pyStr "c"] none none 0 none 3 0).2.2,
      (5/2 : ℚ) ≤ d ∧ d ≤ 7/2) := by
  have h := post_thread_pacing (countingOracle (fun _ => okResponse (pyStr "id1")))
    (fun _ => 0)
    [pyStr "a", pyStr "b", pyStr "c"] none none 0 none 3 0
    (fun k => by norm_num)
    (ThreadPostResult.mk true [pyStr "id1", pyStr "id1", pyStr "id1"] none none)
    (by decide)
  exact h

/-- **C4.** If the item at index `i` fails during `post_thread` (a caught
`PostError`/`RateLimitError` or a missing/falsy identifier), the returned
result is marked failed with `failed_at = i` and `tweet_ids` holding
exactly the seeded previous identifiers followed by the identifiers
accepted before index `i` (one per index from `resume_from` to `i - 1`);
and any `post_thread` invocation with `resume_from = i` issues tweet-create
calls only for texts at indices `≥ i` — it never re-posts an earlier
index. -/
theorem post_thread_mid_failure_and_resume {S : Type} (http_post : HttpDouble S)
    (jitter : Nat → ℚ) (texts : List PyStr) (media_first media_alt : Option PyStr)
    (max_retries : Nat) :
    (∀ (resume_from : Nat) (previous_tweet_ids : Option (List PyStr)) (s : S) r',
      (post_thread http_post jitter texts media_first media_alt resume_from
          previous_tweet_ids max_retries s).1 = .ok r' →
      r'.success = false →
      ∃ i, r'.failed_at = some i ∧ resume_from ≤ i ∧ i < texts.length ∧
        r'.tweet_ids = previous_tweet_ids.getD [] ++
          acceptedIds (post_thread http_post jitter texts media_first media_alt
            resume_from previous_tweet_ids max_retries s).2.2 ∧
        (acceptedIds (post_thread http_post jitter texts media_first media_alt
            resume_from previous_tweet_ids max_retries s).2.2).length
          = i - resume_from) ∧
    (∀ (i : Nat) (previous_tweet_ids : Option (List PyStr)) (s : S),
      ∀ p ∈ tweetPayloads (post_thread http_post jitter texts media_first media_alt
          i previous_tweet_ids max_retries s).2.2,
        ∃ j, i ≤ j ∧ texts[j]? = some p.text) := by
  have hseed : ∀ previous_tweet_ids : Option (List PyStr),
      (match previous_tweet_ids with
       | none => ([] : List PyStr)
       | some l => if l.isEmpty then [] else l) = previous_tweet_ids.getD [] := by
    intro prev
    cases prev with
    | none => rfl
    | some l => cases l <;> rfl
  constructor
  · intro resume_from previous_tweet_ids s r' heq hsucc
    simp only [post_thread] at heq ⊢
    rw [hseed previous_tweet_ids] at heq ⊢
    obtain ⟨h1, h2, h3, _⟩ := postThreadGo_result http_post jitter texts media_first
      media_alt resume_from max_retries (texts.length - resume_from) resume_from _ _ s
      rfl (le_refl _) r' heq
    rcases hfa : r'.failed_at with _ | i
    · rw [h2.2 hfa] at hsucc
      cases hsucc
    · obtain ⟨hle, hlt, hcnt, _⟩ := h3 i hfa
      exact ⟨i, rfl, hle, hlt, h1, hcnt⟩
  · intro i previous_tweet_ids s p hp
    simp only [post_thread] at hp
    exact postThreadGo_texts http_post jitter texts media_first media_alt
      i max_retries (texts.length - i) i _ _ s p hp

/-- Witness for `post_thread_mid_failure_and_resume`: two texts, the double
fails with a 500 on the second call; the failure is reported at index 1
with only index 0's id collected, and the resumed invocation from index 1
posts only the second text. -/
theorem post_thread_mid_failure_and_resume_witness :
    (∃ i, (ThreadPostResult.mk false [pyStr "id1"] (some 1)
        (some (pyStr "Failed to post tweet: Failed to post tweet: Unknown error"))
          ).failed_at = some i ∧
      0 ≤ i ∧ i < [pyStr "a", pyStr "b"].length ∧
      (ThreadPostResult.mk false [pyStr "id1"] (some 1)
        (some (pyStr "Failed to post tweet: Failed to post tweet: Unknown error"))
          ).tweet_ids = (none : Option (List PyStr)).getD [] ++
        acceptedIds (post_thread
          (countingOracle (fun n => if n = 0 then okResponse (pyStr "id1")
            else { status_code := 500 })) (fun _ => 0)
          [pyStr "a", pyStr "b"] none none 0 none 1 0).2.2 ∧
      (acceptedIds (post_thread
          (countingOracle (fun n => if n = 0 then okResponse (pyStr "id1")
            else { status_code := 500 })) (fun _ => 0)
          [pyStr "a", pyStr "b"] none none 0 none 1 0).2.2).length = i - 0) ∧
    (∀ p ∈ tweetPayloads (post_thread
        (countingOracle (fun _ => okResponse (pyStr "id2"))) (fun _ => 0)
        [pyStr "a", pyStr "b"] none none 1 (some [pyStr "id1"]) 1 0).2.2,
      ∃ j, 1 ≤ j ∧ [pyStr "a", pyStr "b"][j]? = some p.text) := by
  constructor
  · exact (post_thread_mid_failure_and_resume
      (countingOracle (fun n => if n = 0 then okResponse (pyStr "id1")
        else { status_code := 500 })) (fun _ => 0)
      [pyStr "a", pyStr "b"] none none 1).1 0 none 0 _ (by decide) (by decide)
  · exact (post_thread_mid_failure_and_resume
      (countingOracle (fun _ => okResponse (pyStr "id2"))) (fun _ => 0)
      [pyStr "a", pyStr "b"] none none 1).2 1 (some [pyStr "id1"]) 0

/-- **C5 (amended).** `post_thread` reply-chains its calls: every
tweet-create call targets the current "last posted identifier" when that
identifier is truthy and carries no reply target otherwise, where the
identifier is seeded with the last element of `previous_tweet_ids` (none
when empty or absent) and is replaced by the id returned by each
accepted post.  In particular the first item posted with no previous ids
has no reply target, every later posted item replies to the immediately
preceding successful post, and a non-empty `previous_tweet_ids` seeds the
first reply target with its last element exactly when that element is a
non-empty string. -/
theorem post_thread_reply_chaining {S : Type} (http_post : HttpDouble S)
    (jitter : Nat → ℚ) (texts : List PyStr) (media_first media_alt : Option PyStr)
    (resume_from : Nat) (previous_tweet_ids : Option (List PyStr))
    (max_retries : Nat) (s : S) :
    chainOk ((previous_tweet_ids.getD []).getLast?)
      (post_thread http_post jitter texts media_first media_alt resume_from
        previous_tweet_ids max_retries s).2.2 = true := by
  simp only [post_thread]
  have hseed : (match previous_tweet_ids with
       | none => ([] : List PyStr)
       | some l => if l.isEmpty then [] else l) = previous_tweet_ids.getD [] := by
    cases previous_tweet_ids with
    | none => rfl
    | some l => cases l <;> rfl
  rw [hseed]
  exact postThreadGo_chain http_post jitter texts media_first media_alt resume_from
    max_retries (texts.length - resume_from) resume_from _ _ s

/-- **C5, counterexample to the claim as stated.** With
`previous_tweet_ids = [""]` (non-empty, but its last element is the empty
string), the single posted item carries *no* reply target, although the
claim as stated demands that the last element `""` seed the first item's
reply target. -/
theorem post_thread_reply_seed_counterexample :
    tweetPayloads (post_thread (countingOracle (fun _ => okResponse (pyStr "x1")))
        (fun _ => 0) [pyStr "A"] none none 0 (some [([] : PyStr)]) 3 0).2.2 =
      [{ text := pyStr "A", reply_to := none, media_ids := none }] ∧
    (none : Option PyStr) ≠ some ([] : PyStr) := by
  constructor
  · decide
  · decide

/-- **C6.** In `post_single`, an HTTP 429 response with retries remaining
causes a `time.sleep(2**attempt)` backoff and a retry; a 429 on the last
attempt raises `RateLimitError` carrying the `x-rate-limit-reset` hint (or
"unknown" when absent or blank); and concretely, a 429 on the first
attempt followed by a 2xx on the second yields overall success with
exactly two tweet-create calls and one backoff sleep of `2^0 = 1`
second. -/
theorem post_single_rate_limit_retry :
    (∀ {S : Type} (http_post : HttpDouble S) (payload : TweetPayload) (s : S)
        (attempt remaining : Nat) (resp : MockResponse) (s1 : S),
      http_post s (.tweets payload) = (.ok resp, s1) →
      resp.status_code = 429 → 0 < remaining →
      postSingleAttempts http_post payload s attempt (remaining + 1) =
        ((postSingleAttempts http_post payload s1 (attempt + 1) remaining).1,
         (postSingleAttempts http_post payload s1 (attempt + 1) remaining).2.1,
         .call (.tweets payload) (.ok resp) :: .backoff (2 ^ attempt) ::
           (postSingleAttempts http_post payload s1 (attempt + 1) remaining).2.2)) ∧
    (∀ {S : Type} (http_post : HttpDouble S) (payload : TweetPayload) (s : S)
        (attempt : Nat) (resp : MockResponse) (s1 : S),
      http_post s (.tweets payload) = (.ok resp, s1) →
      resp.status_code = 429 →
      postSingleAttempts http_post payload s attempt 1 =
        (.error (.rateLimit (pyStr "Rate limit exceeded. Reset at: " ++
          (if pyTruthyOpt (resp.headerGet (pyStr "x-rate-limit-reset")) then
            (resp.headerGet (pyStr "x-rate-limit-reset")).getD []
           else pyStr "unknown"))), s1,
         [.call (.tweets payload) (.ok resp)])) ∧
    ((post_single (countingOracle (fun n =>
        if n = 0 then rateLimitResponse (pyStr "1700000000")
        else okResponse (pyStr "ok9"))) (pyStr "T") none none none 3 0).1 =
      .ok { success := true, tweet_id := some (pyStr "ok9"),
            text := some (pyStr "T") } ∧
     (tweetPayloads (post_single (countingOracle (fun n =>
        if n = 0 then rateLimitResponse (pyStr "1700000000")
        else okResponse (pyStr "ok9"))) (pyStr "T") none none none 3 0).2.2).length
       = 2 ∧
     backoffSleeps (post_single (countingOracle (fun n =>
        if n = 0 then rateLimitResponse (pyStr "1700000000")
        else okResponse (pyStr "ok9"))) (pyStr "T") none none none 3 0).2.2
       = [1]) := by
  refine ⟨?_, ?_, ?_, ?_, ?_⟩
  · intro S http_post payload s attempt remaining resp s1 hp h429 hrem
    rw [postSingleAttempts, hp]
    dsimp only
    rw [if_pos h429, if_pos hrem]
  · intro S http_post payload s attempt resp s1 hp h429
    rw [postSingleAttempts, hp]
    dsimp only
    rw [if_pos h429, if_neg (lt_irrefl 0)]
  · decide
  · decide
  · decide

/-- Witness for `post_single_rate_limit_retry`: the retry equation and the
exhaustion case instantiated at a concrete double. -/
theorem post_single_rate_limit_retry_witness :
    postSingleAttempts (countingOracle (fun _ => rateLimitResponse (pyStr "99")))
        { text := pyStr "T" } 0 0 (1 + 1) =
      ((postSingleAttempts (countingOracle (fun _ => rateLimitResponse (pyStr "99")))
          { text := pyStr "T" } 1 1 1).1,
       (postSingleAttempts (countingOracle (fun _ => rateLimitResponse (pyStr "99")))
          { text := pyStr "T" } 1 1 1).2.1,
       .call (.tweets { text := pyStr "T" })
           (.ok (rateLimitResponse (pyStr "99"))) :: .backoff (2 ^ 0) ::
         (postSingleAttempts (countingOracle (fun _ => rateLimitResponse (pyStr "99")))
            { text := pyStr "T" } 1 1 1).2.2) ∧
    postSingleAttempts (countingOracle (fun _ => rateLimitResponse (pyStr "99")))
        { text := pyStr "T" } 1 1 1 =
      (.error (.rateLimit (pyStr "Rate limit exceeded. Reset at: " ++
        (if pyTruthyOpt ((rateLimitResponse (pyStr "99")).headerGet
            (pyStr "x-rate-limit-reset")) then
          ((rateLimitResponse (pyStr "99")).headerGet
            (pyStr "x-rate-limit-reset")).getD []
         else pyStr "unknown"))), 2,
       [.call (.tweets { text := pyStr "T" })
          (.ok (rateLimitResponse (pyStr "99")))]) := by
  constructor
  · exact post_single_rate_limit_retry.1
      (countingOracle (fun _ => rateLimitResponse (pyStr "99")))
      { text := pyStr "T" } 0 0 1 (rateLimitResponse (pyStr "99")) 1
      rfl rfl (by decide)
  · exact post_single_rate_limit_retry.2.1
      (countingOracle (fun _ => rateLimitResponse (pyStr "99")))
      { text := pyStr "T" } 1 1 (rateLimitResponse (pyStr "99")) 2
      rfl rfl

/-- **C8.** During redirect following: a transport failure on any fetch
(from any reachable state with fetches remaining) terminates following
with the current URL and no error; revisiting an already-visited URL
raises `CanonicalizationError` (redirect loop); exhausting `maxRedirects`
raises `CanonicalizationError` rather than falling back; and when the
transport fails, `canonicalize` with redirect following enabled proceeds
exactly as with following disabled — normalizing the last known URL. -/
theorem follow_redirects_error_handling :
    (∀ (http_get : PyStr → Except PyStr RedirectResp) (fuel : Nat)
        (visited : List PyStr) (current e : PyStr),
      current ∉ visited → http_get current = .error e →
      followRedirectsGo http_get (fuel + 1) visited current = .ok current) ∧
    (∀ (http_get : PyStr → Except PyStr RedirectResp) (fuel : Nat)
        (visited : List PyStr) (current : PyStr),
      current ∈ visited →
      followRedirectsGo http_get (fuel + 1) visited current =
        .error (.redirectLoop current)) ∧
    (∀ (http_get : PyStr → Except PyStr RedirectResp) (visited : List PyStr)
        (current : PyStr),
      followRedirectsGo http_get 0 visited current = .error .tooManyRedirects) ∧
    (∀ (u : PyStr) (http_get : PyStr → Except PyStr RedirectResp) (n : Nat),
      0 < n → (∀ v, ∃ e, http_get v = .error e) →
      canonicalize u http_get true n = canonicalizeNR u) := by
  refine ⟨?_, ?_, ?_, ?_⟩
  · intro http_get fuel visited current e hnot hget
    rw [followRedirectsGo, if_neg hnot, hget]
  · intro http_get fuel visited current hmem
    rw [followRedirectsGo, if_pos hmem]
  · intro http_get visited current
    rw [followRedirectsGo]
  · intro u http_get n hn hg
    rw [canonicalize, canonicalizeNR, canonicalize]
    by_cases hempty : u = [] ∨ pyStrip u = []
    · rw [if_pos hempty, if_pos hempty]
    · rw [if_neg hempty, if_neg hempty]
      dsimp only
      by_cases hbr : bracketMismatch (pyUrlparse (if pyStartsWith (pyLower (pyStrip u))
          (pyStr "http://") || pyStartsWith (pyLower (pyStrip u))
          (pyStr "https://") then pyStrip u
        else pyStr "https://" ++ pyStrip u)).netloc = true
      · rw [if_pos hbr, if_pos hbr]
      · rw [if_neg hbr, if_neg hbr]
        by_cases hdom : (pyUrlparse (if pyStartsWith (pyLower (pyStrip u))
            (pyStr "http://") || pyStartsWith (pyLower (pyStrip u))
            (pyStr "https://") then pyStrip u
          else pyStr "https://" ++ pyStrip u)).netloc = []
        · rw [if_pos hdom, if_pos hdom]
        · rw [if_neg hdom, if_neg hdom]
          have hfollow : ∀ url, follow_redirects url http_get n = .ok url := by
            intro url
            obtain ⟨m, rfl⟩ := Nat.exists_eq_add_of_lt hn
            obtain ⟨e, he⟩ := hg url
            rw [follow_redirects, Nat.zero_add, followRedirectsGo,
              if_neg (List.not_mem_nil url), he]
          rw [if_pos rfl, hfollow]
          dsimp only
          rw [if_neg hbr]
          rfl

/-- Witness for `follow_redirects_error_handling` at concrete states: an
always-failing transport, a visited current URL, zero fuel, and a full
`canonicalize` run over a failing transport. -/
theorem follow_redirects_error_handling_witness :
    followRedirectsGo (fun _ => .error (pyStr "boom")) (4 + 1) [pyStr "https://a/"]
        (pyStr "https://example.com/x") = .ok (pyStr "https://example.com/x") ∧
    followRedirectsGo (fun _ => .error (pyStr "boom")) (4 + 1)
        [pyStr "https://example.com/x"] (pyStr "https://example.com/x") =
      .error (.redirectLoop (pyStr "https://example.com/x")) ∧
    followRedirectsGo (fun _ => .error (pyStr "boom")) 0 []
        (pyStr "https://example.com/x") = .error .tooManyRedirects ∧
    canonicalize (pyStr "https://www.Example.com/a/") (fun _ => .error (pyStr "boom"))
        true 5 = canonicalizeNR (pyStr "https://www.Example.com/a/") := by
  obtain ⟨h1, h2, h3, h4⟩ := follow_redirects_error_handling
  refine ⟨?_, ?_, h3 _ _ _, ?_⟩
  · exact h1 (fun _ => .error (pyStr "boom")) 4 [pyStr "https://a/"]
      (pyStr "https://example.com/x") (pyStr "boom") (by decide) rfl
  · exact h2 (fun _ => .error (pyStr "boom")) 4 [pyStr "https://example.com/x"]
      (pyStr "https://example.com/x") (by decide)
  · exact h4 (pyStr "https://www.Example.com/a/") (fun _ => .error (pyStr "boom")) 5
      (by decide) (fun v => ⟨pyStr "boom", rfl⟩)

/-- **C2, counterexample to the claim as stated.** Canonicalization
(redirects disabled) is not idempotent: `https://www.www.example.com/`
canonicalizes successfully to `https://www.example.com/`, but
canonicalizing that result strips a second `www.` and yields
`https://example.com/`. -/
theorem canonicalize_idempotence_counterexample :
    canonicalizeNR (pyStr "https://www.www.example.com/") =
      .ok (pyStr "https://www.example.com/") ∧
    canonicalizeNR (pyStr "https://www.example.com/") =
      .ok (pyStr "https://example.com/") ∧
    pyStr "https://example.com/" ≠ pyStr "https://www.example.com/" := by
  refine ⟨by decide, by decide, by decide⟩

/-- **C7, counterexample to the claim as stated.** Query values are not
preserved byte-for-byte: the submitted value `a%20b` is re-emitted as
`a+b` (percent-decoding then `urlencode`'s re-encoding normalizes the
escape for space). -/
theorem canonical_query_verbatim_counterexample :
    canonicalizeNR (pyStr "https://example.com/p?x=a%20b") =
      .ok (pyStr "https://example.com/p?x=a+b") ∧
    pyStr "https://example.com/p?x=a+b" ≠ pyStr "https://example.com/p?x=a%20b" := by
  refine ⟨by decide, by decide⟩

/-- **C3.** For every (existing-match, mode, force) combination with mode in
{auto, review}, `check_duplicate` returns exactly the tabulated pair: no
match gives `(is_duplicate := false, should_block := false)` for any mode and
force; a match in auto mode gives `(true, true)` when `force = false` and
`(true, false)` when `force = true`; a match in review mode gives
`(true, false)` regardless of force. -/
theorem check_duplicate_policy_matrix (db : List Run) (account_id : Int)
    (canonical_url : PyStr) (mode : PyStr) (force : Bool)
    (hmode : mode = pyStr "auto" ∨ mode = pyStr "review") :
    (queryExistingRun db account_id canonical_url = none →
      check_duplicate db account_id canonical_url mode force =
        { is_duplicate := false, previous_run_id := none, should_block := false }) ∧
    (∀ run, queryExistingRun db account_id canonical_url = some run →
      (check_duplicate db account_id canonical_url mode force).is_duplicate = true ∧
      ((mode = pyStr "auto" ∧ force = false →
        (check_duplicate db account_id canonical_url mode force).should_block = true) ∧
       (mode = pyStr "auto" ∧ force = true →
        (check_duplicate db account_id canonical_url mode force).should_block = false) ∧
       (mode = pyStr "review" →
        (check_duplicate db account_id canonical_url mode force).should_block = false))) := by
  unfold check_duplicate
  constructor
  · intro h
    rw [h]
  · intro run h
    rw [h]
    refine ⟨rfl, ?_, ?_, ?_⟩
    · rintro ⟨rfl, rfl⟩
      simp
    · rintro ⟨rfl, rfl⟩
      simp
    · rintro rfl
      have : (pyStr "review" = pyStr "auto") = False := by
        simp only [eq_iff_iff, iff_false]
        decide
      simp [this]

/-- Witness for `check_duplicate_policy_matrix` at a concrete database,
account, URL and mode. -/
theorem check_duplicate_policy_matrix_witness :
    (queryExistingRun [] 1 (pyStr "https://example.com/a") = none →
      check_duplicate [] 1 (pyStr "https://example.com/a") (pyStr "auto") false =
        { is_duplicate := false, previous_run_id := none, should_block := false }) ∧
    (∀ run, queryExistingRun [] 1 (pyStr "https://example.com/a") = some run →
      (check_duplicate [] 1 (pyStr "https://example.com/a") (pyStr "auto") false).is_duplicate
          = true ∧
      ((pyStr "auto" = pyStr "auto" ∧ false = false →
        (check_duplicate [] 1 (pyStr "https://example.com/a") (pyStr "auto")
            false).should_block = true) ∧
       (pyStr "auto" = pyStr "auto" ∧ false = true →
        (check_duplicate [] 1 (pyStr "https://example.com/a") (pyStr "auto")
            false).should_block = false) ∧
       (pyStr "auto" = pyStr "review" →
        (check_duplicate [] 1 (pyStr "https://example.com/a") (pyStr "auto")
            false).should_block = false))) :=
  check_duplicate_policy_matrix [] 1 (pyStr "https://example.com/a") (pyStr "auto") false
    (Or.inl rfl)

/-- **C10.** When `resume_from` is at least the number of texts (including
an empty text list), `post_thread` returns immediately with
`success = true`, `tweet_ids` exactly the seeded previous identifiers
(empty when none were given), `failed_at` unset, and performs no HTTP
calls and no sleeps (the trace is empty, the double's state untouched). -/
theorem post_thread_resume_past_end {S : Type} (http_post : HttpDouble S)
    (jitter : Nat → ℚ) (texts : List PyStr) (media_first media_alt : Option PyStr)
    (resume_from : Nat) (previous_tweet_ids : Option (List PyStr))
    (max_retries : Nat) (s : S) (h : texts.length ≤ resume_from) :
    post_thread http_post jitter texts media_first media_alt resume_from
        previous_tweet_ids max_retries s =
      (.ok { success := true, tweet_ids := previous_tweet_ids.getD [],
             failed_at := none, error := none }, s, []) := by
  unfold post_thread
  have h0 : texts.length - resume_from = 0 := by omega
  have hseed : (match previous_tweet_ids with
      | none => ([] : List PyStr)
      | some l => if l.isEmpty then [] else l) = previous_tweet_ids.getD [] := by
    cases previous_tweet_ids with
    | none => rfl
    | some l => cases l <;> rfl
  simp only [h0, hseed, postThreadGo]

/-- Witness for `post_thread_resume_past_end` with one text and
`resume_from = 5`. -/
theorem post_thread_resume_past_end_witness :
    post_thread (S := Unit) (fun s _ => (.ok { status_code := 201 }, s)) (fun _ => 0)
        [pyStr "a"] none none 5 (some [pyStr "id0"]) 3 ()
      = (.ok { success := true, tweet_ids := [pyStr "id0"],
               failed_at := none, error := none }, (), []) := by
  have := post_thread_resume_past_end (S := Unit)
    (fun s _ => (.ok { status_code := 201 }, s)) (fun _ => 0)
    [pyStr "a"] none none 5 (some [pyStr "id0"]) 3 () (by decide)
  simpa using this

/-- **C1.** On the failing input — auto mode, `force = false`, and a prior
`completed` run persisted for the same account and canonical URL — the
duplicate gate of `api_submit` does not reject with a 409 conflict carrying
the prior run id: it raises `AttributeError` for `blocks_submission`
(the dataclass field is named `should_block`), which surfaces as an
unhandled server error. -/
theorem api_submit_duplicate_gate_attribute_error :
    apiSubmitDuplicateGate
        [{ id := 7, account_id := 1, canonical_url := pyStr "https://example.com/a",
           status := pyStr "completed", submitted_at := 100 }]
        1 (pyStr "https://example.com/a") (pyStr "auto") false
      = .attributeError (pyStr "blocks_submission") ∧
    apiSubmitDuplicateGate
        [{ id := 7, account_id := 1, canonical_url := pyStr "https://example.com/a",
           status := pyStr "completed", submitted_at := 100 }]
        1 (pyStr "https://example.com/a") (pyStr "auto") false
      ≠ .conflict409 (some 7) := by
  constructor
  · rfl
  · decide


/-! ### Helper lemmas: the code-point order `sorted` uses -/

theorem strLtB_irrefl (a : PyStr) : strLtB a a = false := by
  induction a with
  | nil => rfl
  | cons c cs ih => simp [strLtB, ih]

theorem strLtB_asymm {a b : PyStr} (h : strLtB a b = true) : strLtB b a = false := by
  induction a generalizing b with
  | nil =>
    cases b with
    | nil => simp [strLtB] at h
    | cons d ds => rfl
  | cons c cs ih =>
    cases b with
    | nil => simp [strLtB] at h
    | cons d ds =>
      simp only [strLtB] at h ⊢
      rcases Nat.lt_trichotomy c d with hcd | hcd | hcd
      · rw [if_neg (Nat.lt_asymm hcd), if_pos hcd]
      · subst hcd
        rw [if_neg (Nat.lt_irrefl c), if_neg (Nat.lt_irrefl c)] at h ⊢
        exact ih h
      · rw [if_neg (Nat.lt_asymm hcd), if_pos hcd] at h
        simp at h

theorem strLtB_trans {a b c : PyStr} (h1 : strLtB a b = true)
    (h2 : strLtB b c = true) : strLtB a c = true := by
  induction a generalizing b c with
  | nil =>
    cases c with
    | nil =>
      cases b with
      | nil => exact h2
      | cons y ys => simp [strLtB] at h2
    | cons z zs => rfl
  | cons x xs ih =>
    cases b with
    | nil => simp [strLtB] at h1
    | cons y ys =>
      cases c with
      | nil => simp [strLtB] at h2
      | cons z zs =>
        simp only [strLtB] at h1 h2 ⊢
        rcases Nat.lt_trichotomy x y with hxy | hxy | hxy
        · rcases Nat.lt_trichotomy y z with hyz | hyz | hyz
          · rw [if_pos (Nat.lt_trans hxy hyz)]
          · subst hyz
            rw [if_pos hxy]
          · rw [if_neg (Nat.lt_asymm hyz), if_pos hyz] at h2
            simp at h2
        · subst hxy
          rcases Nat.lt_trichotomy x z with hxz | hxz | hxz
          · rw [if_pos hxz]
          · subst hxz
            rw [if_neg (Nat.lt_irrefl x), if_neg (Nat.lt_irrefl x)] at h1 h2 ⊢
            exact ih h1 h2
          · rw [if_neg (Nat.lt_asymm hxz), if_pos hxz] at h2
            simp at h2
        · rw [if_neg (Nat.lt_asymm hxy), if_pos hxy] at h1
          simp at h1

theorem strLtB_conn {a b : PyStr} (h1 : strLtB a b = false)
    (h2 : strLtB b a = false) : a = b := by
  induction a generalizing b with
  | nil =>
    cases b with
    | nil => rfl
    | cons y ys => simp [strLtB] at h1
  | cons x xs ih =>
    cases b with
    | nil => simp [strLtB] at h2
    | cons y ys =>
      simp only [strLtB] at h1 h2
      rcases Nat.lt_trichotomy x y with hxy | hxy | hxy
      · rw [if_pos hxy] at h1
        simp at h1
      · subst hxy
        rw [if_neg (Nat.lt_irrefl x), if_neg (Nat.lt_irrefl x)] at h1 h2
        rw [ih h1 h2]
      · rw [if_pos hxy] at h2
        simp at h2

/-! ### Helper lemmas: `parse_qs` as an insertion-ordered multi-dict -/

theorem dictGet_addValue (d : List (PyStr × List PyStr)) (a k : PyStr) (v : PyStr) :
    dictGet (dictAddValue d a v) k = dictGet d k ++ (if a = k then [v] else []) := by
  induction d with
  | nil => by_cases hak : a = k <;> simp [dictAddValue, dictGet, hak]
  | cons e rest ih =>
    simp only [dictAddValue]
    by_cases hea : e.1 = a
    · rw [if_pos hea]
      simp only [dictGet]
      by_cases hek : e.1 = k
      · rw [if_pos hek, if_pos hek, if_pos (hea.symm.trans hek)]
      · rw [if_neg hek, if_neg hek, if_neg (fun hak => hek (hea.trans hak)),
          List.append_nil]
    · rw [if_neg hea]
      simp only [dictGet]
      by_cases hek : e.1 = k
      · rw [if_pos hek, if_pos hek,
          if_neg (fun hak => hea (hek.trans hak.symm)), List.append_nil]
      · rw [if_neg hek, if_neg hek, ih]

theorem mem_dictKeys_addValue {d : List (PyStr × List PyStr)} {a k : PyStr}
    {v : PyStr} (h : k ∈ dictKeys (dictAddValue d a v)) : k ∈ dictKeys d ∨ k = a := by
  induction d with
  | nil =>
    simp [dictAddValue, dictKeys] at h
    right
    exact h
  | cons e rest ih =>
    simp only [dictAddValue] at h
    by_cases hea : e.1 = a
    · rw [if_pos hea] at h
      simp only [dictKeys, List.map_cons, List.mem_cons] at h ⊢
      rcases h with h | h
      · left
        left
        exact h
      · left
        right
        exact h
    · rw [if_neg hea] at h
      simp only [dictKeys, List.map_cons, List.mem_cons] at h ⊢
      rcases h with h | h
      · left
        left
        exact h
      · rcases ih h with h2 | h2
        · left
          right
          exact h2
        · right
          exact h2

theorem nodup_dictKeys_addValue {d : List (PyStr × List PyStr)} {a : PyStr}
    {v : PyStr} (h : (dictKeys d).Nodup) : (dictKeys (dictAddValue d a v)).Nodup := by
  induction d with
  | nil => simp [dictAddValue, dictKeys]
  | cons e rest ih =>
    simp only [dictAddValue]
    simp only [dictKeys, List.map_cons, List.nodup_cons] at h
    by_cases hea : e.1 = a
    · rw [if_pos hea]
      simp only [dictKeys, List.map_cons, List.nodup_cons]
      exact h
    · rw [if_neg hea]
      simp only [dictKeys, List.map_cons, List.nodup_cons]
      refine ⟨fun hmem => ?_, ih h.2⟩
      rcases mem_dictKeys_addValue hmem with h2 | h2
      · exact h.1 h2
      · exact hea h2

theorem values_ne_nil_addValue {d : List (PyStr × List PyStr)} {a : PyStr}
    {v : PyStr} (h : ∀ e ∈ d, e.2 ≠ []) : ∀ e ∈ dictAddValue d a v, e.2 ≠ [] := by
  induction d with
  | nil =>
    intro e he
    simp [dictAddValue] at he
    subst he
    simp
  | cons x rest ih =>
    intro e he
    simp only [dictAddValue] at he
    by_cases hxa : x.1 = a
    · rw [if_pos hxa] at he
      rcases List.mem_cons.mp he with h2 | h2
      · subst h2
        simp
      · exact h e (List.mem_cons_of_mem x h2)
    · rw [if_neg hxa] at he
      rcases List.mem_cons.mp he with h2 | h2
      · subst h2
        exact h e (List.mem_cons_self e rest)
      · exact ih (fun y hy => h y (List.mem_cons_of_mem x hy)) e h2

theorem dictGet_foldl_addValue (l : List (PyStr × PyStr)) (k : PyStr) :
    ∀ d0, dictGet (l.foldl (fun d kv => dictAddValue d kv.1 kv.2) d0) k =
      dictGet d0 k ++ (l.filter (fun kv => decide (kv.1 = k))).map Prod.snd := by
  induction l with
  | nil =>
    intro d0
    simp
  | cons kv rest ih =>
    intro d0
    simp only [List.foldl_cons]
    rw [ih, dictGet_addValue]
    simp only [List.filter_cons]
    by_cases hk : kv.1 = k
    · rw [if_pos hk, if_pos (by simpa using hk)]
      simp [List.append_assoc]
    · rw [if_neg hk, if_neg (by simpa using hk), List.append_nil]

theorem nodup_dictKeys_foldl (l : List (PyStr × PyStr)) :
    ∀ d0, (dictKeys d0).Nodup →
      (dictKeys (l.foldl (fun d kv => dictAddValue d kv.1 kv.2) d0)).Nodup := by
  induction l with
  | nil => exact fun d0 h => h
  | cons kv rest ih => exact fun d0 h => ih _ (nodup_dictKeys_addValue h)

theorem values_ne_nil_foldl (l : List (PyStr × PyStr)) :
    ∀ d0, (∀ e ∈ d0, e.2 ≠ []) →
      ∀ e ∈ l.foldl (fun d kv => dictAddValue d kv.1 kv.2) d0, e.2 ≠ [] := by
  induction l with
  | nil => exact fun d0 h => h
  | cons kv rest ih => exact fun d0 h => ih _ (values_ne_nil_addValue h)

theorem nodup_dictKeys_parseQs (qs : PyStr) : (dictKeys (pyParseQs qs)).Nodup := by
  exact nodup_dictKeys_foldl (pyParseQsl qs) [] (by simp [dictKeys])

theorem values_ne_nil_parseQs (qs : PyStr) : ∀ e ∈ pyParseQs qs, e.2 ≠ [] := by
  exact values_ne_nil_foldl (pyParseQsl qs) [] (by simp)

theorem dictGet_parseQs (qs : PyStr) (k : PyStr) :
    dictGet (pyParseQs qs) k =
      ((pyParseQsl qs).filter (fun kv => decide (kv.1 = k))).map Prod.snd := by
  have h := dictGet_foldl_addValue (pyParseQsl qs) k []
  simpa [pyParseQs, dictGet] using h

theorem dictGet_filter_keyKept (d : List (PyStr × List PyStr)) (k : PyStr) :
    dictGet (d.filter (fun e => keyKept e.1)) k =
      if keyKept k = true then dictGet d k else [] := by
  induction d with
  | nil => simp [dictGet]
  | cons e rest ih =>
    simp only [List.filter_cons]
    by_cases hkept : keyKept e.1 = true
    · rw [if_pos hkept]
      by_cases hk : e.1 = k
      · have hkk : keyKept k = true := by rw [← hk]; exact hkept
        simp only [dictGet]
        rw [if_pos hk, if_pos hkk, if_pos hk]
      · simp only [dictGet]
        rw [if_neg hk, ih]
        by_cases hkk : keyKept k = true
        · rw [if_pos hkk, if_pos hkk, if_neg hk]
        · rw [if_neg hkk, if_neg hkk]
    · rw [if_neg hkept, ih]
      by_cases hk : e.1 = k
      · have hkk : ¬ keyKept k = true := fun hkk => hkept (by rw [hk]; exact hkk)
        rw [if_neg hkk, if_neg hkk]
      · simp only [dictGet]
        rw [if_neg hk]

/-! ### Helper lemmas: the stable key sort -/

theorem insortEntry_perm (e : PyStr × List PyStr) (l : List (PyStr × List PyStr)) :
    List.Perm (insortEntry e l) (e :: l) := by
  induction l with
  | nil => exact List.Perm.refl _
  | cons x xs ih =>
    simp only [insortEntry]
    by_cases h : strLtB e.1 x.1 = true
    · rw [if_pos h]
    · rw [if_neg h]
      exact (ih.cons x).trans (List.Perm.swap e x xs)

theorem sortByKey_perm (d : List (PyStr × List PyStr)) :
    List.Perm (sortByKey d) d := by
  induction d with
  | nil => exact List.Perm.refl _
  | cons e rest ih =>
    exact (insortEntry_perm e (sortByKey rest)).trans (ih.cons e)

theorem pairwise_insortEntry {e : PyStr × List PyStr} {l : List (PyStr × List PyStr)}
    (h : l.Pairwise (fun a b => strLtB b.1 a.1 = false)) :
    (insortEntry e l).Pairwise (fun a b => strLtB b.1 a.1 = false) := by
  induction l with
  | nil => simp [insortEntry]
  | cons x xs ih =>
    simp only [insortEntry]
    rcases List.pairwise_cons.mp h with ⟨hx, hxs⟩
    by_cases hlt : strLtB e.1 x.1 = true
    · rw [if_pos hlt]
      refine List.pairwise_cons.mpr ⟨?_, h⟩
      intro b hb
      rcases List.mem_cons.mp hb with rfl | hb2
      · exact strLtB_asymm hlt
      · have hbe : strLtB b.1 e.1 = true ∨ strLtB b.1 e.1 = false := by
          cases strLtB b.1 e.1 <;> simp
        rcases hbe with hbe | hbe
        · exact absurd (strLtB_trans hbe hlt) (by simp [hx b hb2])
        · exact hbe
    · rw [if_neg hlt]
      refine List.pairwise_cons.mpr ⟨?_, ih hxs⟩
      intro b hb
      have hb2 := (insortEntry_perm e xs).mem_iff.mp hb
      rcases List.mem_cons.mp hb2 with rfl | hb3
      · simpa using hlt
      · exact hx b hb3

theorem pairwise_sortByKey (d : List (PyStr × List PyStr)) :
    (sortByKey d).Pairwise (fun a b => strLtB b.1 a.1 = false) := by
  induction d with
  | nil => simp [sortByKey]
  | cons e rest ih => exact pairwise_insortEntry ih

theorem sortByKey_of_sorted {d : List (PyStr × List PyStr)}
    (h : d.Pairwise (fun a b => strLtB a.1 b.1 = true)) : sortByKey d = d := by
  induction d with
  | nil => rfl
  | cons e rest ih =>
    rcases List.pairwise_cons.mp h with ⟨he, hrest⟩
    show insortEntry e (sortByKey rest) = e :: rest
    rw [ih hrest]
    cases rest with
    | nil => rfl
    | cons x xs =>
      simp only [insortEntry]
      rw [if_pos (he x (List.mem_cons_self x xs))]

/-! ### Helper lemmas: re-emitting the sorted pairs -/

theorem emitPairs_cons (e : PyStr × List PyStr) (rest : List (PyStr × List PyStr)) :
    emitPairs (e :: rest) = e.2.map (fun v => (e.1, v)) ++ emitPairs rest := rfl

theorem fst_mem_dictKeys_of_mem_emitPairs {kv : PyStr × PyStr}
    {d : List (PyStr × List PyStr)} (h : kv ∈ emitPairs d) : kv.1 ∈ dictKeys d := by
  induction d with
  | nil => simp [emitPairs] at h
  | cons e rest ih =>
    rw [emitPairs_cons] at h
    rcases List.mem_append.mp h with h | h
    · rcases List.mem_map.mp h with ⟨v, hv, hkv⟩
      subst hkv
      simp [dictKeys]
    · simp only [dictKeys, List.map_cons, List.mem_cons]
      right
      exact ih h

theorem emitPairs_filter_of_not_mem {d : List (PyStr × List PyStr)} {k : PyStr}
    (h : k ∉ dictKeys d) :
    (emitPairs d).filter (fun kv => decide (kv.1 = k)) = [] := by
  apply List.filter_eq_nil.mpr
  intro kv hkv
  simp only [decide_eq_true_eq]
  intro hek
  exact h (hek ▸ fst_mem_dictKeys_of_mem_emitPairs hkv)

theorem filter_key_of_not_mem {d : List (PyStr × List PyStr)} {k : PyStr}
    (h : k ∉ dictKeys d) : d.filter (fun e => decide (e.1 = k)) = [] := by
  apply List.filter_eq_nil.mpr
  intro e he
  simp only [decide_eq_true_eq]
  intro hek
  exact h (List.mem_map.mpr ⟨e, he, hek⟩)

theorem emitPairs_filter_key {d : List (PyStr × List PyStr)} {k : PyStr}
    (hnd : (dictKeys d).Nodup) :
    ((emitPairs d).filter (fun kv => decide (kv.1 = k))).map Prod.snd = dictGet d k := by
  induction d with
  | nil => simp [emitPairs, dictGet]
  | cons e rest ih =>
    simp only [dictKeys, List.map_cons, List.nodup_cons] at hnd
    have hblock : (e.2.map (fun v => (e.1, v))).filter (fun kv => decide (kv.1 = k)) =
        if e.1 = k then e.2.map (fun v => (e.1, v)) else [] := by
      by_cases hek : e.1 = k
      · rw [if_pos hek]
        apply List.filter_eq_self.mpr
        intro kv hkv
        rcases List.mem_map.mp hkv with ⟨v, hv, rfl⟩
        simpa using hek
      · rw [if_neg hek]
        apply List.filter_eq_nil.mpr
        intro kv hkv
        rcases List.mem_map.mp hkv with ⟨v, hv, rfl⟩
        simpa using hek
    rw [emitPairs_cons, List.filter_append, hblock]
    by_cases hek : e.1 = k
    · rw [if_pos hek]
      rw [emitPairs_filter_of_not_mem (by rw [← hek]; exact hnd.1)]
      simp only [dictGet]
      rw [if_pos hek]
      simp [List.map_map, Function.comp]
    · rw [if_neg hek]
      simp only [dictGet]
      rw [if_neg hek]
      simpa using ih hnd.2

theorem pairwise_emitPairs {d : List (PyStr × List PyStr)}
    (h : d.Pairwise (fun a b => strLtB b.1 a.1 = false)) :
    (emitPairs d).Pairwise (fun a b : PyStr × PyStr => strLtB b.1 a.1 = false) := by
  induction d with
  | nil => simp [emitPairs]
  | cons e rest ih =>
    rcases List.pairwise_cons.mp h with ⟨he, hrest⟩
    rw [emitPairs_cons]
    apply List.pairwise_append.mpr
    refine ⟨?_, ih hrest, ?_⟩
    · clear he
      induction e.2 with
      | nil => simp
      | cons v vs ihv =>
        simp only [List.map_cons]
        refine List.pairwise_cons.mpr ⟨?_, ihv⟩
        intro b hb
        rcases List.mem_map.mp hb with ⟨w, hw, rfl⟩
        simpa using strLtB_irrefl e.1
    · intro a ha b hb
      rcases List.mem_map.mp ha with ⟨v, hv, rfl⟩
      have hb1 := fst_mem_dictKeys_of_mem_emitPairs hb
      rcases List.mem_map.mp hb1 with ⟨x, hx, hbx⟩
      show strLtB b.1 e.1 = false
      rw [← hbx]
      exact he x hx

theorem dictGet_eq_filter_head (d : List (PyStr × List PyStr)) (k : PyStr) :
    dictGet d k =
      (((d.filter (fun e => decide (e.1 = k))).head?).map Prod.snd).getD [] := by
  induction d with
  | nil => simp [dictGet]
  | cons e rest ih =>
    simp only [List.filter_cons]
    by_cases hek : e.1 = k
    · rw [if_pos (by simpa using hek)]
      simp [dictGet, hek]
    · rw [if_neg (by simpa using hek)]
      simp only [dictGet]
      rw [if_neg hek]
      exact ih

theorem filter_key_length_le_one {d : List (PyStr × List PyStr)} {k : PyStr}
    (hnd : (dictKeys d).Nodup) :
    (d.filter (fun e => decide (e.1 = k))).length ≤ 1 := by
  induction d with
  | nil => simp
  | cons e rest ih =>
    simp only [dictKeys, List.map_cons, List.nodup_cons] at hnd
    simp only [List.filter_cons]
    by_cases hek : e.1 = k
    · rw [if_pos (by simpa using hek)]
      rw [filter_key_of_not_mem (by rw [← hek]; exact hnd.1)]
      simp
    · rw [if_neg (by simpa using hek)]
      exact ih hnd.2

theorem dictGet_perm {d d2 : List (PyStr × List PyStr)} (hp : List.Perm d d2)
    (hnd : (dictKeys d).Nodup) (k : PyStr) : dictGet d k = dictGet d2 k := by
  have hflt : d.filter (fun e => decide (e.1 = k)) =
      d2.filter (fun e => decide (e.1 = k)) := by
    have hpf := hp.filter (fun e => decide (e.1 = k))
    have hlen := @filter_key_length_le_one d k hnd
    rcases hq : d.filter (fun e => decide (e.1 = k)) with _ | ⟨x, xs⟩
    · rw [hq]
      rw [hq] at hpf
      exact (List.Perm.eq_nil hpf.symm).symm
    · rw [hq]
      rw [hq] at hpf hlen
      rcases xs with _ | ⟨y, ys⟩
      · exact (List.perm_singleton.mp hpf.symm).symm
      · simp at hlen
  rw [dictGet_eq_filter_head, dictGet_eq_filter_head, hflt]

/-! ### Helper lemmas: regrouping emitted pairs recovers the dict -/

theorem addValue_not_mem {d : List (PyStr × List PyStr)} {a : PyStr} (v : PyStr)
    (h : a ∉ dictKeys d) : dictAddValue d a v = d ++ [(a, [v])] := by
  induction d with
  | nil => rfl
  | cons e rest ih =>
    simp only [dictKeys, List.map_cons, List.mem_cons] at h
    push_neg at h
    simp only [dictAddValue, List.cons_append]
    rw [if_neg (fun he => h.1 he.symm), ih h.2]

theorem addValue_last {d : List (PyStr × List PyStr)} {a : PyStr} (ws : List PyStr)
    (v : PyStr) (h : a ∉ dictKeys d) :
    dictAddValue (d ++ [(a, ws)]) a v = d ++ [(a, ws ++ [v])] := by
  induction d with
  | nil => simp [dictAddValue]
  | cons e rest ih =>
    simp only [dictKeys, List.map_cons, List.mem_cons] at h
    push_neg at h
    simp only [List.cons_append, dictAddValue, List.append_eq]
    rw [if_neg (fun he => h.1 he.symm), ih h.2]

theorem blockFold (a : PyStr) (vs : List PyStr) :
    ∀ (ws : List PyStr) (d0 : List (PyStr × List PyStr)), a ∉ dictKeys d0 →
      (vs.map (fun v => (a, v))).foldl (fun d kv => dictAddValue d kv.1 kv.2)
        (d0 ++ [(a, ws)]) = d0 ++ [(a, ws ++ vs)] := by
  induction vs with
  | nil =>
    intro ws d0 h
    simp
  | cons v vs ih =>
    intro ws d0 h
    simp only [List.map_cons, List.foldl_cons]
    try dsimp only
    rw [addValue_last ws v h]
    have h2 := ih (ws ++ [v]) d0 h
    simpa [List.append_assoc] using h2

theorem regroupAux (d : List (PyStr × List PyStr)) :
    ∀ d0, (dictKeys d0 ++ dictKeys d).Nodup → (∀ e ∈ d, e.2 ≠ []) →
      (emitPairs d).foldl (fun dd kv => dictAddValue dd kv.1 kv.2) d0 = d0 ++ d := by
  induction d with
  | nil =>
    intro d0 _ _
    simp [emitPairs]
  | cons e rest ih =>
    intro d0 hnd hvals
    obtain ⟨k, vs⟩ := e
    simp only [dictKeys, List.map_cons] at hnd
    rw [emitPairs_cons, List.foldl_append]
    try dsimp only
    rcases vs with _ | ⟨v, vs2⟩
    · exact absurd rfl (hvals (k, []) (List.mem_cons_self _ _))
    · have hk0 : k ∉ dictKeys d0 := by
        intro hmem
        rcases List.nodup_append.mp hnd with ⟨_, _, hdisj⟩
        exact hdisj hmem (List.mem_cons_self k _)
      simp only [List.map_cons, List.foldl_cons]
      try dsimp only
      rw [addValue_not_mem v hk0, blockFold k vs2 [v] d0 hk0]
      have hnd2 : (dictKeys (d0 ++ [(k, [v] ++ vs2)]) ++ dictKeys rest).Nodup := by
        simp only [dictKeys, List.map_append, List.map_cons, List.map_nil]
        simpa [List.append_assoc] using hnd
      have hih := ih (d0 ++ [(k, [v] ++ vs2)]) hnd2
        (fun e he => hvals e (List.mem_cons_of_mem _ he))
      rw [hih]
      simp

theorem regroup {d : List (PyStr × List PyStr)} (hnd : (dictKeys d).Nodup)
    (hvals : ∀ e ∈ d, e.2 ≠ []) :
    (emitPairs d).foldl (fun dd kv => dictAddValue dd kv.1 kv.2) [] = d := by
  have h := regroupAux d [] (by simpa [dictKeys] using hnd) hvals
  simpa using h

/-! ### Helper lemmas: percent escapes round-trip -/

theorem hexDigitUpper_isHexDigit {n : Nat} (h : n < 16) :
    isHexDigit (hexDigitUpper n) = true := by
  interval_cases n <;> decide

theorem hexVal_hexDigitUpper {n : Nat} (h : n < 16) : hexVal (hexDigitUpper n) = n := by
  interval_cases n <;> decide

theorem unquoteUnits_percent (b : Nat) (hb : b < 256) (rest : PyStr) :
    unquoteUnits (percentEncodeByte b ++ rest) = b :: unquoteUnits rest := by
  have h1 : b / 16 < 16 := by omega
  have h2 : b % 16 < 16 := by omega
  simp only [percentEncodeByte, List.cons_append, List.nil_append]
  rw [unquoteUnits]
  rw [if_pos (by simp [hexDigitUpper_isHexDigit h1, hexDigitUpper_isHexDigit h2])]
  rw [hexVal_hexDigitUpper h1, hexVal_hexDigitUpper h2]
  have h3 : 16 * (b / 16) + b % 16 = b := by omega
  rw [h3]

theorem unquoteUnits_cons_ne (c : Nat) (hne : c ≠ 37) (rest : PyStr) :
    unquoteUnits (c :: rest) =
      (if c < 0x80 then c else 0x100 + c) :: unquoteUnits rest := by
  rw [unquoteUnits.eq_def]
  split
  · simp_all
  · rename_i a b r heq
    rw [List.cons.injEq] at heq
    exact absurd heq.1 hne
  · rename_i c2 r heq
    rw [List.cons.injEq] at heq
    rw [heq.1, heq.2]

theorem utf8Step_fresh (out : PyStr) (c : Nat) :
    utf8Step (out, []) c = (out ++ (processFresh c).1, (processFresh c).2) := by
  simp [utf8Step, utf8ValidNext, flushPending]

theorem processFresh_ascii (c : Nat) (hc : c < 0x80) : processFresh c = ([c], []) := by
  simp only [processFresh]
  rw [if_neg (by omega), if_pos hc]

theorem utf8Step_leader (out : PyStr) (b : Nat) (h1 : b < 0x100)
    (h2 : ¬ b < 0x80) (h3 : isUtf8Leader b = true) :
    utf8Step (out, []) b = (out, [b]) := by
  rw [utf8Step_fresh]
  rw [show processFresh b = ([], [b]) from by
    simp only [processFresh]
    rw [if_neg (by omega), if_neg h2, if_pos h3]]
  simp

theorem utf8Step_cont (out : PyStr) (st : List Nat) (b : Nat)
    (hvn : utf8ValidNext st b = true)
    (hlen : (st ++ [b]).length = utf8NeedLen (st.headD 0)) :
    utf8Step (out, st) b = (out ++ [utf8Scalar (st ++ [b])], []) := by
  simp only [utf8Step]
  rw [if_pos hvn, if_pos hlen]

theorem utf8Step_mid (out : PyStr) (st : List Nat) (b : Nat)
    (hvn : utf8ValidNext st b = true)
    (hlen : ¬ (st ++ [b]).length = utf8NeedLen (st.headD 0)) :
    utf8Step (out, st) b = (out, st ++ [b]) := by
  simp only [utf8Step]
  rw [if_pos hvn, if_neg hlen]

theorem foldl_utf8Step_encodeChar {c : Nat} (h : isValidScalar c = true) (out : PyStr) :
    (utf8EncodeChar c).foldl utf8Step (out, []) = (out ++ [c], []) := by
  simp only [isValidScalar, Bool.and_eq_true, Bool.not_eq_true', Bool.and_eq_false_iff,
    decide_eq_true_eq, decide_eq_false_iff_not] at h
  by_cases h1 : c < 0x80
  · have e1 : utf8EncodeChar c = [c] := by
      simp only [utf8EncodeChar]
      rw [if_pos h1]
    rw [e1]
    simp only [List.foldl_cons, List.foldl_nil]
    rw [utf8Step_fresh, processFresh_ascii c h1]
  · by_cases h2 : c < 0x800
    · have e1 : utf8EncodeChar c = [0xC0 + c / 0x40, 0x80 + c % 0x40] := by
        simp only [utf8EncodeChar]
        rw [if_neg h1, if_pos h2]
      have hvn : utf8ValidNext [0xC0 + c / 0x40] (0x80 + c % 0x40) = true := by
        simp only [utf8ValidNext, List.isEmpty_nil, if_true]
        split_ifs <;> (simp only [Bool.and_eq_true, decide_eq_true_eq]; omega)
      rw [e1]
      simp only [List.foldl_cons, List.foldl_nil]
      rw [utf8Step_leader out _ (by omega) (by omega)
          (by simp only [isUtf8Leader, Bool.and_eq_true, decide_eq_true_eq]; omega)]
      rw [utf8Step_cont out _ _ hvn
          (by simp only [List.cons_append, List.nil_append, List.length_cons,
                List.length_nil, List.headD]
              simp only [utf8NeedLen]
              rw [if_pos (by omega)])]
      have hs : utf8Scalar ([0xC0 + c / 0x40] ++ [0x80 + c % 0x40]) = c := by
        simp only [List.cons_append, List.nil_append, utf8Scalar]
        omega
      rw [hs]
    · by_cases h3 : c < 0x10000
      · have e1 : utf8EncodeChar c =
            [0xE0 + c / 0x1000, 0x80 + (c / 0x40) % 0x40, 0x80 + c % 0x40] := by
          simp only [utf8EncodeChar]
          rw [if_neg h1, if_neg h2, if_pos h3]
        have hvn1 : utf8ValidNext [0xE0 + c / 0x1000]
            (0x80 + (c / 0x40) % 0x40) = true := by
          simp only [utf8ValidNext, List.isEmpty_nil, if_true]
          split_ifs <;> (simp only [Bool.and_eq_true, decide_eq_true_eq]; omega)
        have hvn2 : utf8ValidNext [0xE0 + c / 0x1000, 0x80 + (c / 0x40) % 0x40]
            (0x80 + c % 0x40) = true := by
          simp only [utf8ValidNext, List.isEmpty_cons]
          rw [if_neg (by simp)]
          simp only [Bool.and_eq_true, decide_eq_true_eq]
          omega
        rw [e1]
        simp only [List.foldl_cons, List.foldl_nil]
        rw [utf8Step_leader out _ (by omega) (by omega)
            (by simp only [isUtf8Leader, Bool.and_eq_true, decide_eq_true_eq]; omega)]
        rw [utf8Step_mid out _ _ hvn1
            (by simp only [List.cons_append, List.nil_append, List.length_cons,
                  List.length_nil, List.headD]
                simp only [utf8NeedLen]
                rw [if_neg (by omega), if_pos (by omega)]
                omega)]
        rw [show [0xE0 + c / 0x1000] ++ [0x80 + (c / 0x40) % 0x40] =
            [0xE0 + c / 0x1000, 0x80 + (c / 0x40) % 0x40] from rfl]
        rw [utf8Step_cont out _ _ hvn2
            (by simp only [List.cons_append, List.nil_append, List.length_cons,
                  List.length_nil, List.headD]
                simp only [utf8NeedLen]
                rw [if_neg (by omega), if_pos (by omega)])]
        have hs : utf8Scalar ([0xE0 + c / 0x1000, 0x80 + (c / 0x40) % 0x40] ++
            [0x80 + c % 0x40]) = c := by
          simp only [List.cons_append, List.nil_append, utf8Scalar]
          omega
        rw [hs]
      · have h4 : c < 0x110000 := h.1
        have e1 : utf8EncodeChar c =
            [0xF0 + c / 0x40000, 0x80 + (c / 0x1000) % 0x40,
             0x80 + (c / 0x40) % 0x40, 0x80 + c % 0x40] := by
          simp only [utf8EncodeChar]
          rw [if_neg h1, if_neg h2, if_neg h3]
        have hvn1 : utf8ValidNext [0xF0 + c / 0x40000]
            (0x80 + (c / 0x1000) % 0x40) = true := by
          simp only [utf8ValidNext, List.isEmpty_nil, if_true]
          split_ifs <;> (simp only [Bool.and_eq_true, decide_eq_true_eq]; omega)
        have hvn2 : utf8ValidNext [0xF0 + c / 0x40000, 0x80 + (c / 0x1000) % 0x40]
            (0x80 + (c / 0x40) % 0x40) = true := by
          simp only [utf8ValidNext, List.isEmpty_cons]
          rw [if_neg (by simp)]
          simp only [Bool.and_eq_true, decide_eq_true_eq]
          omega
        have hvn3 : utf8ValidNext [0xF0 + c / 0x40000, 0x80 + (c / 0x1000) % 0x40,
            0x80 + (c / 0x40) % 0x40] (0x80 + c % 0x40) = true := by
          simp only [utf8ValidNext, List.isEmpty_cons]
          rw [if_neg (by simp)]
          simp only [Bool.and_eq_true, decide_eq_true_eq]
          omega
        rw [e1]
        simp only [List.foldl_cons, List.foldl_nil]
        rw [utf8Step_leader out _ (by omega) (by omega)
            (by simp only [isUtf8Leader, Bool.and_eq_true, decide_eq_true_eq]; omega)]
        rw [utf8Step_mid out _ _ hvn1
            (by simp only [List.cons_append, List.nil_append, List.length_cons,
                  List.length_nil, List.headD]
                simp only [utf8NeedLen]
                rw [if_neg (by omega), if_neg (by omega)]
                omega)]
        rw [show [0xF0 + c / 0x40000] ++ [0x80 + (c / 0x1000) % 0x40] =
            [0xF0 + c / 0x40000, 0x80 + (c / 0x1000) % 0x40] from rfl]
        rw [utf8Step_mid out _ _ hvn2
            (by simp only [List.cons_append, List.nil_append, List.length_cons,
                  List.length_nil, List.headD]
                simp only [utf8NeedLen]
                rw [if_neg (by omega), if_neg (by omega)]
                omega)]
        rw [show [0xF0 + c / 0x40000, 0x80 + (c / 0x1000) % 0x40] ++
            [0x80 + (c / 0x40) % 0x40] =
            [0xF0 + c / 0x40000, 0x80 + (c / 0x1000) % 0x40,
             0x80 + (c / 0x40) % 0x40] from rfl]
        rw [utf8Step_cont out _ _ hvn3
            (by simp only [List.cons_append, List.nil_append, List.length_cons,
                  List.length_nil, List.headD]
                simp only [utf8NeedLen]
                rw [if_neg (by omega), if_neg (by omega)])]
        have hs : utf8Scalar ([0xF0 + c / 0x40000, 0x80 + (c / 0x1000) % 0x40,
            0x80 + (c / 0x40) % 0x40] ++ [0x80 + c % 0x40]) = c := by
          simp only [List.cons_append, List.nil_append, utf8Scalar]
          omega
        rw [hs]

theorem isAlwaysSafe_lt {c : Nat} (h : isAlwaysSafe c = true) : c < 0x80 := by
  simp only [isAlwaysSafe, isAsciiAlpha, isAsciiDigit, Bool.or_eq_true,
    Bool.and_eq_true, decide_eq_true_eq] at h
  omega

theorem utf8EncodeChar_bounds {c : Nat} (h : isValidScalar c = true) :
    ∀ b ∈ utf8EncodeChar c, b < 256 := by
  simp only [isValidScalar, Bool.and_eq_true, Bool.not_eq_true', Bool.and_eq_false_iff,
    decide_eq_true_eq, decide_eq_false_iff_not] at h
  intro b hb
  simp only [utf8EncodeChar] at hb
  split_ifs at hb with h1 h2 h3
  · simp only [List.mem_singleton] at hb
    omega
  · simp only [List.mem_cons, List.not_mem_nil, or_false] at hb
    rcases hb with rfl | rfl <;> omega
  · simp only [List.mem_cons, List.not_mem_nil, or_false] at hb
    rcases hb with rfl | rfl | rfl <;> omega
  · simp only [List.mem_cons, List.not_mem_nil, or_false] at hb
    rcases hb with rfl | rfl | rfl | rfl <;> omega

theorem plusToSpace_append (a b : PyStr) :
    plusToSpace (a ++ b) = plusToSpace a ++ plusToSpace b := List.map_append _ a b

theorem plusToSpace_percent (b : Nat) :
    plusToSpace (percentEncodeByte b) = percentEncodeByte b := by
  simp only [percentEncodeByte, plusToSpace, List.map_cons, List.map_nil]
  rw [if_neg (by omega), if_neg (by simp only [hexDigitUpper]; split_ifs <;> omega),
    if_neg (by simp only [hexDigitUpper]; split_ifs <;> omega)]

theorem unquoteUnits_percent_blocks {bs : List Nat} (hb : ∀ b ∈ bs, b < 256)
    (x : PyStr) :
    unquoteUnits (plusToSpace ((bs.map percentEncodeByte).flatten) ++ x) =
      bs ++ unquoteUnits x := by
  induction bs with
  | nil => simp [plusToSpace]
  | cons b rest ih =>
    simp only [List.map_cons, List.flatten_cons]
    rw [plusToSpace_append, List.append_assoc, plusToSpace_percent,
      unquoteUnits_percent b (hb b (List.mem_cons_self b rest)),
      ih (fun y hy => hb y (List.mem_cons_of_mem b hy))]
    simp

theorem pyQuotePlus_cons_eq (c : Nat) (cs : PyStr) :
    pyQuotePlus (c :: cs) =
      match quotePlusChar c, pyQuotePlus cs with
      | some e, some rest => some (e ++ rest)
      | _, _ => none := rfl

theorem quotePlusChar_valid {c : Nat} {e : List Nat}
    (hq : quotePlusChar c = some e) : isValidScalar c = true := by
  simp only [quotePlusChar] at hq
  by_cases h1 : isAlwaysSafe c = true
  · have hlt := isAlwaysSafe_lt h1
    simp only [isValidScalar, Bool.and_eq_true, Bool.not_eq_true',
      Bool.and_eq_false_iff, decide_eq_true_eq, decide_eq_false_iff_not]
    constructor
    · omega
    · left
      omega
  · rw [if_neg h1] at hq
    by_cases h2 : c = 32
    · subst h2
      decide
    · rw [if_neg h2] at hq
      by_cases h3 : isValidScalar c = true
      · exact h3
      · rw [if_neg h3] at hq
        exact absurd hq (by simp)

theorem unquoteUnits_plusToSpace_chunk {c : Nat} {e : List Nat}
    (hq : quotePlusChar c = some e) (x : PyStr) :
    unquoteUnits (plusToSpace e ++ x) = utf8EncodeChar c ++ unquoteUnits x := by
  simp only [quotePlusChar] at hq
  by_cases h1 : isAlwaysSafe c = true
  · rw [if_pos h1] at hq
    have he : e = [c] := by injection hq with h2; exact h2.symm
    subst he
    have hlt := isAlwaysSafe_lt h1
    have hne43 : c ≠ 43 := fun hx => by subst hx; exact absurd h1 (by decide)
    have hne37 : c ≠ 37 := fun hx => by subst hx; exact absurd h1 (by decide)
    simp only [plusToSpace, List.map_cons, List.map_nil]
    rw [if_neg hne43]
    simp only [List.cons_append, List.nil_append]
    rw [unquoteUnits_cons_ne c hne37, if_pos hlt]
    rw [show utf8EncodeChar c = [c] from by simp only [utf8EncodeChar]; rw [if_pos hlt]]
    rfl
  · rw [if_neg h1] at hq
    by_cases h2 : c = 32
    · rw [if_pos h2] at hq
      subst h2
      have he : e = [43] := by injection hq with h3; exact h3.symm
      subst he
      simp only [plusToSpace, List.map_cons, List.map_nil]
      rw [if_pos trivial]
      simp only [List.cons_append, List.nil_append]
      rw [unquoteUnits_cons_ne 32 (by omega), if_pos (by omega)]
      rw [show utf8EncodeChar 32 = [32] from by decide]
      rfl
    · rw [if_neg h2] at hq
      by_cases h3 : isValidScalar c = true
      · rw [if_pos h3] at hq
        have he : e = ((utf8EncodeChar c).map percentEncodeByte).flatten := by
          injection hq with h4
          exact h4.symm
        subst he
        exact unquoteUnits_percent_blocks (utf8EncodeChar_bounds h3) x
      · rw [if_neg h3] at hq
        exact absurd hq (by simp)

theorem quotePlusChar_alphabet {c : Nat} {e : List Nat}
    (hq : quotePlusChar c = some e) :
    ∀ y ∈ e, isAlwaysSafe y = true ∨ y = 43 ∨ y = 37 ∨ isHexDigit y = true := by
  simp only [quotePlusChar] at hq
  by_cases h1 : isAlwaysSafe c = true
  · rw [if_pos h1] at hq
    have he : e = [c] := by injection hq with h2; exact h2.symm
    subst he
    intro y hy
    simp only [List.mem_singleton] at hy
    subst hy
    exact Or.inl h1
  · rw [if_neg h1] at hq
    by_cases h2 : c = 32
    · rw [if_pos h2] at hq
      have he : e = [43] := by injection hq with h3; exact h3.symm
      subst he
      intro y hy
      simp only [List.mem_singleton] at hy
      subst hy
      exact Or.inr (Or.inl rfl)
    · rw [if_neg h2] at hq
      by_cases h3 : isValidScalar c = true
      · rw [if_pos h3] at hq
        have he : e = ((utf8EncodeChar c).map percentEncodeByte).flatten := by
          injection hq with h4
          exact h4.symm
        subst he
        intro y hy
        rcases List.mem_flatten.mp hy with ⟨blk, hblk, hyblk⟩
        rcases List.mem_map.mp hblk with ⟨b, hb, rfl⟩
        have hb256 := utf8EncodeChar_bounds h3 b hb
        simp only [percentEncodeByte, List.mem_cons, List.not_mem_nil, or_false]
          at hyblk
        rcases hyblk with rfl | rfl | rfl
        · exact Or.inr (Or.inr (Or.inl rfl))
        · exact Or.inr (Or.inr (Or.inr (hexDigitUpper_isHexDigit (by omega))))
        · exact Or.inr (Or.inr (Or.inr (hexDigitUpper_isHexDigit (by omega))))
      · rw [if_neg h3] at hq
        exact absurd hq (by simp)

theorem pyQuotePlus_alphabet {s enc : PyStr} (h : pyQuotePlus s = some enc) :
    ∀ y ∈ enc, isAlwaysSafe y = true ∨ y = 43 ∨ y = 37 ∨ isHexDigit y = true := by
  induction s generalizing enc with
  | nil =>
    simp only [pyQuotePlus, List.foldr_nil, Option.some.injEq] at h
    subst h
    simp
  | cons c cs ih =>
    rw [pyQuotePlus_cons_eq] at h
    rcases hq : quotePlusChar c with _ | e <;> rw [hq] at h
    · have h2 : (none : Option PyStr) = some enc := h
      simp at h2
    · rcases hr : pyQuotePlus cs with _ | rest <;> rw [hr] at h
      · have h2 : (none : Option PyStr) = some enc := h
        simp at h2
      · have h2 : some (e ++ rest) = some enc := h
        injection h2 with h3
        subst h3
        intro y hy
        rcases List.mem_append.mp hy with hy | hy
        · exact quotePlusChar_alphabet hq y hy
        · exact ih hr y hy

theorem quotePlus_valid_chars {s enc : PyStr} (h : pyQuotePlus s = some enc) :
    ∀ c ∈ s, isValidScalar c = true := by
  induction s generalizing enc with
  | nil => simp
  | cons c cs ih =>
    rw [pyQuotePlus_cons_eq] at h
    rcases hq : quotePlusChar c with _ | e <;> rw [hq] at h
    · have h2 : (none : Option PyStr) = some enc := h
      simp at h2
    · rcases hr : pyQuotePlus cs with _ | rest <;> rw [hr] at h
      · have h2 : (none : Option PyStr) = some enc := h
        simp at h2
      · intro y hy
        rcases List.mem_cons.mp hy with rfl | hy2
        · exact quotePlusChar_valid hq
        · exact ih hr y hy2

theorem unquote_plusToSpace_quotePlus {s enc : PyStr}
    (h : pyQuotePlus s = some enc) (x : PyStr) :
    unquoteUnits (plusToSpace enc ++ x) = utf8Encode s ++ unquoteUnits x := by
  induction s generalizing enc with
  | nil =>
    simp only [pyQuotePlus, List.foldr_nil, Option.some.injEq] at h
    subst h
    simp [plusToSpace, utf8Encode]
  | cons c cs ih =>
    rw [pyQuotePlus_cons_eq] at h
    rcases hq : quotePlusChar c with _ | e <;> rw [hq] at h
    · have h2 : (none : Option PyStr) = some enc := h
      simp at h2
    · rcases hr : pyQuotePlus cs with _ | rest <;> rw [hr] at h
      · have h2 : (none : Option PyStr) = some enc := h
        simp at h2
      · have h2 : some (e ++ rest) = some enc := h
        injection h2 with h3
        subst h3
        rw [plusToSpace_append, List.append_assoc]
        rw [unquoteUnits_plusToSpace_chunk hq, ih hr]
        rw [show utf8Encode (c :: cs) = utf8EncodeChar c ++ utf8Encode cs from by
          simp [utf8Encode]]
        rw [List.append_assoc]

theorem foldl_utf8Step_encode {s : PyStr} (hv : ∀ c ∈ s, isValidScalar c = true) :
    ∀ out : PyStr, (utf8Encode s).foldl utf8Step (out, []) = (out ++ s, []) := by
  induction s with
  | nil =>
    intro out
    simp [utf8Encode]
  | cons c cs ih =>
    intro out
    rw [show utf8Encode (c :: cs) = utf8EncodeChar c ++ utf8Encode cs from by
      simp [utf8Encode]]
    rw [List.foldl_append]
    rw [foldl_utf8Step_encodeChar (hv c (List.mem_cons_self c cs)) out]
    rw [ih (fun y hy => hv y (List.mem_cons_of_mem c hy)) (out ++ [c])]
    simp

theorem pyUnquote_plusToSpace {s enc : PyStr} (h : pyQuotePlus s = some enc) :
    pyUnquote (plusToSpace enc) = s := by
  have hu := unquote_plusToSpace_quotePlus h []
  rw [show unquoteUnits [] = [] from rfl, List.append_nil, List.append_nil] at hu
  rw [pyUnquote, hu, utf8DecodeBytes]
  rw [foldl_utf8Step_encode (quotePlus_valid_chars h) []]
  simp [flushPending]

/-! ### Helper lemmas: splitting on separators -/

theorem splitAtFirst_not_mem {sep : Nat} {s : PyStr} (h : sep ∉ s) :
    splitAtFirst sep s = (s, none) := by
  induction s with
  | nil => rfl
  | cons a rest ih =>
    simp only [List.mem_cons] at h
    push_neg at h
    simp only [splitAtFirst]
    rw [if_neg (fun ha => h.1 ha.symm), ih h.2]

theorem splitAtFirst_append {sep : Nat} {a : PyStr} (b : PyStr) (h : sep ∉ a) :
    splitAtFirst sep (a ++ sep :: b) = (a, some b) := by
  induction a with
  | nil =>
    simp only [List.nil_append, splitAtFirst]
    rw [if_pos trivial]
  | cons x rest ih =>
    simp only [List.mem_cons] at h
    push_neg at h
    simp only [List.cons_append, splitAtFirst, List.append_eq]
    rw [if_neg (fun hx => h.1 hx.symm), ih h.2]

theorem pySplit_not_mem {sep : Nat} {s : PyStr} (h : sep ∉ s) :
    pySplit sep s = [s] := by
  induction s with
  | nil => rfl
  | cons a rest ih =>
    simp only [List.mem_cons] at h
    push_neg at h
    simp only [pySplit]
    rw [if_neg (fun ha => h.1 ha.symm), ih h.2]

theorem pySplit_append {sep : Nat} {a : PyStr} (b : PyStr) (h : sep ∉ a) :
    pySplit sep (a ++ sep :: b) = a :: pySplit sep b := by
  induction a with
  | nil =>
    simp only [List.nil_append, pySplit]
    rw [if_pos trivial]
  | cons x rest ih =>
    simp only [List.mem_cons] at h
    push_neg at h
    simp only [List.cons_append, pySplit, List.append_eq]
    rw [if_neg (fun hx => h.1 hx.symm), ih h.2]

/-! ### Helper lemmas: `parse_qsl` inverts `urlencode` -/

theorem encChar_ne {y : Nat}
    (h : isAlwaysSafe y = true ∨ y = 43 ∨ y = 37 ∨ isHexDigit y = true) :
    y ≠ 38 ∧ y ≠ 61 ∧ y ≠ 35 ∧ y ≠ 63 ∧ y ≠ 47 ∧ y ≠ 9 ∧ y ≠ 13 ∧ y ≠ 10 ∧
      isPySpace y = false := by
  have hsp : ∀ z : Nat, (48 ≤ z ∧ z ≤ 57) ∨ (65 ≤ z ∧ z ≤ 90) ∨ (97 ≤ z ∧ z ≤ 122) ∨
      z = 95 ∨ z = 46 ∨ z = 45 ∨ z = 126 ∨ z = 43 ∨ z = 37 →
      isPySpace z = false := by
    intro z hz
    rw [Bool.eq_false_iff]
    intro hzsp
    simp only [isPySpace, Bool.or_eq_true, Bool.and_eq_true, decide_eq_true_eq] at hzsp
    omega
  rcases h with h | rfl | rfl | h
  · simp only [isAlwaysSafe, isAsciiAlpha, isAsciiDigit, Bool.or_eq_true,
      Bool.and_eq_true, decide_eq_true_eq] at h
    refine ⟨by omega, by omega, by omega, by omega, by omega, by omega, by omega,
      by omega, hsp y (by omega)⟩
  · exact ⟨by omega, by omega, by omega, by omega, by omega, by omega, by omega,
      by omega, by decide⟩
  · exact ⟨by omega, by omega, by omega, by omega, by omega, by omega, by omega,
      by omega, by decide⟩
  · simp only [isHexDigit, isAsciiDigit, Bool.or_eq_true, Bool.and_eq_true,
      decide_eq_true_eq] at h
    refine ⟨by omega, by omega, by omega, by omega, by omega, by omega, by omega,
      by omega, hsp y (by omega)⟩

theorem encChar_facts {y : Nat} (h : encChar y = true) :
    y ≠ 35 ∧ y ≠ 63 ∧ y ≠ 47 ∧ y ≠ 9 ∧ y ≠ 13 ∧ y ≠ 10 ∧ isPySpace y = false := by
  simp only [encChar, Bool.or_eq_true, decide_eq_true_eq] at h
  rcases h with ((((h | h) | h) | h) | rfl) | rfl
  · have h2 := encChar_ne (Or.inl h)
    exact ⟨h2.2.2.1, h2.2.2.2.1, h2.2.2.2.2.1, h2.2.2.2.2.2.1, h2.2.2.2.2.2.2.1,
      h2.2.2.2.2.2.2.2.1, h2.2.2.2.2.2.2.2.2⟩
  · have h2 := encChar_ne (Or.inr (Or.inl h))
    exact ⟨h2.2.2.1, h2.2.2.2.1, h2.2.2.2.2.1, h2.2.2.2.2.2.1, h2.2.2.2.2.2.2.1,
      h2.2.2.2.2.2.2.2.1, h2.2.2.2.2.2.2.2.2⟩
  · have h2 := encChar_ne (Or.inr (Or.inr (Or.inl h)))
    exact ⟨h2.2.2.1, h2.2.2.2.1, h2.2.2.2.2.1, h2.2.2.2.2.2.1, h2.2.2.2.2.2.2.1,
      h2.2.2.2.2.2.2.2.1, h2.2.2.2.2.2.2.2.2⟩
  · have h2 := encChar_ne (Or.inr (Or.inr (Or.inr h)))
    exact ⟨h2.2.2.1, h2.2.2.2.1, h2.2.2.2.2.1, h2.2.2.2.2.2.1, h2.2.2.2.2.2.2.1,
      h2.2.2.2.2.2.2.2.1, h2.2.2.2.2.2.2.2.2⟩
  · exact ⟨by omega, by omega, by omega, by omega, by omega, by omega, by decide⟩
  · exact ⟨by omega, by omega, by omega, by omega, by omega, by omega, by decide⟩

theorem encChar_of_alpha {y : Nat}
    (h : isAlwaysSafe y = true ∨ y = 43 ∨ y = 37 ∨ isHexDigit y = true) :
    encChar y = true := by
  simp only [encChar, Bool.or_eq_true, decide_eq_true_eq]
  rcases h with h | h | h | h
  · exact Or.inl (Or.inl (Or.inl (Or.inl (Or.inl h))))
  · exact Or.inl (Or.inl (Or.inl (Or.inl (Or.inr h))))
  · exact Or.inl (Or.inl (Or.inl (Or.inr h)))
  · exact Or.inl (Or.inl (Or.inr h))

theorem encodePair_eq {kv : PyStr × PyStr} {e : PyStr} (h : encodePair kv = some e) :
    ∃ k v, pyQuotePlus kv.1 = some k ∧ pyQuotePlus kv.2 = some v ∧
      e = k ++ [61] ++ v := by
  simp only [encodePair] at h
  rcases hk : pyQuotePlus kv.1 with _ | k <;> rw [hk] at h
  · have h2 : (none : Option PyStr) = some e := h
    simp at h2
  · rcases hv : pyQuotePlus kv.2 with _ | v <;> rw [hv] at h
    · have h2 : (none : Option PyStr) = some e := h
      simp at h2
    · have h2 : some (k ++ [61] ++ v) = some e := h
      injection h2 with h3
      exact ⟨k, v, rfl, rfl, h3.symm⟩

theorem qslField_encodePair {kv : PyStr × PyStr} {e : PyStr}
    (h : encodePair kv = some e) :
    qslField e = some kv ∧ 38 ∉ e ∧ (∀ y ∈ e, encChar y = true) := by
  obtain ⟨k, v, hk, hv, rfl⟩ := encodePair_eq h
  have halphak := pyQuotePlus_alphabet hk
  have halphav := pyQuotePlus_alphabet hv
  have hno61k : 61 ∉ k := fun hmem => (encChar_ne (halphak 61 hmem)).2.1 rfl
  have hne : k ++ [61] ++ v ≠ [] := by
    cases k <;> simp
  constructor
  · rw [qslField, if_neg hne]
    rw [List.append_assoc]
    rw [show [61] ++ v = 61 :: v from rfl]
    rw [splitAtFirst_append v hno61k]
    simp only [Option.getD_some]
    rw [pyUnquote_plusToSpace hk, pyUnquote_plusToSpace hv]
  constructor
  · intro hmem
    rcases List.mem_append.mp hmem with hmem | hmem
    · rcases List.mem_append.mp hmem with hmem | hmem
      · exact (encChar_ne (halphak 38 hmem)).1 rfl
      · simp at hmem
    · exact (encChar_ne (halphav 38 hmem)).1 rfl
  · intro y hy
    rcases List.mem_append.mp hy with hy | hy
    · rcases List.mem_append.mp hy with hy | hy
      · exact encChar_of_alpha (halphak y hy)
      · simp only [List.mem_singleton] at hy
        subst hy
        decide
    · exact encChar_of_alpha (halphav y hy)

theorem pyParseQsl_urlencode {sp : List (PyStr × PyStr)} {e : PyStr}
    (h : pyUrlencode sp = some e) :
    pyParseQsl e = sp ∧ (∀ y ∈ e, encChar y = true) := by
  induction sp generalizing e with
  | nil =>
    simp only [pyUrlencode, Option.some.injEq] at h
    subst h
    exact ⟨rfl, by simp⟩
  | cons kv rest ih =>
    cases rest with
    | nil =>
      simp only [pyUrlencode] at h
      obtain ⟨hfield, hno38, halpha⟩ := qslField_encodePair h
      constructor
      · rw [pyParseQsl, pySplit_not_mem hno38]
        simp [hfield]
      · exact halpha
    | cons kv2 rest2 =>
      simp only [pyUrlencode] at h
      rcases he1 : encodePair kv with _ | e1 <;> rw [he1] at h
      · have h2 : (none : Option PyStr) = some e := h
        simp at h2
      · rcases he2 : pyUrlencode (kv2 :: rest2) with _ | e2 <;> rw [he2] at h
        · have h2 : (none : Option PyStr) = some e := h
          simp at h2
        · have h2 : some (e1 ++ [38] ++ e2) = some e := h
          injection h2 with h3
          subst h3
          obtain ⟨hfield, hno38, halpha⟩ := qslField_encodePair he1
          obtain ⟨hrest, halpha2⟩ := ih he2
          constructor
          · rw [pyParseQsl, List.append_assoc]
            rw [show [38] ++ e2 = 38 :: e2 from rfl]
            rw [pySplit_append e2 hno38]
            simp only [List.filterMap_cons, hfield]
            rw [show (pySplit 38 e2).filterMap qslField = pyParseQsl e2 from rfl]
            rw [hrest]
          · intro y hy
            rcases List.mem_append.mp hy with hy | hy
            · rcases List.mem_append.mp hy with hy | hy
              · exact halpha y hy
              · simp only [List.mem_singleton] at hy
                subst hy
                decide
            · exact halpha2 y hy


/-! ### Helper lemmas: the query-normalization block -/

theorem canonQuery_cases {q out : PyStr} (h : canonQuery q = some out) :
    (q = [] ∧ out = []) ∨
    ((pyParseQs q).filter (fun e => keyKept e.1) = [] ∧ out = []) ∨
    ((pyParseQs q).filter (fun e => keyKept e.1) ≠ [] ∧
      pyUrlencode (emitPairs (sortByKey
        ((pyParseQs q).filter (fun e => keyKept e.1)))) = some out) := by
  simp only [canonQuery] at h
  rw [show (fun (e : PyStr × List PyStr) => !(TRACKING_PARAMS.contains (pyLower e.1)))
      = (fun e : PyStr × List PyStr => keyKept e.1) from rfl] at h
  by_cases hq : q = []
  · rw [if_pos hq] at h
    injection h with h2
    exact Or.inl ⟨hq, h2.symm⟩
  · rw [if_neg hq] at h
    by_cases hf : (pyParseQs q).filter (fun e => keyKept e.1) = []
    · rw [if_pos hf] at h
      injection h with h2
      exact Or.inr (Or.inl ⟨hf, h2.symm⟩)
    · rw [if_neg hf] at h
      exact Or.inr (Or.inr ⟨hf, h⟩)

theorem canonQuery_pairs {q out : PyStr} (h : canonQuery q = some out) :
    pyParseQsl out =
      emitPairs (sortByKey ((pyParseQs q).filter (fun e => keyKept e.1))) := by
  rcases canonQuery_cases h with ⟨hq, hout⟩ | ⟨hf, hout⟩ | ⟨hf, henc⟩
  · subst hq
    subst hout
    rfl
  · rw [hf, hout]
    rfl
  · exact (pyParseQsl_urlencode henc).1

theorem canonQuery_alphabet {q out : PyStr} (h : canonQuery q = some out) :
    ∀ y ∈ out, encChar y = true := by
  rcases canonQuery_cases h with ⟨hq, hout⟩ | ⟨hf, hout⟩ | ⟨hf, henc⟩
  · subst hout
    simp
  · subst hout
    simp
  · exact (pyParseQsl_urlencode henc).2

theorem canonQuery_idem {q out : PyStr} (h : canonQuery q = some out) :
    canonQuery out = some out := by
  rcases canonQuery_cases h with ⟨hq, hout⟩ | ⟨hf, hout⟩ | ⟨hf, henc⟩
  · subst hout
    rfl
  · subst hout
    rfl
  · have hnd : (dictKeys ((pyParseQs q).filter (fun e => keyKept e.1))).Nodup := by
      have h1 := nodup_dictKeys_parseQs q
      have hsub : List.Sublist (dictKeys ((pyParseQs q).filter (fun e => keyKept e.1)))
          (dictKeys (pyParseQs q)) :=
        List.Sublist.map Prod.fst (List.filter_sublist (pyParseQs q))
      exact h1.sublist hsub
    have hvals : ∀ e ∈ (pyParseQs q).filter (fun e => keyKept e.1), e.2 ≠ [] :=
      fun e he => values_ne_nil_parseQs q e (List.mem_filter.mp he).1
    have hkept : ∀ e ∈ (pyParseQs q).filter (fun e => keyKept e.1),
        keyKept e.1 = true := fun e he => (List.mem_filter.mp he).2
    have hperm := sortByKey_perm ((pyParseQs q).filter (fun e => keyKept e.1))
    have hndS : (dictKeys (sortByKey
        ((pyParseQs q).filter (fun e => keyKept e.1)))).Nodup := by
      have hpm : List.Perm
          (dictKeys (sortByKey ((pyParseQs q).filter (fun e => keyKept e.1))))
          (dictKeys ((pyParseQs q).filter (fun e => keyKept e.1))) :=
        hperm.map Prod.fst
      exact hpm.nodup_iff.mpr hnd
    have hvalsS : ∀ e ∈ sortByKey ((pyParseQs q).filter (fun e => keyKept e.1)),
        e.2 ≠ [] := fun e he => hvals e (hperm.mem_iff.mp he)
    have hkeptS : ∀ e ∈ sortByKey ((pyParseQs q).filter (fun e => keyKept e.1)),
        keyKept e.1 = true := fun e he => hkept e (hperm.mem_iff.mp he)
    have hsorted := pairwise_sortByKey ((pyParseQs q).filter (fun e => keyKept e.1))
    have hne : (sortByKey ((pyParseQs q).filter (fun e => keyKept e.1))).Pairwise
        (fun a b => ¬ a.1 = b.1) := List.pairwise_map.mp hndS
    have hstrict : (sortByKey ((pyParseQs q).filter (fun e => keyKept e.1))).Pairwise
        (fun a b => strLtB a.1 b.1 = true) := by
      refine (hsorted.and hne).imp ?_
      intro a b hab
      rcases hab with ⟨h1, h2⟩
      cases hq2 : strLtB a.1 b.1 with
      | true => rfl
      | false => exact absurd (strLtB_conn hq2 h1) h2
    have hpairs := (pyParseQsl_urlencode henc).1
    have hsne : sortByKey ((pyParseQs q).filter (fun e => keyKept e.1)) ≠ [] := by
      intro hcon
      rw [hcon] at hperm
      exact hf (List.Perm.eq_nil hperm.symm)
    have hspne : emitPairs (sortByKey
        ((pyParseQs q).filter (fun e => keyKept e.1))) ≠ [] := by
      rcases hDs : sortByKey ((pyParseQs q).filter (fun e => keyKept e.1))
        with _ | ⟨e, rest⟩
      · exact absurd hDs hsne
      · rw [emitPairs_cons]
        rcases hv2 : e.2 with _ | ⟨v, vs⟩
        · exact absurd hv2 (hvalsS e (by rw [hDs]; exact List.mem_cons_self e rest))
        · simp
    have houtne : out ≠ [] := by
      intro hout
      rw [hout, show pyParseQsl [] = [] from rfl] at hpairs
      exact hspne hpairs.symm
    rw [canonQuery]
    rw [show (fun (e : PyStr × List PyStr) => !(TRACKING_PARAMS.contains (pyLower e.1)))
        = (fun e : PyStr × List PyStr => keyKept e.1) from rfl]
    rw [if_neg houtne]
    have hgroup : pyParseQs out =
        sortByKey ((pyParseQs q).filter (fun e => keyKept e.1)) := by
      rw [pyParseQs, hpairs]
      exact regroup hndS hvalsS
    rw [hgroup]
    try dsimp only
    rw [List.filter_eq_self.mpr hkeptS, if_neg hsne,
      sortByKey_of_sorted hstrict, henc]


theorem nodup_dictKeys_filtered (q : PyStr) :
    (dictKeys ((pyParseQs q).filter (fun e => keyKept e.1))).Nodup :=
  (nodup_dictKeys_parseQs q).sublist
    (List.Sublist.map Prod.fst (List.filter_sublist (pyParseQs q)))

theorem nodup_dictKeys_sorted_filtered (q : PyStr) :
    (dictKeys (sortByKey ((pyParseQs q).filter (fun e => keyKept e.1)))).Nodup :=
  (((sortByKey_perm ((pyParseQs q).filter (fun e => keyKept e.1))).map
    Prod.fst).nodup_iff).mpr (nodup_dictKeys_filtered q)

theorem filter_keyKept_eq (l : List (PyStr × PyStr)) (k : PyStr) :
    l.filter (fun kv => keyKept kv.1 && decide (kv.1 = k)) =
      if keyKept k = true then l.filter (fun kv => decide (kv.1 = k)) else [] := by
  induction l with
  | nil => simp
  | cons kv rest ih =>
    simp only [List.filter_cons]
    by_cases hk : kv.1 = k
    · subst hk
      by_cases hkept : keyKept kv.1 = true
      · rw [if_pos (by simp [hkept]), ih, if_pos hkept, if_pos hkept,
          if_pos (by simp)]
      · rw [if_neg (by simp [hkept]), ih, if_neg hkept, if_neg hkept]
    · rw [if_neg (by simp [hk]), ih]
      by_cases hkept : keyKept k = true
      · rw [if_pos hkept, if_pos hkept, if_neg (by simp [hk])]
      · rw [if_neg hkept, if_neg hkept]

/-- **C7, amended.** In the canonical query the kept pairs are re-emitted
sorted lexicographically (by code point) on the key, and for every key the
sequence of decoded values — blank values included, duplicate keys in their
original relative order — equals the decoded value sequence of the submitted
non-tracking pairs.  Values are preserved up to percent-decoding, not
byte-for-byte as submitted (the counterexample re-emits `a%20b` as
`a+b`). -/
theorem canonical_query_sorted_stable (q out : PyStr) (h : canonQuery q = some out) :
    (pyParseQsl out).Pairwise (fun a b => strLtB b.1 a.1 = false) ∧
    ∀ k, ((pyParseQsl out).filter (fun kv => decide (kv.1 = k))).map Prod.snd =
      ((pyParseQsl q).filter
        (fun kv => keyKept kv.1 && decide (kv.1 = k))).map Prod.snd := by
  have hpairs := canonQuery_pairs h
  constructor
  · rw [hpairs]
    exact pairwise_emitPairs (pairwise_sortByKey _)
  · intro k
    rw [hpairs]
    rw [emitPairs_filter_key (nodup_dictKeys_sorted_filtered q)]
    rw [dictGet_perm (sortByKey_perm _) (nodup_dictKeys_sorted_filtered q) k]
    rw [dictGet_filter_keyKept, dictGet_parseQs]
    rw [filter_keyKept_eq]
    by_cases hkept : keyKept k = true
    · rw [if_pos hkept, if_pos hkept]
    · rw [if_neg hkept, if_neg hkept]
      simp

theorem canonical_query_sorted_stable_witness :
    canonQuery (pyStr "b=2&a=1&a=&utm_source=x") = some (pyStr "a=1&a=&b=2") ∧
    (pyParseQsl (pyStr "a=1&a=&b=2")).Pairwise
      (fun a b => strLtB b.1 a.1 = false) ∧
    ((pyParseQsl (pyStr "a=1&a=&b=2")).filter
        (fun kv => decide (kv.1 = pyStr "a"))).map Prod.snd =
      ((pyParseQsl (pyStr "b=2&a=1&a=&utm_source=x")).filter
        (fun kv => keyKept kv.1 && decide (kv.1 = pyStr "a"))).map Prod.snd :=
  ⟨by decide,
   (canonical_query_sorted_stable (pyStr "b=2&a=1&a=&utm_source=x")
     (pyStr "a=1&a=&b=2") (by decide)).1,
   (canonical_query_sorted_stable (pyStr "b=2&a=1&a=&utm_source=x")
     (pyStr "a=1&a=&b=2") (by decide)).2 (pyStr "a")⟩


/-! ### Helper lemmas: structure of `urlsplit` components -/

theorem splitAtFirst_eq {sep : Nat} {s b : PyStr} {aft : PyStr}
    (h : splitAtFirst sep s = (b, some aft)) : s = b ++ sep :: aft ∧ sep ∉ b := by
  induction s generalizing b with
  | nil => simp [splitAtFirst, Prod.mk.injEq] at h
  | cons x rest ih =>
    simp only [splitAtFirst] at h
    by_cases hx : x = sep
    · rw [if_pos hx] at h
      rw [Prod.mk.injEq] at h
      obtain ⟨h1, h2⟩ := h
      injection h2 with h3
      subst hx
      rw [← h1, h3]
      exact ⟨rfl, by simp⟩
    · rw [if_neg hx] at h
      try dsimp only at h
      rw [Prod.mk.injEq] at h
      obtain ⟨h1, h2⟩ := h
      rcases hr : splitAtFirst sep rest with ⟨b2, opt2⟩
      rw [hr] at h1 h2
      dsimp only at h1 h2
      rcases opt2 with _ | aft2
      · simp at h2
      · injection h2 with h3
        subst h3
        obtain ⟨hs, hnm⟩ := ih (by rw [hr])
        subst h1
        constructor
        · rw [List.cons_append, ← hs]
        · simp only [List.mem_cons]
          push_neg
          exact ⟨fun hc => hx hc.symm, hnm⟩

theorem splitAtLast_eq {sep : Nat} {s a b : PyStr}
    (h : splitAtLast sep s = some (a, b)) : s = a ++ sep :: b := by
  rw [splitAtLast] at h
  rcases hsf : splitAtFirst sep s.reverse with ⟨bRev, opt⟩
  rw [hsf] at h
  rcases opt with _ | aftRev
  · simp at h
  · dsimp only at h
    injection h with h2
    rw [Prod.mk.injEq] at h2
    obtain ⟨h3, h4⟩ := h2
    obtain ⟨hs, _⟩ := splitAtFirst_eq hsf
    have hs2 : s = (bRev ++ sep :: aftRev).reverse := by
      rw [← hs, List.reverse_reverse]
    rw [hs2, ← h3, ← h4]
    simp [List.reverse_append]

theorem mem_splitAtFirst_fst {sep : Nat} {s : PyStr} {c : Nat}
    (h : c ∈ (splitAtFirst sep s).1) : c ∈ s ∧ c ≠ sep := by
  induction s with
  | nil => simp [splitAtFirst] at h
  | cons a rest ih =>
    simp only [splitAtFirst] at h
    by_cases ha : a = sep
    · rw [if_pos ha] at h
      simp at h
    · rw [if_neg ha] at h
      dsimp only at h
      rcases List.mem_cons.mp h with rfl | h2
      · exact ⟨List.mem_cons_self _ _, ha⟩
      · rcases ih h2 with ⟨h3, h4⟩
        exact ⟨List.mem_cons_of_mem a h3, h4⟩

theorem mem_splitAtFirst_snd {sep : Nat} {s r : PyStr} {c : Nat}
    (hr : (splitAtFirst sep s).2 = some r) (h : c ∈ r) : c ∈ s := by
  induction s generalizing r with
  | nil => simp [splitAtFirst] at hr
  | cons a rest ih =>
    simp only [splitAtFirst] at hr
    by_cases ha : a = sep
    · rw [if_pos ha] at hr
      dsimp only at hr
      injection hr with h2
      subst h2
      exact List.mem_cons_of_mem a h
    · rw [if_neg ha] at hr
      dsimp only at hr
      exact List.mem_cons_of_mem a (ih hr h)

theorem mem_filtered_not_tcl {url : PyStr} {c : Nat}
    (h : c ∈ url.filter (fun c => !(c = 9 || c = 13 || c = 10))) :
    ¬(c = 9 ∨ c = 13 ∨ c = 10) := by
  have h2 := (List.mem_filter.mp h).2
  intro hc
  rcases hc with rfl | rfl | rfl <;> simp at h2

theorem netlocSplit_fst_facts (rest f : PyStr)
    (hsub : ∀ c ∈ rest, c ∈ f) (hf : ∀ c ∈ f, ¬(c = 9 ∨ c = 13 ∨ c = 10)) :
    ∀ c ∈ (if rest.take 2 = [47, 47] then
        ((rest.drop 2).takeWhile (fun c => !isNetlocDelim c),
         (rest.drop 2).dropWhile (fun c => !isNetlocDelim c))
      else (([] : PyStr), rest)).1,
      isNetlocDelim c = false ∧ ¬(c = 9 ∨ c = 13 ∨ c = 10) := by
  intro c hc
  by_cases h2 : rest.take 2 = [47, 47]
  · rw [if_pos h2] at hc
    dsimp only at hc
    have hdelim := List.mem_takeWhile_imp hc
    refine ⟨by simpa using hdelim, ?_⟩
    exact hf c (hsub c ((List.drop_sublist 2 rest).subset
      ((List.takeWhile_sublist _).subset hc)))
  · rw [if_neg h2] at hc
    simp at hc

theorem netlocSplit_snd_sub (rest f : PyStr) (hsub : ∀ c ∈ rest, c ∈ f) :
    ∀ c ∈ (if rest.take 2 = [47, 47] then
        ((rest.drop 2).takeWhile (fun c => !isNetlocDelim c),
         (rest.drop 2).dropWhile (fun c => !isNetlocDelim c))
      else (([] : PyStr), rest)).2, c ∈ f := by
  intro c hc
  by_cases h2 : rest.take 2 = [47, 47]
  · rw [if_pos h2] at hc
    dsimp only at hc
    exact hsub c ((List.drop_sublist 2 rest).subset
      ((List.dropWhile_sublist _).subset hc))
  · rw [if_neg h2] at hc
    dsimp only at hc
    exact hsub c hc

theorem querySplit_facts {rest2 f : PyStr} (hsub : ∀ c ∈ rest2, c ∈ f)
    (hf : ∀ c ∈ f, ¬(c = 9 ∨ c = 13 ∨ c = 10)) :
    ∀ c ∈ (splitAtFirst 63 (splitAtFirst 35 rest2).1).1,
      c ≠ 63 ∧ c ≠ 35 ∧ ¬(c = 9 ∨ c = 13 ∨ c = 10):= by
  intro c hc
  have h1 := mem_splitAtFirst_fst hc
  have h2 := mem_splitAtFirst_fst h1.1
  exact ⟨h1.2, h2.2, hf c (hsub c h2.1)⟩

theorem pyUrlsplit_facts (url : PyStr) :
    (∀ c ∈ (pyUrlsplit url).netloc,
      isNetlocDelim c = false ∧ ¬(c = 9 ∨ c = 13 ∨ c = 10)) ∧
    (∀ c ∈ (pyUrlsplit url).path,
      c ≠ 63 ∧ c ≠ 35 ∧ ¬(c = 9 ∨ c = 13 ∨ c = 10)) := by
  have hf : ∀ c ∈ url.filter (fun c => !(c = 9 || c = 13 || c = 10)),
      ¬(c = 9 ∨ c = 13 ∨ c = 10) := fun c hc => mem_filtered_not_tcl hc
  rw [pyUrlsplit]
  rcases hss : splitAtFirst 58 (url.filter (fun c => !(c = 9 || c = 13 || c = 10)))
    with ⟨before, opt⟩
  try rw [hss]
  rcases opt with _ | after
  · dsimp only
    exact ⟨netlocSplit_fst_facts _ _ (fun c hc => hc) hf,
      querySplit_facts (netlocSplit_snd_sub _ _ (fun c hc => hc)) hf⟩
  · rcases before with _ | ⟨b, bs⟩
    · dsimp only
      exact ⟨netlocSplit_fst_facts _ _ (fun c hc => hc) hf,
        querySplit_facts (netlocSplit_snd_sub _ _ (fun c hc => hc)) hf⟩
    · dsimp only
      by_cases hb : (isAsciiAlpha b && (b :: bs).all isSchemeChar) = true
      · rw [if_pos hb]
        dsimp only
        have hsub : ∀ c ∈ after, c ∈
            url.filter (fun c => !(c = 9 || c = 13 || c = 10)) :=
          fun c hc => mem_splitAtFirst_snd (by rw [hss]) hc
        exact ⟨netlocSplit_fst_facts _ _ hsub hf,
          querySplit_facts (netlocSplit_snd_sub _ _ hsub) hf⟩
      · rw [if_neg hb]
        dsimp only
        exact ⟨netlocSplit_fst_facts _ _ (fun c hc => hc) hf,
          querySplit_facts (netlocSplit_snd_sub _ _ (fun c hc => hc)) hf⟩

theorem mem_pySplitParams_fst {p : PyStr} {c : Nat} (h : c ∈ (pySplitParams p).1) :
    c ∈ p ∨ c = 47 := by
  rw [pySplitParams] at h
  rcases hsl : splitAtLast 47 p with _ | ⟨pre, lastSeg⟩ <;> rw [hsl] at h
  · dsimp only at h
    rcases hsf : splitAtFirst 59 p with ⟨b, opt⟩
    rw [hsf] at h
    rcases opt with _ | aft
    · dsimp only at h
      exact Or.inl h
    · dsimp only at h
      exact Or.inl (mem_splitAtFirst_fst
        (show c ∈ (splitAtFirst 59 p).1 from by rw [hsf]; exact h)).1
  · dsimp only at h
    have hdec := splitAtLast_eq hsl
    rcases hsf : splitAtFirst 59 lastSeg with ⟨b, opt⟩
    rw [hsf] at h
    rcases opt with _ | aft
    · dsimp only at h
      exact Or.inl h
    · dsimp only at h
      rcases List.mem_append.mp h with h2 | h2
      · rcases List.mem_append.mp h2 with h3 | h3
        · exact Or.inl (by rw [hdec]; exact List.mem_append.mpr (Or.inl h3))
        · simp only [List.mem_singleton] at h3
          exact Or.inr h3
      · have h3 := (mem_splitAtFirst_fst
          (show c ∈ (splitAtFirst 59 lastSeg).1 from by rw [hsf]; exact h2)).1
        refine Or.inl ?_
        rw [hdec]
        exact List.mem_append.mpr (Or.inr (List.mem_cons_of_mem 47 h3))

theorem pyUrlparse_path_facts (url : PyStr) :
    ∀ c ∈ (pyUrlparse url).path,
      c ≠ 63 ∧ c ≠ 35 ∧ ¬(c = 9 ∨ c = 13 ∨ c = 10) := by
  have hs := (pyUrlsplit_facts url).2
  intro c hc
  rw [pyUrlparse] at hc
  by_cases hcond : (usesParams.contains (pyUrlsplit url).scheme &&
      (pyUrlsplit url).path.contains 59) = true
  · rw [if_pos hcond] at hc
    dsimp only at hc
    rcases mem_pySplitParams_fst hc with h2 | rfl
    · exact hs c h2
    · exact ⟨by omega, by omega, by omega⟩
  · rw [if_neg hcond] at hc
    dsimp only at hc
    exact hs c hc

theorem pyUrlparse_netloc (url : PyStr) :
    (pyUrlparse url).netloc = (pyUrlsplit url).netloc := by
  rw [pyUrlparse]
  by_cases hcond : (usesParams.contains (pyUrlsplit url).scheme &&
      (pyUrlsplit url).path.contains 59) = true
  · rw [if_pos hcond]
  · rw [if_neg hcond]

/-! ### Helper lemmas: host and path normalization -/

theorem head_dropWhile_47 (l : List Nat) :
    (l.dropWhile (· = 47)).head? ≠ some 47 := by
  induction l with
  | nil => simp
  | cons x rest ih =>
    simp only [List.dropWhile_cons]
    by_cases hx : x = 47
    · rw [if_pos (by simpa using hx)]
      exact ih
    · rw [if_neg (by simpa using hx)]
      simp [hx]

theorem rstripSlashes_getLast (p : PyStr) :
    (rstripSlashes p).getLast? ≠ some 47 := by
  rw [rstripSlashes, List.getLast?_reverse]
  exact head_dropWhile_47 p.reverse

theorem mem_rstripSlashes {p : PyStr} {c : Nat} (h : c ∈ rstripSlashes p) : c ∈ p := by
  rw [rstripSlashes, List.mem_reverse] at h
  exact List.mem_reverse.mp ((List.dropWhile_sublist _).subset h)

theorem canonPath_last (p : PyStr) :
    canonPath p = [47] ∨ (canonPath p).getLast? ≠ some 47 := by
  simp only [canonPath]
  by_cases hp : p = []
  · rw [if_pos hp]
    left
    rw [if_neg (by simp)]
  · rw [if_neg hp]
    by_cases hcond : 1 < p.length ∧ p.getLast? = some 47
    · rw [if_pos hcond]
      exact Or.inr (rstripSlashes_getLast p)
    · rw [if_neg hcond]
      by_cases hlast : p.getLast? = some 47
      · left
        have hlen : ¬ 1 < p.length := fun hl => hcond ⟨hl, hlast⟩
        rcases p with _ | ⟨x, xs⟩
        · exact absurd rfl hp
        · rcases xs with _ | ⟨y, ys⟩
          · simp only [List.getLast?_singleton, Option.some.injEq] at hlast
            rw [hlast]
          · simp at hlen
      · exact Or.inr hlast

theorem canonPath_fix {p : PyStr} (hne : p ≠ [])
    (hlast : p = [47] ∨ p.getLast? ≠ some 47) : canonPath p = p := by
  rcases hlast with rfl | hlast
  · rfl
  · simp only [canonPath]
    rw [if_neg hne, if_neg (fun hc => hlast hc.2)]

theorem mem_canonPath {p : PyStr} {c : Nat} (h : c ∈ canonPath p) :
    c ∈ p ∨ c = 47 := by
  simp only [canonPath] at h
  by_cases hp : p = []
  · rw [if_pos hp] at h
    rw [if_neg (by simp)] at h
    simp only [List.mem_singleton] at h
    exact Or.inr h
  · rw [if_neg hp] at h
    by_cases hcond : 1 < p.length ∧ p.getLast? = some 47
    · rw [if_pos hcond] at h
      exact Or.inl (mem_rstripSlashes h)
    · rw [if_neg hcond] at h
      exact Or.inl h

theorem asciiLower_eq_low {c d : Nat} (h : asciiLower c = d)
    (hd : d < 97 ∨ 122 < d) : c = d := by
  simp only [asciiLower] at h
  by_cases h1 : (65 ≤ c && c ≤ 90) = true
  · rw [if_pos h1] at h
    simp only [Bool.and_eq_true, decide_eq_true_eq] at h1
    omega
  · rw [if_neg h1] at h
    exact h

theorem mem_canonHost {n : PyStr} {c : Nat} (h : c ∈ canonHost n) :
    ∃ c0 ∈ n, asciiLower c0 = c := by
  rw [canonHost] at h
  have h1 : c ∈ stripWww (pyLower n) := by
    rw [stripDefaultPort] at h
    rcases hsl : splitAtLast 58 (stripWww (pyLower n)) with _ | ⟨hostname, port⟩ <;>
      rw [hsl] at h
    · dsimp only at h
      exact h
    · dsimp only at h
      by_cases hport : port = pyStr "80" ∨ port = pyStr "443"
      · rw [if_pos hport] at h
        have hd := splitAtLast_eq hsl
        rw [hd]
        exact List.mem_append.mpr (Or.inl h)
      · rw [if_neg hport] at h
        exact h
  have h2 : c ∈ pyLower n := by
    rw [stripWww] at h1
    by_cases hw : pyStartsWith (pyLower n) (pyStr "www.") = true
    · rw [if_pos hw] at h1
      exact (List.drop_sublist 4 _).subset h1
    · rw [if_neg hw] at h1
      exact h1
  exact List.mem_map.mp h2


theorem pyStartsWith_append (a b : PyStr) : pyStartsWith (a ++ b) a = true := by
  induction a with
  | nil => cases b <;> rfl
  | cons x xs ih => simp [pyStartsWith, ih]

theorem pyStartsWith_of_head {l : PyStr} {c : Nat} (h : l.head? = some c) :
    pyStartsWith l [c] = true := by
  cases l with
  | nil => simp at h
  | cons x xs =>
    injection h with h2
    subst h2
    simp [pyStartsWith]

theorem head_dropWhile_false {p : Nat → Bool} {l : List Nat} {x : Nat}
    (h : (l.dropWhile p).head? = some x) : p x = false ∧ x ∈ l := by
  induction l with
  | nil => simp at h
  | cons a rest ih =>
    rw [List.dropWhile_cons] at h
    by_cases ha : p a = true
    · rw [if_pos ha] at h
      rcases ih h with ⟨h1, h2⟩
      exact ⟨h1, List.mem_cons_of_mem a h2⟩
    · rw [if_neg ha] at h
      injection h with h2
      subst h2
      exact ⟨by simpa using ha, List.mem_cons_self a rest⟩

theorem takeWhile_dropWhile_append (p : Nat → Bool) (a b : List Nat)
    (hb : ∀ x, b.head? = some x → p x = false) :
    (a ++ b).takeWhile p = a.takeWhile p ∧
      (a ++ b).dropWhile p = a.dropWhile p ++ b := by
  induction a with
  | nil =>
    simp only [List.nil_append]
    cases b with
    | nil => simp
    | cons x xs =>
      have hx := hb x rfl
      rw [List.takeWhile_cons, List.dropWhile_cons, if_neg (by simp [hx]),
        if_neg (by simp [hx])]
      exact ⟨rfl, rfl⟩
  | cons c a ih =>
    constructor
    · simp only [List.cons_append, List.takeWhile_cons]
      by_cases hc : p c = true
      · rw [if_pos hc, if_pos hc, ih.1]
      · rw [if_neg hc, if_neg hc]
    · simp only [List.cons_append, List.dropWhile_cons]
      by_cases hc : p c = true
      · rw [if_pos hc, if_pos hc, ih.2]
      · rw [if_neg hc, if_neg hc, List.cons_append]

theorem dropWhile_eq_nil_of_all {p : Nat → Bool} {l : List Nat}
    (h : ∀ c ∈ l, p c = true) : l.dropWhile p = [] := by
  induction l with
  | nil => rfl
  | cons x xs ih =>
    rw [List.dropWhile_cons, if_pos (h x (List.mem_cons_self x xs))]
    exact ih (fun c hc => h c (List.mem_cons_of_mem x hc))

theorem mem_of_getLast?_eq {l : List Nat} {x : Nat} (h : l.getLast? = some x) :
    x ∈ l := by
  induction l with
  | nil => simp at h
  | cons a rest ih =>
    cases rest with
    | nil =>
      simp only [List.getLast?_singleton, Option.some.injEq] at h
      subst h
      exact List.mem_cons_self a []
    | cons b rest2 =>
      rw [List.getLast?_cons_cons] at h
      exact List.mem_cons_of_mem a (ih h)

theorem getLast?_append_right {a b : List Nat} (h : b ≠ []) :
    (a ++ b).getLast? = b.getLast? := by
  induction a with
  | nil => rfl
  | cons x xs ih =>
    rw [List.cons_append]
    cases hxb : xs ++ b with
    | nil => exact absurd (List.append_eq_nil.mp hxb).2 h
    | cons y ys =>
      rw [hxb] at ih
      rw [List.getLast?_cons_cons, ih]

theorem pyUrlsplit_https_slashes (t2 : PyStr)
    (htcl : ∀ c ∈ t2, ¬(c = 9 ∨ c = 13 ∨ c = 10))
    (hno35 : 35 ∉ t2) :
    pyUrlsplit (pyStr "https://" ++ t2) =
      ⟨pyStr "https",
       t2.takeWhile (fun c => !isNetlocDelim c),
       (splitAtFirst 63 (t2.dropWhile (fun c => !isNetlocDelim c))).1,
       ((splitAtFirst 63 (t2.dropWhile (fun c => !isNetlocDelim c))).2).getD [],
       []⟩ := by
  rw [pyUrlsplit]
  have hfil : (pyStr "https://" ++ t2).filter (fun c => !(c = 9 || c = 13 || c = 10)) =
      pyStr "https://" ++ t2 := by
    rw [List.filter_eq_self]
    intro c hc
    rcases List.mem_append.mp hc with hc | hc
    · have hh : ∀ y ∈ pyStr "https://", (!(y = 9 || y = 13 || y = 10)) = true := by
        decide
      exact hh c hc
    · have h2 := htcl c hc
      simp only [Bool.not_eq_true', Bool.or_eq_false_iff, decide_eq_false_iff_not]
      omega
  rw [hfil]
  have hsplit : splitAtFirst 58 (pyStr "https://" ++ t2) =
      ([104, 116, 116, 112, 115], some (47 :: 47 :: t2)) := by
    rw [show pyStr "https://" ++ t2 =
        [104, 116, 116, 112, 115] ++ 58 :: (47 :: 47 :: t2) from rfl]
    exact splitAtFirst_append _ (by decide)
  rw [hsplit]
  dsimp only
  rw [if_pos (by decide)]
  rw [show pyLower [104, 116, 116, 112, 115] = pyStr "https" from by decide]
  rw [if_pos (show (47 :: 47 :: t2).take 2 = [47, 47] from rfl)]
  dsimp only
  rw [show (47 :: 47 :: t2).drop 2 = t2 from rfl]
  have hrest2 : 35 ∉ t2.dropWhile (fun c => !isNetlocDelim c) :=
    fun hmem => hno35 ((List.dropWhile_sublist _).subset hmem)
  rw [splitAtFirst_not_mem hrest2]
  rfl


theorem canonicalizeNR_ok_form {u out : PyStr} (h : canonicalizeNR u = .ok out) :
    ∃ url2, finishCanonical (pyUrlparse url2) = some out ∧
      bracketMismatch (pyUrlparse url2).netloc = false ∧
      (pyUrlparse url2).netloc ≠ [] := by
  rw [canonicalizeNR, canonicalize] at h
  by_cases h1 : u = [] ∨ pyStrip u = []
  · rw [if_pos h1] at h
    exact absurd h (by simp)
  · rw [if_neg h1] at h
    dsimp only at h
    rw [if_neg (show ¬(false = true) by decide)] at h
    by_cases h2 : (pyStartsWith (pyLower (pyStrip u)) (pyStr "http://") ||
        pyStartsWith (pyLower (pyStrip u)) (pyStr "https://")) = true
    · rw [if_pos h2] at h
      split_ifs at h with h3 h4
      split at h
      · exact absurd h (by simp)
      · rename_i c heq
        injection h with hv
        refine ⟨pyStrip u, ?_, Bool.eq_false_iff.mpr h3, h4⟩
        rw [heq, hv]
    · rw [if_neg h2] at h
      split_ifs at h with h3 h4
      split at h
      · exact absurd h (by simp)
      · rename_i c heq
        injection h with hv
        refine ⟨pyStr "https://" ++ pyStrip u, ?_, Bool.eq_false_iff.mpr h3, h4⟩
        rw [heq, hv]

theorem canonicalizeNR_shape {u out : PyStr} (h : canonicalizeNR u = .ok out) :
    ∃ H P Q,
      out = pyUrlunparse (pyStr "https") H P [] Q [] ∧
      canonQuery Q = some Q ∧
      (∀ c ∈ H, ¬(c = 47 ∨ c = 63 ∨ c = 35 ∨ c = 9 ∨ c = 13 ∨ c = 10)) ∧
      (∀ c ∈ P, ¬(c = 63 ∨ c = 35 ∨ c = 9 ∨ c = 13 ∨ c = 10)) ∧
      (P = [] ∨ P = [47] ∨ P.getLast? ≠ some 47) := by
  obtain ⟨url2, hfc, hbr, hnl⟩ := canonicalizeNR_ok_form h
  rw [finishCanonical] at hfc
  rcases hq : canonQuery (pyUrlparse url2).query with _ | Q <;> rw [hq] at hfc
  · simp at hfc
  · dsimp only at hfc
    injection hfc with hout
    refine ⟨canonHost (pyUrlparse url2).netloc, canonPath (pyUrlparse url2).path, Q,
      hout.symm, canonQuery_idem hq, ?_, ?_, ?_⟩
    · intro c hc hbad
      obtain ⟨c0, hc0, hlow⟩ := mem_canonHost hc
      obtain ⟨hdel, htcl⟩ := (pyUrlsplit_facts url2).1 c0
        (by rw [← pyUrlparse_netloc]; exact hc0)
      simp only [isNetlocDelim, Bool.or_eq_false_iff, decide_eq_false_iff_not] at hdel
      have hc0c : c0 = c := asciiLower_eq_low hlow (by omega)
      subst hc0c
      omega
    · intro c hc hbad
      rcases mem_canonPath hc with h2 | rfl
      · obtain ⟨hq63, hq35, htcl⟩ := pyUrlparse_path_facts url2 c h2
        omega
      · omega
    · exact Or.inr (canonPath_last _)


theorem canonical_fixpoint_core (T Q out : PyStr)
    (hout : out = pyStr "https://" ++ (T ++ (if Q = [] then [] else 63 :: Q)))
    (hQ : canonQuery Q = some Q)
    (hT : ∀ c ∈ T, ¬(c = 63 ∨ c = 35 ∨ c = 9 ∨ c = 13 ∨ c = 10))
    (hTlast : T.getLast? ≠ some 47 ∨
      T.dropWhile (fun c => !isNetlocDelim c) = [47])
    (h1 : pyStrip out = out)
    (h2 : (pyUrlsplit out).netloc ≠ [])
    (h3 : pyLower (pyUrlsplit out).netloc = (pyUrlsplit out).netloc)
    (h4 : pyStartsWith (pyUrlsplit out).netloc (pyStr "www.") = false)
    (h5 : stripDefaultPort (pyUrlsplit out).netloc = (pyUrlsplit out).netloc)
    (h6 : bracketMismatch (pyUrlsplit out).netloc = false)
    (h7 : (pyUrlsplit out).path ≠ [])
    (h8 : (pyUrlsplit out).path.contains 59 = false) :
    canonicalizeNR out = .ok out := by
  have hQa : ∀ y ∈ Q, encChar y = true := canonQuery_alphabet hQ
  subst hout
  set qp := (if Q = [] then ([] : PyStr) else 63 :: Q) with hqp
  have hqpmem : ∀ c ∈ qp, c = 63 ∨ encChar c = true := by
    intro c hc
    rw [hqp] at hc
    by_cases hQn : Q = []
    · rw [if_pos hQn] at hc
      simp at hc
    · rw [if_neg hQn] at hc
      rcases List.mem_cons.mp hc with rfl | hc2
      · exact Or.inl rfl
      · exact Or.inr (hQa c hc2)
  have htcl : ∀ c ∈ T ++ qp, ¬(c = 9 ∨ c = 13 ∨ c = 10) := by
    intro c hc
    rcases List.mem_append.mp hc with hc | hc
    · intro hb
      exact hT c hc (by omega)
    · rcases hqpmem c hc with rfl | henc
      · omega
      · have hf := encChar_facts henc
        omega
  have h35 : 35 ∉ T ++ qp := by
    intro hm
    rcases List.mem_append.mp hm with hm | hm
    · exact hT 35 hm (by omega)
    · rcases hqpmem 35 hm with h63 | henc
      · omega
      · exact (encChar_facts henc).1 rfl
  have hsplit := pyUrlsplit_https_slashes (T ++ qp) htcl h35
  rw [hsplit] at h2 h3 h4 h5 h6 h7 h8
  dsimp only at h2 h3 h4 h5 h6 h7 h8
  have hqphead : ∀ x, qp.head? = some x → (!isNetlocDelim x) = false := by
    intro x hx
    rw [hqp] at hx
    by_cases hQn : Q = []
    · rw [if_pos hQn] at hx
      simp at hx
    · rw [if_neg hQn] at hx
      injection hx with hx2
      subst hx2
      decide
  obtain ⟨htw, hdw⟩ := takeWhile_dropWhile_append (fun c => !isNetlocDelim c) T qp
    hqphead
  rw [htw] at h2 h3 h4 h5 h6
  rw [hdw] at h7 h8
  have h63T : 63 ∉ T.dropWhile (fun c => !isNetlocDelim c) := by
    intro hm
    exact hT 63 ((List.dropWhile_sublist _).subset hm) (by omega)
  have hpath1 : (splitAtFirst 63 (T.dropWhile (fun c => !isNetlocDelim c) ++ qp)).1 =
      T.dropWhile (fun c => !isNetlocDelim c) := by
    rw [hqp]
    by_cases hQn : Q = []
    · rw [if_pos hQn, List.append_nil, splitAtFirst_not_mem h63T]
    · rw [if_neg hQn, splitAtFirst_append Q h63T]
  have hpath2 :
      ((splitAtFirst 63 (T.dropWhile (fun c => !isNetlocDelim c) ++ qp)).2).getD [] =
      Q := by
    rw [hqp]
    by_cases hQn : Q = []
    · rw [if_pos hQn, List.append_nil, splitAtFirst_not_mem h63T]
      exact hQn.symm
    · rw [if_neg hQn, splitAtFirst_append Q h63T]
      rfl
  rw [hpath1] at h7 h8
  have hPphead : (T.dropWhile (fun c => !isNetlocDelim c)).head? = some 47 := by
    rcases hhd : (T.dropWhile (fun c => !isNetlocDelim c)).head? with _ | x
    · rcases hl : T.dropWhile (fun c => !isNetlocDelim c) with _ | ⟨y, ys⟩
      · exact absurd hl h7
      · rw [hl] at hhd
        simp at hhd
    · obtain ⟨hpx, hxT⟩ := head_dropWhile_false hhd
      have hx47 : x = 47 := by
        have hd2 : isNetlocDelim x = true := by
          cases hb : isNetlocDelim x
          · rw [hb] at hpx
            simp at hpx
          · rfl
        simp only [isNetlocDelim, Bool.or_eq_true, decide_eq_true_eq] at hd2
        have hTx := hT x hxT
        omega
      subst hx47
      rfl
  have hparse : pyUrlparse (pyStr "https://" ++ (T ++ qp)) =
      ⟨pyStr "https", T.takeWhile (fun c => !isNetlocDelim c),
       T.dropWhile (fun c => !isNetlocDelim c), [], Q, []⟩ := by
    rw [pyUrlparse, hsplit]
    dsimp only
    rw [hdw, hpath1, htw, hpath2]
    rw [if_neg (by
      intro hcon
      rw [Bool.and_eq_true] at hcon
      rw [h8] at hcon
      exact absurd hcon.2 (by decide))]
  have hch : canonHost (T.takeWhile (fun c => !isNetlocDelim c)) =
      T.takeWhile (fun c => !isNetlocDelim c) := by
    rw [canonHost, h3, stripWww, if_neg (by simp [h4]), h5]
  have hcp : canonPath (T.dropWhile (fun c => !isNetlocDelim c)) =
      T.dropWhile (fun c => !isNetlocDelim c) := by
    apply canonPath_fix h7
    rcases hTlast with hTl | hTl
    · have hTg : T.getLast? = (T.dropWhile (fun c => !isNetlocDelim c)).getLast? := by
        conv_lhs => rw [← List.takeWhile_append_dropWhile (fun c => !isNetlocDelim c) T]
        exact getLast?_append_right h7
      right
      rw [← hTg]
      exact hTl
    · left
      exact hTl
  have hfc : finishCanonical ⟨pyStr "https",
      T.takeWhile (fun c => !isNetlocDelim c),
      T.dropWhile (fun c => !isNetlocDelim c), [], Q, []⟩ =
      some (pyStr "https://" ++ (T ++ qp)) := by
    rw [finishCanonical]
    dsimp only
    rw [hQ]
    dsimp only
    rw [hch, hcp]
    rw [pyUrlunparse, if_neg (by simp), pyUrlunsplit]
    try dsimp only
    rw [if_pos (Or.inl h2)]
    rw [if_neg (show ¬(List.dropWhile (fun c => !isNetlocDelim c) T ≠ [] ∧
        ¬pyStartsWith (List.dropWhile (fun c => !isNetlocDelim c) T) [47] = true) from
      fun hcon => hcon.2 (pyStartsWith_of_head hPphead))]
    rw [if_pos (show pyStr "https" ≠ [] from by decide)]
    rw [hqp]
    by_cases hQn : Q = []
    · rw [if_neg (by simp [hQn]), if_pos hQn, List.append_nil]
      rw [if_neg (show ¬Q ≠ [] from by simp [hQn])]
      conv_rhs => rw [← List.takeWhile_append_dropWhile (fun c => !isNetlocDelim c) T]
      simp [List.append_assoc]
      rfl
    · rw [if_pos hQn, if_neg hQn]
      rw [if_neg (show ¬([] : PyStr) ≠ [] from by simp)]
      conv_rhs => rw [← List.takeWhile_append_dropWhile (fun c => !isNetlocDelim c) T]
      simp [List.append_assoc]
      rfl
  rw [canonicalizeNR, canonicalize]
  have hne : pyStr "https://" ++ (T ++ qp) ≠ [] := by
    rw [show pyStr "https://" ++ (T ++ qp) =
        104 :: (pyStr "ttps://" ++ (T ++ qp)) from rfl]
    simp
  rw [if_neg (show ¬(pyStr "https://" ++ (T ++ qp) = [] ∨
      pyStrip (pyStr "https://" ++ (T ++ qp)) = []) from by
    push_neg
    exact ⟨hne, by rw [h1]; exact hne⟩)]
  try dsimp only
  rw [h1]
  have hlow : pyLower (pyStr "https://" ++ (T ++ qp)) =
      pyStr "https://" ++ pyLower (T ++ qp) := by
    rw [pyLower, pyLower, List.map_append]
    rw [show List.map asciiLower (pyStr "https://") = pyStr "https://" from by decide]
  rw [if_pos (show (pyStartsWith (pyLower (pyStr "https://" ++ (T ++ qp)))
        (pyStr "http://") ||
      pyStartsWith (pyLower (pyStr "https://" ++ (T ++ qp)))
        (pyStr "https://")) = true from by
    rw [hlow, pyStartsWith_append]
    simp)]
  rw [hparse]
  dsimp only
  rw [if_neg (by simp [h6]), if_neg h2, if_neg (by simp)]
  rw [hfc]


/-- **C2, amended.** Canonicalization (redirects disabled) is idempotent on
every output whose host and path are already in canonical form: if
`canonicalize` succeeds on `u` with result `out`, and `out` survives
whitespace stripping, and the parsed host of `out` is nonempty, lower-case,
does not itself start with `www.`, does not itself carry a default port,
and has balanced brackets, and the parsed path of `out` is nonempty and
semicolon-free, then `canonicalize out = out`.  The counterexample shows the
side conditions are needed: stripping one `www.` from `www.www.example.com`
leaves a host that starts with `www.` again, so a second pass differs. -/
theorem canonicalize_idempotent_amended (u out : PyStr)
    (h : canonicalizeNR u = .ok out)
    (h1 : pyStrip out = out)
    (h2 : (pyUrlsplit out).netloc ≠ [])
    (h3 : pyLower (pyUrlsplit out).netloc = (pyUrlsplit out).netloc)
    (h4 : pyStartsWith (pyUrlsplit out).netloc (pyStr "www.") = false)
    (h5 : stripDefaultPort (pyUrlsplit out).netloc = (pyUrlsplit out).netloc)
    (h6 : bracketMismatch (pyUrlsplit out).netloc = false)
    (h7 : (pyUrlsplit out).path ≠ [])
    (h8 : (pyUrlsplit out).path.contains 59 = false) :
    canonicalizeNR out = .ok out := by
  obtain ⟨H, P, Q, hout, hQ, hH, hP, hPl⟩ := canonicalizeNR_shape h
  rw [pyUrlunparse, if_neg (by simp), pyUrlunsplit] at hout
  try dsimp only at hout
  rw [if_neg (show ¬(([] : PyStr) ≠ []) from by simp),
    if_pos (show pyStr "https" ≠ [] from by decide)] at hout
  by_cases hbr : H ≠ [] ∨ (pyStr "https" ≠ [] ∧
      usesNetloc.contains (pyStr "https") = true ∧ P.take 2 ≠ [47, 47])
  · rw [if_pos hbr] at hout
    by_cases hins : P ≠ [] ∧ ¬ pyStartsWith P [47] = true
    · rw [if_pos hins] at hout
      have hout2 : out = pyStr "https://" ++ ((H ++ ([47] ++ P)) ++
          (if Q = [] then [] else 63 :: Q)) := by
        rw [hout]
        by_cases hQn : Q = []
        · rw [if_neg (by simp [hQn]), if_pos hQn, List.append_nil]
          simp only [List.append_assoc]
          rfl
        · rw [if_pos hQn, if_neg hQn]
          simp only [List.append_assoc]
          rfl
      refine canonical_fixpoint_core (H ++ ([47] ++ P)) Q out hout2 hQ ?_ ?_
        h1 h2 h3 h4 h5 h6 h7 h8
      · intro c hc hbad
        rcases List.mem_append.mp hc with hc | hc
        · exact hH c hc (by omega)
        · rcases List.mem_cons.mp hc with rfl | hc2
          · omega
          · exact hP c hc2 hbad
      · left
        rw [getLast?_append_right (show ([47] : PyStr) ++ P ≠ [] from by simp)]
        rcases hPl with rfl | rfl | hPl
        · exact absurd rfl hins.1
        · exact absurd (by decide) hins.2
        · rw [getLast?_append_right hins.1]
          exact hPl
    · rw [if_neg hins] at hout
      push_neg at hins
      have hout2 : out = pyStr "https://" ++ ((H ++ P) ++
          (if Q = [] then [] else 63 :: Q)) := by
        rw [hout]
        by_cases hQn : Q = []
        · rw [if_neg (by simp [hQn]), if_pos hQn, List.append_nil]
          simp only [List.append_assoc]
          rfl
        · rw [if_pos hQn, if_neg hQn]
          simp only [List.append_assoc]
          rfl
      refine canonical_fixpoint_core (H ++ P) Q out hout2 hQ ?_ ?_
        h1 h2 h3 h4 h5 h6 h7 h8
      · intro c hc hbad
        rcases List.mem_append.mp hc with hc | hc
        · exact hH c hc (by omega)
        · exact hP c hc hbad
      · by_cases hPnil : P = []
        · subst hPnil
          left
          rw [List.append_nil]
          intro hcon
          exact hH 47 (mem_of_getLast?_eq hcon) (by omega)
        · rcases hPl with h9 | rfl | h9
          · exact absurd h9 hPnil
          · right
            have hHall : ∀ c ∈ H, (fun c => !isNetlocDelim c) c = true := by
              intro c hc
              have hHc := hH c hc
              show (!isNetlocDelim c) = true
              rw [Bool.not_eq_true']
              simp only [isNetlocDelim, Bool.or_eq_false_iff,
                decide_eq_false_iff_not]
              omega
            obtain ⟨_, hdw2⟩ := takeWhile_dropWhile_append
              (fun c => !isNetlocDelim c) H [47]
              (by intro x hx; injection hx with hx2; subst hx2; decide)
            rw [hdw2, dropWhile_eq_nil_of_all hHall]
            rfl
          · left
            rw [getLast?_append_right hPnil]
            exact h9
  · rw [if_neg hbr] at hout
    push_neg at hbr
    obtain ⟨hHnil, hbr2⟩ := hbr
    have htake : P.take 2 = [47, 47] := hbr2 (by decide) (by decide)
    obtain ⟨t2, rfl⟩ : ∃ t2, P = 47 :: 47 :: t2 := by
      rcases P with _ | ⟨a, P1⟩
      · simp at htake
      · rcases P1 with _ | ⟨b, P2⟩
        · simp at htake
        · obtain ⟨ha, hb⟩ : a = 47 ∧ b = 47 := by simpa using htake
          subst ha
          subst hb
          exact ⟨P2, rfl⟩
    have hout2 : out = pyStr "https://" ++ (t2 ++
        (if Q = [] then [] else 63 :: Q)) := by
      rw [hout]
      by_cases hQn : Q = []
      · rw [if_neg (by simp [hQn]), if_pos hQn, List.append_nil]
        rfl
      · rw [if_pos hQn, if_neg hQn]
        simp only [List.append_assoc]
        rfl
    refine canonical_fixpoint_core t2 Q out hout2 hQ ?_ ?_ h1 h2 h3 h4 h5 h6 h7 h8
    · intro c hc hbad
      exact hP c (List.mem_cons_of_mem 47 (List.mem_cons_of_mem 47 hc)) hbad
    · left
      by_cases ht2 : t2 = []
      · subst ht2
        simp
      · rcases hPl with h9 | h9 | h9
        · simp at h9
        · simp at h9
        · rw [show (47 : Nat) :: 47 :: t2 = [47, 47] ++ t2 from rfl] at h9
          rw [getLast?_append_right ht2] at h9
          exact h9

theorem canonicalize_idempotent_amended_witness :
    canonicalizeNR (pyStr "http://www.Example.com/a/b/?b=2&a=1&utm_source=x#frag") =
      .ok (pyStr "https://example.com/a/b?a=1&b=2") ∧
    canonicalizeNR (pyStr "https://example.com/a/b?a=1&b=2") =
      .ok (pyStr "https://example.com/a/b?a=1&b=2") :=
  ⟨by decide,
   canonicalize_idempotent_amended
     (pyStr "http://www.Example.com/a/b/?b=2&a=1&utm_source=x#frag")
     (pyStr "https://example.com/a/b?a=1&b=2")
     (by decide) (by decide) (by decide) (by decide) (by decide) (by decide)
     (by decide) (by decide) (by decide)⟩

end Threadify
